import Mathlib

/-! # Receipt processor: the points calculator of `main.go`

A shallow embedding of `calculatePoints` together with the parts of the Go
standard library it calls (`regexp`, `strings`, `strconv`, `math`, `time`).

Conventions of the embedding:

* A Go string is modelled by the list of its runes.  Every string of a receipt
  comes out of `encoding/json`, which only produces valid UTF-8, so nothing is
  lost; `len` is the number of bytes of the UTF-8 encoding.
* Go's `int` is the 64-bit two's complement integer: results of `+` and `*`
  are reduced by `wrapInt`.
* A `float64` is modelled exactly: a finite value is `(-1)^neg * m * 2^e`,
  and every operation rounds the exact result to nearest, ties to even.
* The handlers `processReceipt` and `getReceiptPoints` are steps on the state
  of the process (the variable `storeReceipts` with its mutex and its map);
  a step that would not return gives `none`.  The results of `json.Unmarshal`
  and of `uuid.New` are parameters of the model.
-/

set_option maxRecDepth 100000

namespace Receipts

/-! ## Machine integers -/

/-- Reduction of an integer to the range of Go's 64-bit `int`
(two's complement wrap-around). -/
def wrapInt (z : Int) : Int := (z + 2 ^ 63) % 2 ^ 64 - 2 ^ 63

/-! ## Strings -/

/-- Number of bytes of the UTF-8 encoding of one rune. -/
def runeLen (c : Char) : Nat :=
  if c.toNat < 0x80 then 1 else if c.toNat < 0x800 then 2 else if c.toNat < 0x10000 then 3 else 4

/-- Go's built-in `len` on a string: its number of bytes. -/
def len (s : List Char) : Nat := (s.map runeLen).sum

namespace regexp

/-- The compiled expression `[a-zA-z0-9]` of `calculatePoints`: one rune in one
of the ranges `a-z`, `A-z`, `0-9` (the middle range is written with a lower
case `z` in the source). -/
def alphaNumRegex (c : Char) : Bool :=
  ('a'.toNat ≤ c.toNat && c.toNat ≤ 'z'.toNat) ||
  ('A'.toNat ≤ c.toNat && c.toNat ≤ 'z'.toNat) ||
  ('0'.toNat ≤ c.toNat && c.toNat ≤ '9'.toNat)

/-- The call `re.FindAllString(s, -1)` for an expression that matches exactly
one rune of a class: the successive non-overlapping matches are the runes of
`s` that belong to the class, each as a one-rune string. -/
def FindAllString (re : Char → Bool) (s : List Char) : List (List Char) :=
  (s.filter re).map fun c => [c]

end regexp

namespace strings

/-- The function `strings.HasSuffix`:
`len(s) >= len(suffix) && s[len(s)-len(suffix):] == suffix`, on runes; on valid
UTF-8 the bytes of `s` end with the bytes of `suffix` exactly when the runes do. -/
def HasSuffix (s suffix : List Char) : Bool :=
  decide (suffix.length ≤ s.length) && s.drop (s.length - suffix.length) == suffix

/-- The predicate `unicode.IsSpace`: the runes with the White_Space property. -/
def isSpace (c : Char) : Bool :=
  let n := c.toNat
  (9 ≤ n && n ≤ 13) || n == 0x20 || n == 0x85 || n == 0xA0 || n == 0x1680 ||
  (0x2000 ≤ n && n ≤ 0x200A) || n == 0x2028 || n == 0x2029 || n == 0x202F ||
  n == 0x205F || n == 0x3000

/-- The function `strings.TrimSpace`: all leading and trailing white space removed. -/
def TrimSpace (s : List Char) : List Char :=
  ((s.dropWhile isSpace).reverse.dropWhile isSpace).reverse

end strings

/-! ## Package `time`: `time.Parse` for the two layouts used -/

namespace time

/-- The fields of a parsed `time.Time` that `calculatePoints` reads back. -/
structure Time where
  year : Nat
  month : Nat
  day : Nat
  hour : Nat
  min : Nat
  deriving DecidableEq, Repr

/-- The method `Time.Day`. -/
def Time.Day (t : Time) : Nat := t.day

/-- The method `Time.Hour`. -/
def Time.Hour (t : Time) : Nat := t.hour

/-- The pieces `nextStdChunk` cuts a layout into. -/
inductive Chunk where
  | lit (c : Char)
  | stdLongYear
  | stdZeroMonth
  | stdZeroDay
  | stdHour
  | stdZeroMinute
  deriving DecidableEq, Repr

/-- The layout `"2006-01-02"`. -/
def layoutDate : List Chunk :=
  [.stdLongYear, .lit '-', .stdZeroMonth, .lit '-', .stdZeroDay]

/-- The layout `"15:04"`. -/
def layoutClock : List Chunk := [.stdHour, .lit ':', .stdZeroMinute]

/-- Whether a rune is a decimal digit. -/
def digit (c : Char) : Bool := '0'.toNat ≤ c.toNat && c.toNat ≤ '9'.toNat

/-- Value of a decimal digit. -/
def digitVal (c : Char) : Nat := c.toNat - '0'.toNat

/-- The helper `getnum(s, fixed)`: a number of one or two digits from the front
of `s`; with `fixed` it must have two digits. -/
def getnum (s : List Char) (fixed : Bool) : Option (Nat × List Char) :=
  match s with
  | [] => none
  | c0 :: t =>
    if !digit c0 then none
    else
      match t with
      | c1 :: t1 =>
        if digit c1 then some (digitVal c0 * 10 + digitVal c1, t1)
        else if fixed then none else some (digitVal c0, t)
      | [] => if fixed then none else some (digitVal c0, t)

/-- The four-digit year of `stdLongYear`: `value[0:4]` read by `atoi`. -/
def getyear (s : List Char) : Option (Nat × List Char) :=
  match s with
  | c0 :: c1 :: c2 :: c3 :: t =>
    if digit c0 && digit c1 && digit c2 && digit c3 then
      some (digitVal c0 * 1000 + digitVal c1 * 100 + digitVal c2 * 10 + digitVal c3, t)
    else none
  | _ => none

/-- The helper `isLeap`. -/
def isLeap (year : Nat) : Bool := year % 4 == 0 && (year % 100 != 0 || year % 400 == 0)

/-- The helper `daysIn(month, year)`. -/
def daysIn (month year : Nat) : Nat :=
  if month == 2 then (if isLeap year then 29 else 28)
  else if month == 4 || month == 6 || month == 9 || month == 11 then 30
  else 31

/-- The values `Parse` collects while it walks the layout; `month` and `day`
are absent until a chunk sets them. -/
structure Fields where
  year : Nat := 0
  month : Option Nat := none
  day : Option Nat := none
  hour : Nat := 0
  min : Nat := 0

/-- The main loop of `time.Parse`: every chunk of the layout consumes a piece of
the value; a range error or a mismatch ends the parse, and so does text left
over after the last chunk. -/
def parseChunks : List Chunk → List Char → Fields → Option Fields
  | [], value, f => if value.isEmpty then some f else none
  | .lit c :: layout, value, f =>
    match value with
    | v :: rest => if v = c then parseChunks layout rest f else none
    | [] => none
  | .stdLongYear :: layout, value, f =>
    match getyear value with
    | some (y, rest) => parseChunks layout rest { f with year := y }
    | none => none
  | .stdZeroMonth :: layout, value, f =>
    match getnum value true with
    | some (m, rest) =>
      if m = 0 ∨ 12 < m then none else parseChunks layout rest { f with month := some m }
    | none => none
  | .stdZeroDay :: layout, value, f =>
    match getnum value true with
    | some (d, rest) => parseChunks layout rest { f with day := some d }
    | none => none
  | .stdHour :: layout, value, f =>
    match getnum value false with
    | some (h, rest) => if 24 ≤ h then none else parseChunks layout rest { f with hour := h }
    | none => none
  | .stdZeroMinute :: layout, value, f =>
    match getnum value true with
    | some (m, rest) => if 60 ≤ m then none else parseChunks layout rest { f with min := m }
    | none => none

/-- The function `time.Parse(layout, value)`: after the loop a missing month is
January, a missing day is 1, and the day of the month is validated. -/
def Parse (layout : List Chunk) (value : List Char) : Option Time :=
  match parseChunks layout value {} with
  | none => none
  | some f =>
    let month := f.month.getD 1
    let day := f.day.getD 1
    if day < 1 ∨ daysIn month f.year < day then none
    else some { year := f.year, month := month, day := day, hour := f.hour, min := f.min }

end time

/-! ## `float64` -/

/-- A `float64` value.  `finite neg m e` is `(-1)^neg * m * 2^e`; the operations
below depend on the value only, never on the representation chosen. -/
inductive F64 where
  | finite (neg : Bool) (m : Nat) (e : Int)
  | inf (neg : Bool)
  | nan
  deriving DecidableEq, Repr

namespace F64

/-- Number of binary digits of `n` added to `acc`, by halving at most `fuel` times. -/
def bitLenAux : Nat → Nat → Nat → Nat
  | 0, _, acc => acc
  | fuel + 1, n, acc => if n = 0 then acc else bitLenAux fuel (n / 2) (acc + 1)

/-- Number of binary digits of `n` (0 for 0). -/
def bitLen (n : Nat) : Nat := bitLenAux n n 0

/-- The integer nearest to `num / den`, a tie going to the even one. -/
def roundHalfEven (num den : Nat) : Nat :=
  let q := num / den
  let r := num % den
  if 2 * r < den then q else if den < 2 * r then q + 1 else if q % 2 = 0 then q else q + 1

/-- The `float64` nearest to `(-1)^neg * n / den / 2^1074` (ties to even) for a
positive `n`: the result is `m * 2^(j - 1074)` where `j` is the least exponent
that leaves at most 53 bits, `n / den < 2^(j + 53)`, and `m` is `n / (den * 2^j)`
rounded to an integer; from `2^1024` on, the result is an infinity. -/
def roundScaled (neg : Bool) (n den : Nat) : F64 :=
  let j1 := bitLen n - (bitLen den + 52)
  let j := if den * 2 ^ (j1 + 52) ≤ n then j1 else j1 - 1
  let m := roundHalfEven n (den * 2 ^ j)
  if 2045 < j ∨ (j = 2045 ∧ m = 2 ^ 53) then inf neg else finite neg m ((j : Int) - 1074)

/-- The `float64` nearest to `(-1)^neg * num / den` (ties to even): 53 significant
bits, no bit below `2^(-1074)`, and an infinity from `2^1024` on. -/
def round (neg : Bool) (num den : Nat) : F64 :=
  if num = 0 then finite neg 0 0 else roundScaled neg (num * 2 ^ 1074) den

/-- The `float64` nearest to `(-1)^neg * m * 2^e`. -/
def ofScaled (neg : Bool) (m : Nat) (e : Int) : F64 :=
  round neg (m * 2 ^ e.toNat) (2 ^ (-e).toNat)

/-- Multiplication of two `float64` values. -/
def mul : F64 → F64 → F64
  | finite n1 m1 e1, finite n2 m2 e2 => ofScaled (xor n1 n2) (m1 * m2) (e1 + e2)
  | finite n1 m1 _, inf n2 => if m1 = 0 then nan else inf (xor n1 n2)
  | inf n1, finite n2 m2 _ => if m2 = 0 then nan else inf (xor n1 n2)
  | inf n1, inf n2 => inf (xor n1 n2)
  | _, _ => nan

/-- The comparison `x == y` of two `float64` values: false when one is NaN, and
the two zeros are equal. -/
def eq : F64 → F64 → Bool
  | finite n1 m1 e1, finite n2 m2 e2 =>
    let e := min e1 e2
    let a := m1 * 2 ^ (e1 - e).toNat
    let b := m2 * 2 ^ (e2 - e).toNat
    a == b && (a == 0 || n1 == n2)
  | inf n1, inf n2 => n1 == n2
  | _, _ => false

/-- The constant `0`. -/
def zero : F64 := finite false 0 0

/-- The constant `.25` as a `float64`. -/
def quarter : F64 := round false 1 4

/-- The constant `0.2` as a `float64`. -/
def fifth : F64 := round false 1 5

/-- The conversion `int(x)`: the value truncated toward zero when that fits a
64-bit `int`; otherwise the language leaves the result to the implementation,
here the function `impl` (reduced to the range of `int`). -/
def toInt (impl : F64 → Int) : F64 → Int
  | finite neg m e =>
    let a : Int := if e < 0 then (m / 2 ^ (-e).toNat : Nat) else (m * 2 ^ e.toNat : Nat)
    let v : Int := if neg then -a else a
    if -2 ^ 63 ≤ v ∧ v < 2 ^ 63 then v else wrapInt (impl (finite neg m e))
  | x => wrapInt (impl x)

/-- Out-of-range conversions as the amd64 instruction does them: the smallest `int`. -/
def amd64 (_ : F64) : Int := -2 ^ 63

end F64

namespace math

open F64 in
/-- The function `math.Mod(x, y)`: the remainder of `x / y` with the sign of `x`;
NaN when `x` is infinite or NaN, or `y` is zero or NaN; `x` when `y` is infinite. -/
def Mod : F64 → F64 → F64
  | finite n1 m1 e1, finite _ m2 e2 =>
    if m2 = 0 then nan
    else
      let e := min e1 e2
      finite n1 ((m1 * 2 ^ (e1 - e).toNat) % (m2 * 2 ^ (e2 - e).toNat)) e
  | finite n1 m1 e1, inf _ => finite n1 m1 e1
  | _, _ => nan

open F64 in
/-- The function `math.Ceil(x)`: the least integer value not below `x`; zeros,
infinities and NaN are returned as they are. -/
def Ceil : F64 → F64
  | finite neg m e =>
    if e < 0 then
      let d := 2 ^ (-e).toNat
      if neg then finite true (m / d) 0
      else finite false (if m % d = 0 then m / d else m / d + 1) 0
    else finite neg m e
  | x => x

end math

/-! ## Package `strconv`: `ParseFloat(s, 64)` -/

namespace strconv

/-- The two errors of `strconv.ParseFloat`. -/
inductive NumError where
  | ErrSyntax
  | ErrRange
  deriving DecidableEq, Repr

deriving instance DecidableEq for Except

/-- The helper `lower(c)`, that is `c | ('x' - 'X')`. -/
def lower (c : Char) : Nat := c.toNat ||| 0x20

/-- Whether a rune is a decimal digit. -/
def isDigit (c : Char) : Bool := '0'.toNat ≤ c.toNat && c.toNat ≤ '9'.toNat

/-- Whether a rune is one of the hexadecimal digits `a`-`f`, `A`-`F`. -/
def isHexLetter (c : Char) : Bool := 'a'.toNat ≤ lower c && lower c ≤ 'f'.toNat

/-- The helper `commonPrefixLenIgnoreCase(s, pat)` for a lower case `pat`: how many
leading runes of `s` agree with `pat` once `A`-`Z` are lowered. -/
def commonPrefixLenIgnoreCase : List Char → List Char → Nat
  | c :: s, p :: pat =>
    let n := if 'A'.toNat ≤ c.toNat ∧ c.toNat ≤ 'Z'.toNat then c.toNat + 32 else c.toNat
    if n = p.toNat then commonPrefixLenIgnoreCase s pat + 1 else 0
  | _, _ => 0

/-- The infinity branch of `special`: `s` is what follows the optional sign. -/
def specialInf (neg : Bool) (nsign : Nat) (s : List Char) : Option (F64 × Nat) :=
  let n := commonPrefixLenIgnoreCase s "infinity".data
  let n := if 3 < n ∧ n < 8 then 3 else n
  if n = 3 ∨ n = 8 then some (F64.inf neg, nsign + n) else none

/-- The helper `special`: the values `inf`, `infinity` (with an optional sign) and
`nan` at the start of `s`, with the number of runes they take. -/
def special (s : List Char) : Option (F64 × Nat) :=
  match s with
  | [] => none
  | c :: t =>
    if c = '+' then specialInf false 1 t
    else if c = '-' then specialInf true 1 t
    else if c = 'i' ∨ c = 'I' then specialInf false 0 s
    else if c = 'n' ∨ c = 'N' then
      (if commonPrefixLenIgnoreCase s "nan".data = 3 then some (F64.nan, 3) else none)
    else none

/-- What the mantissa loop of `readFloat` has seen: `mant` is the number written
by all the digits read, `frac` how many of them stand after the point. -/
structure Mantissa where
  mant : Nat := 0
  frac : Nat := 0
  sawdot : Bool := false
  sawdigits : Bool := false
  underscores : Bool := false
  deriving DecidableEq, Repr

/-- The mantissa loop of `readFloat`: underscores are skipped and remembered, the
first point is noted, digits of the base are accumulated; the loop stops at a
second point or at any other rune, returning what is left. -/
def scanMantissa (base : Nat) : List Char → Mantissa → Mantissa × List Char
  | [], st => (st, [])
  | c :: cs, st =>
    if c = '_' then scanMantissa base cs { st with underscores := true }
    else if c = '.' then
      if st.sawdot then (st, c :: cs) else scanMantissa base cs { st with sawdot := true }
    else if isDigit c then
      scanMantissa base cs
        { st with sawdigits := true, mant := st.mant * base + (c.toNat - '0'.toNat),
                  frac := if st.sawdot then st.frac + 1 else st.frac }
    else if base = 16 ∧ isHexLetter c then
      scanMantissa base cs
        { st with sawdigits := true, mant := st.mant * base + (lower c - 'a'.toNat + 10),
                  frac := if st.sawdot then st.frac + 1 else st.frac }
    else (st, c :: cs)

/-- The exponent loop of `readFloat`: digits and underscores; the exponent stops
growing once it has reached 10000. -/
def scanExp : List Char → Nat → Bool → Nat × Bool × List Char
  | [], e, u => (e, u, [])
  | c :: cs, e, u =>
    if c = '_' then scanExp cs e true
    else if isDigit c then scanExp cs (if e < 10000 then e * 10 + (c.toNat - '0'.toNat) else e) u
    else (e, u, c :: cs)

/-- The loop of `underscoreOK`: `saw` is the kind of the last rune, `'0'` for a
digit, `'_'` for an underscore, `'!'` for anything else. -/
def underscoreLoop (hex : Bool) : List Char → Char → Bool
  | [], saw => saw != '_'
  | c :: cs, saw =>
    if isDigit c || (hex && isHexLetter c) then underscoreLoop hex cs '0'
    else if c = '_' then (if saw != '0' then false else underscoreLoop hex cs '_')
    else if saw = '_' then false
    else underscoreLoop hex cs '!'

/-- The helper `underscoreOK`: an underscore must stand between two digits, or
between a base marker and a digit. -/
def underscoreOK (s : List Char) : Bool :=
  let s := match s with
    | c :: t => if c = '-' ∨ c = '+' then t else s
    | [] => s
  match s with
  | c0 :: c1 :: t =>
    if c0 = '0' ∧ (lower c1 = 'b'.toNat ∨ lower c1 = 'o'.toNat ∨ lower c1 = 'x'.toNat) then
      underscoreLoop (lower c1 == 'x'.toNat) t '0'
    else underscoreLoop false s '^'
  | _ => underscoreLoop false s '^'

/-- A number as `readFloat` reads it: `(-1)^neg * mant * 10^exp`, or with `hex`
`(-1)^neg * mant * 2^exp`. -/
structure Literal where
  neg : Bool
  hex : Bool
  mant : Nat
  exp : Int
  deriving DecidableEq, Repr

/-- The exponent part of `readFloat`, entered after the mantissa with `s` the
text left: an exponent marker must be followed by an optional sign and a digit;
a hexadecimal mantissa must have an exponent.  The result is the signed exponent,
whether it had underscores, and the text left. -/
def readExp (hex : Bool) (s : List Char) : Option (Int × Bool × List Char) :=
  match s with
  | c :: t =>
    if lower c = (if hex then 'p'.toNat else 'e'.toNat) then
      match t with
      | [] => none
      | d :: t1 =>
        let body := if d = '+' ∨ d = '-' then t1 else t
        match body with
        | [] => none
        | b :: _ =>
          if !isDigit b then none
          else
            let r := scanExp body 0 false
            some (if d = '-' then -(r.1 : Int) else (r.1 : Int), r.2.1, r.2.2)
    else if hex then none else some (0, false, s)
  | [] => if hex then none else some (0, false, [])

/-- The mantissa and exponent parts of `readFloat`, on the text `s` that follows
the sign and the base marker.  The result is the mantissa, the exponent of the
base (of 2 for a hexadecimal mantissa), whether underscores were seen, and the
text left. -/
def readDigits (hex : Bool) (s : List Char) : Option (Nat × Int × Bool × List Char) :=
  let r := scanMantissa (if hex then 16 else 10) s {}
  if !r.1.sawdigits then none
  else
    match readExp hex r.2 with
    | none => none
    | some (e, u, rest) =>
      some (r.1.mant, e - (if hex then 4 * r.1.frac else r.1.frac : Nat),
        r.1.underscores || u, rest)

/-- The test for the base marker in `readFloat`: `0x` or `0X` followed by at least
one more rune. -/
def hasHexMarker (s : List Char) : Bool :=
  match s with
  | c0 :: c1 :: _ :: _ => decide (c0 = '0') && lower c1 == 'x'.toNat
  | _ => false

/-- The helper `readFloat`: sign, base marker `0x`, mantissa, exponent; then the
check of the underscores over the text consumed.  The result is the number read
and the text left over. -/
def readFloat (s : List Char) : Option (Literal × List Char) :=
  match s with
  | [] => none
  | c :: t =>
    let s1 := if c = '+' ∨ c = '-' then t else s
    let hex := hasHexMarker s1
    match readDigits hex (if hex then s1.drop 2 else s1) with
    | none => none
    | some (mant, exp, u, rest) =>
      if u && !underscoreOK (s.take (s.length - rest.length)) then none
      else some ({ neg := decide (c = '-'), hex := hex, mant := mant, exp := exp }, rest)

/-- The `float64` nearest to a literal (ties to even). -/
def Literal.toF64 (l : Literal) : F64 :=
  let b : Nat := if l.hex then 2 else 10
  if l.exp < 0 then F64.round l.neg l.mant (b ^ (-l.exp).toNat)
  else F64.round l.neg (l.mant * b ^ l.exp.toNat) 1

/-- The function `strconv.ParseFloat(s, 64)`: the whole of `s` must be a special
value or a decimal or hexadecimal floating-point number (`ErrSyntax` otherwise);
the result is the nearest `float64`, and `ErrRange` when that is an infinity. -/
def ParseFloat (s : List Char) : Except NumError F64 :=
  match special s with
  | some (f, n) => if n = s.length then .ok f else .error .ErrSyntax
  | none =>
    match readFloat s with
    | none => .error .ErrSyntax
    | some (l, rest) =>
      if !rest.isEmpty then .error .ErrSyntax
      else
        match l.toF64 with
        | .inf _ => .error .ErrRange
        | f => .ok f

end strconv

/-! ## `main.go` -/

/-- One element of the field `Items` of a receipt. -/
structure Item where
  ShortDescription : String
  Price : String
  deriving DecidableEq, Repr

/-- The type `receipt`. -/
structure receipt where
  Retailer : String
  PurchaseDate : String
  PurchaseTime : String
  Items : List Item
  Total : String
  deriving DecidableEq, Repr

/-- The body of the loop over the items in `calculatePoints`: `points` after one
more item. -/
def itemStep (impl : F64 → Int) (points : Int) (item : Item) : Int :=
  let trimItemDesc := strings.TrimSpace item.ShortDescription.data
  if len trimItemDesc % 3 = 0 then
    match strconv.ParseFloat item.Price.data with
    | .ok price => wrapInt (points + F64.toInt impl (math.Ceil (F64.mul price F64.fifth)))
    | .error _ => points
  else points

/-- The function `calculatePoints`.  The parameter `impl` is the result the
platform gives to a conversion `int(x)` whose value does not fit an `int`. -/
def calculatePoints (impl : F64 → Int) (rec : receipt) : Int :=
  let points : Int := 0
  -- One point for every alphanumeric character in the retailer name.
  let alphaNumChars := regexp.FindAllString regexp.alphaNumRegex rec.Retailer.data
  let points := wrapInt (points + alphaNumChars.length)
  -- 50 points if the total is a round dollar amount with no cents.
  let points := if strings.HasSuffix rec.Total.data ".00".data then wrapInt (points + 50) else points
  -- 25 points if the total is a multiple of 0.25.
  let points :=
    match strconv.ParseFloat rec.Total.data with
    | .ok total =>
      if F64.eq (math.Mod total F64.quarter) F64.zero then wrapInt (points + 25) else points
    | .error _ => points
  -- 5 points for every two items on the receipt.
  let points := wrapInt (points + wrapInt ((rec.Items.length / 2 : Nat) * 5))
  -- The description rule, item by item.
  let points := rec.Items.foldl (itemStep impl) points
  -- 6 points if the day in the purchase date is odd.
  let points :=
    match time.Parse time.layoutDate rec.PurchaseDate.data with
    | some date => if date.Day % 2 ≠ 0 then wrapInt (points + 6) else points
    | none => points
  -- 10 points if the time of purchase is after 2:00pm and before 4:00pm.
  let points :=
    match time.Parse time.layoutClock rec.PurchaseTime.data with
    | some purchaseTime =>
      if 14 ≤ purchaseTime.Hour ∧ purchaseTime.Hour < 16 then wrapInt (points + 10) else points
    | none => points
  points

/-! ### The seven amounts added by `calculatePoints`

Each amount is the exact integer; `calculatePoints` is their sum reduced to the
range of `int` (lemma `calculatePoints_eq_sum`). -/

/-- Rule 1: what the retailer name adds. -/
def retailerPoints (rec : receipt) : Int :=
  ((regexp.FindAllString regexp.alphaNumRegex rec.Retailer.data).length : Nat)

/-- Rule 2: what the suffix test on the total adds. -/
def roundDollarPoints (rec : receipt) : Int :=
  if strings.HasSuffix rec.Total.data ".00".data then 50 else 0

/-- Rule 3: what the multiple-of-a-quarter test on the total adds. -/
def quarterPoints (rec : receipt) : Int :=
  match strconv.ParseFloat rec.Total.data with
  | .ok total => if F64.eq (math.Mod total F64.quarter) F64.zero then 25 else 0
  | .error _ => 0

/-- Rule 4: what the number of items adds. -/
def pairPoints (rec : receipt) : Int := (rec.Items.length / 2 : Nat) * 5

/-- Rule 5 for one item: what the loop body adds for it. -/
def itemPoints (impl : F64 → Int) (item : Item) : Int :=
  if len (strings.TrimSpace item.ShortDescription.data) % 3 = 0 then
    match strconv.ParseFloat item.Price.data with
    | .ok price => F64.toInt impl (math.Ceil (F64.mul price F64.fifth))
    | .error _ => 0
  else 0

/-- Rule 5: what the loop over the items adds. -/
def descriptionPoints (impl : F64 → Int) (rec : receipt) : Int :=
  (rec.Items.map (itemPoints impl)).sum

/-- Rule 6: what the purchase date adds. -/
def datePoints (rec : receipt) : Int :=
  match time.Parse time.layoutDate rec.PurchaseDate.data with
  | some date => if date.Day % 2 ≠ 0 then 6 else 0
  | none => 0

/-- Rule 7: what the purchase time adds. -/
def timePoints (rec : receipt) : Int :=
  match time.Parse time.layoutClock rec.PurchaseTime.data with
  | some purchaseTime => if 14 ≤ purchaseTime.Hour ∧ purchaseTime.Hour < 16 then 10 else 0
  | none => 0

/-! ### The store `storeReceipts` and the two handlers

The handlers are modelled as steps on the state of the process.  What they take
from outside the program is a parameter: the result of `json.Unmarshal`, the
values drawn by `uuid.New`, and the platform's out-of-range conversion. -/

namespace sync

/-- The state of a `sync.RWMutex`: whether a writer holds it, and the number of
readers that hold it. -/
structure RWMutex where
  writer : Bool
  readers : Nat
  deriving DecidableEq, Repr

/-- The method `Lock`: it returns once neither a writer nor a reader holds the
mutex; `none` stands for a call that does not return. -/
def RWMutex.Lock (rw : RWMutex) : Option RWMutex :=
  if rw.writer = false ∧ rw.readers = 0 then some ⟨true, 0⟩ else none

/-- The method `Unlock`: fatal (`none`) when no writer holds the mutex. -/
def RWMutex.Unlock (rw : RWMutex) : Option RWMutex :=
  if rw.writer = true then some ⟨false, rw.readers⟩ else none

/-- The method `RLock`: it returns once no writer holds the mutex. -/
def RWMutex.RLock (rw : RWMutex) : Option RWMutex :=
  if rw.writer = false then some ⟨false, rw.readers + 1⟩ else none

/-- The method `RUnlock`: fatal (`none`) when no reader holds the mutex. -/
def RWMutex.RUnlock (rw : RWMutex) : Option RWMutex :=
  if 0 < rw.readers then some ⟨rw.writer, rw.readers - 1⟩ else none

end sync

namespace http

/-- The constant `http.StatusOK`. -/
def StatusOK : Nat := 200

/-- The constant `http.StatusFound`. -/
def StatusFound : Nat := 302

/-- The constant `http.StatusBadRequest`. -/
def StatusBadRequest : Nat := 400

/-- The constant `http.StatusNotFound`. -/
def StatusNotFound : Nat := 404

end http

namespace gin

/-- The values that the handlers put in a `gin.H`: a string or an `int`. -/
inductive Value where
  | str (s : String)
  | int (n : Int)
  deriving DecidableEq, Repr

/-- The type `gin.H`, as the list of its entries. -/
abbrev H := List (String × Value)

/-- What a handler writes to its `gin.Context`: `c.JSON(code, obj)` or
`c.Redirect(code, location)`. -/
inductive Response where
  | JSON (code : Nat) (obj : H)
  | Redirect (code : Nat) (location : String)
  deriving DecidableEq, Repr

end gin

/-- The type `map[string]receipt`, as the list of its entries; the keys of the
entries are distinct. -/
abbrev receiptMap := List (String × receipt)

/-- The index expression in the form `v, ok := m[key]`. -/
def receiptMap.index : receiptMap → String → Option receipt
  | [], _ => none
  | (k, v) :: m, key => if k = key then some v else receiptMap.index m key

/-- The assignment `m[key] = v`. -/
def receiptMap.assign : receiptMap → String → receipt → receiptMap
  | [], key, v => [(key, v)]
  | (k, w) :: m, key, v =>
    if k = key then (key, v) :: m else (k, w) :: receiptMap.assign m key v

/-- The type of the variable `storeReceipts`: a `sync.RWMutex` and the map
`receipts`. -/
structure Store where
  RWMutex : sync.RWMutex
  receipts : receiptMap
  deriving DecidableEq, Repr

/-- The state of the process: the variable `storeReceipts`, and the number of
values that `uuid.New` has drawn so far. -/
structure State where
  storeReceipts : Store
  drawn : Nat
  deriving DecidableEq, Repr

/-- The state when `main` starts: the mutex is free and the map is empty. -/
def State.start : State := ⟨⟨⟨false, 0⟩, []⟩, 0⟩

/-- What the handlers take from outside the program. -/
structure Env where
  /-- The call `json.Unmarshal([]byte(jsonInput), &rec)` on a zero `rec`: the
  decoded receipt, or `none` when the error is not `nil`. -/
  Unmarshal : String → Option receipt
  /-- The string `uuid.New().String()` for the `k`-th value that `uuid.New` draws. -/
  New : Nat → String
  /-- The platform's conversion `int(x)` of a value that does not fit an `int`. -/
  impl : F64 → Int

/-- The function `generateID`. -/
def generateID (env : Env) (st : State) : String × State :=
  let id := env.New st.drawn
  (id, ⟨st.storeReceipts, st.drawn + 1⟩)

/-- The handler `processReceipt`, for the form value `jsonInput`. -/
def processReceipt (env : Env) (jsonInput : String) (st : State) :
    Option (gin.Response × State) :=
  match env.Unmarshal jsonInput with
  | none =>
    some (.JSON http.StatusBadRequest [("error", .str "Failed to decode JSON")], st)
  | some rec =>
    let (id, st) := generateID env st
    match st.storeReceipts.RWMutex.Lock with
    | none => none
    | some mu =>
      let receipts := receiptMap.assign st.storeReceipts.receipts id rec
      match mu.Unlock with
      | none => none
      | some mu =>
        let redirectURL := "/receipt-id.html?id=" ++ id
        some (.Redirect http.StatusFound redirectURL, ⟨⟨mu, receipts⟩, st.drawn⟩)

/-- The handler `getReceiptPoints`, for the path parameter `id`. -/
def getReceiptPoints (env : Env) (id : String) (st : State) :
    Option (gin.Response × State) :=
  match st.storeReceipts.RWMutex.RLock with
  | none => none
  | some mu =>
    let found := receiptMap.index st.storeReceipts.receipts id
    match mu.RUnlock with
    | none => none
    | some mu =>
      let st : State := ⟨⟨mu, st.storeReceipts.receipts⟩, st.drawn⟩
      match found with
      | none => some (.JSON http.StatusNotFound [("Error", .str "Receipt not found")], st)
      | some rec =>
        let points := calculatePoints env.impl rec
        some (.JSON http.StatusOK [("points", .int points)], st)

/-- A request that the router of `main` hands to one of the two handlers. -/
inductive Request where
  /-- `POST /receipts/process` with the form value `jsonInput`. -/
  | process (jsonInput : String)
  /-- `GET /receipts/:id/points`. -/
  | points (id : String)
  deriving DecidableEq, Repr

/-- The routes of `main` for the two handlers. -/
def route (env : Env) : Request → State → Option (gin.Response × State)
  | .process jsonInput, st => processReceipt env jsonInput st
  | .points id, st => getReceiptPoints env id st

/-- Requests served one after the other: the responses, in order, and the
state at the end. -/
def serve (env : Env) : List Request → State → Option (List gin.Response × State)
  | [], st => some ([], st)
  | req :: rest, st =>
    match route env req st with
    | none => none
    | some (resp, st) =>
      match serve env rest st with
      | none => none
      | some (resps, st) => some (resp :: resps, st)

/-! ## Notions of the specification -/

/-- An ASCII letter (`a`-`z`, `A`-`Z`) or a decimal digit, as rule 1 is worded. -/
def isAsciiAlnum (c : Char) : Bool :=
  ('a'.toNat ≤ c.toNat && c.toNat ≤ 'z'.toNat) ||
  ('A'.toNat ≤ c.toNat && c.toNat ≤ 'Z'.toNat) ||
  ('0'.toNat ≤ c.toNat && c.toNat ≤ '9'.toNat)

/-- A receipt of which only the total is filled in. -/
def totalOnly (total : String) : receipt := ⟨"", "", "", [], total⟩

/-- The two-digit decimal writing of a number below 100. -/
def twoDigits (n : Nat) : List Char :=
  [Char.ofNat ('0'.toNat + n / 10), Char.ofNat ('0'.toNat + n % 10)]

/-- The four-digit decimal writing of a number below 10000. -/
def fourDigits (n : Nat) : List Char :=
  [Char.ofNat ('0'.toNat + n / 1000), Char.ofNat ('0'.toNat + n / 100 % 10),
   Char.ofNat ('0'.toNat + n / 10 % 10), Char.ofNat ('0'.toNat + n % 10)]

/-- The writing `YYYY-MM-DD` of a date. -/
def dateString (y m d : Nat) : List Char := fourDigits y ++ '-' :: twoDigits m ++ '-' :: twoDigits d

/-- The writing `HH:MM` of a time of day. -/
def clockString (h m : Nat) : List Char := twoDigits h ++ ':' :: twoDigits m

/-- Leap years of the Gregorian calendar. -/
def leapYear (y : Nat) : Prop := (y % 4 = 0 ∧ y % 100 ≠ 0) ∨ y % 400 = 0

instance (y : Nat) : Decidable (leapYear y) := by unfold leapYear; infer_instance

/-- Number of days of month `m` of year `y` in the Gregorian calendar. -/
def monthLength (y m : Nat) : Nat :=
  match m with
  | 1 => 31
  | 2 => if leapYear y then 29 else 28
  | 3 => 31
  | 4 => 30
  | 5 => 31
  | 6 => 30
  | 7 => 31
  | 8 => 31
  | 9 => 30
  | 10 => 31
  | 11 => 30
  | 12 => 31
  | _ => 0

/-- A day `d` of month `m` of year `y` that exists in the calendar, with a year
of at most four digits. -/
def validDate (y m d : Nat) : Prop := y ≤ 9999 ∧ 1 ≤ m ∧ m ≤ 12 ∧ 1 ≤ d ∧ d ≤ monthLength y m

/-- A receipt of which only the purchase date is filled in. -/
def dateOnly (date : String) : receipt := ⟨"", date, "", [], ""⟩

/-- A receipt of which only the purchase time is filled in. -/
def timeOnly (t : String) : receipt := ⟨"", "", t, [], ""⟩

/-- The number written by a string of decimal digits. -/
def decimalValue (ds : List Char) : Nat :=
  ds.foldl (fun a c => a * 10 + (c.toNat - '0'.toNat)) 0

/-- An amount written as a string of digits, a point and two more digits. -/
def amountString (ds : List Char) (c1 c2 : Char) : List Char := ds ++ ['.', c1, c2]

/-- The number of cents of the amount `amountString ds c1 c2`. -/
def amountCents (ds : List Char) (c1 c2 : Char) : Nat :=
  decimalValue (ds ++ [c1, c2])

/-- The exact value of a finite `float64` (and 0 for the other values). -/
def F64.toRat : F64 → ℚ
  | .finite neg m e => (if neg then -1 else 1) * (m : ℚ) * (2 : ℚ) ^ e
  | _ => 0

/-- A small receipt: one item that qualifies for rule 5 and one that does not. -/
def smallReceipt : receipt :=
  ⟨"Target", "2022-01-01", "13:01",
    [⟨"Emils Cheese Pizza", "12.25"⟩, ⟨"Mountain Dew 12PK", "6.49"⟩], "35.35"⟩

/-- The exact value of a number as `readFloat` reads it. -/
def strconv.Literal.toRat (l : strconv.Literal) : ℚ :=
  (if l.neg then -1 else 1) * (l.mant : ℚ) * (if l.hex then 2 else 10 : ℚ) ^ l.exp

/-- The seven amounts that `calculatePoints` adds for a receipt, in the order of
the rules. -/
def contributions (impl : F64 → Int) (rec : receipt) : List Int :=
  [retailerPoints rec, roundDollarPoints rec, quarterPoints rec, pairPoints rec,
    descriptionPoints impl rec, datePoints rec, timePoints rec]

/-- The receipt `rec` with another purchase date. -/
def withDate (rec : receipt) (date : String) : receipt :=
  ⟨rec.Retailer, date, rec.PurchaseTime, rec.Items, rec.Total⟩

/-- The receipt `rec` with another purchase time. -/
def withTime (rec : receipt) (t : String) : receipt :=
  ⟨rec.Retailer, rec.PurchaseDate, t, rec.Items, rec.Total⟩

/-- The receipt `rec` with another total. -/
def withTotal (rec : receipt) (total : String) : receipt :=
  ⟨rec.Retailer, rec.PurchaseDate, rec.PurchaseTime, rec.Items, total⟩

/-- The receipt `rec` with other items. -/
def withItems (rec : receipt) (items : List Item) : receipt :=
  ⟨rec.Retailer, rec.PurchaseDate, rec.PurchaseTime, items, rec.Total⟩

/-- A receipt of scenario A: retailer `Target`, total `35.35`, five items, bought
on 2022-01-01 at 13:01. -/
def scenarioA : receipt :=
  ⟨"Target", "2022-01-01", "13:01",
    [⟨"Mountain Dew 12PK", "6.49"⟩, ⟨"Emils Cheese Pizza", "12.25"⟩,
      ⟨"Knorr Creamy Chicken", "1.26"⟩, ⟨"Doritos Nacho Cheese", "3.35"⟩,
      ⟨"   Klarbrunn 12-PK 12 FL OZ  ", "12.00"⟩], "35.35"⟩

/-- A receipt with two items that qualify for rule 5, each with the price `4e19`. -/
def largePrices : receipt := ⟨"", "", "", [⟨"abc", "4e19"⟩, ⟨"abc", "4e19"⟩], ""⟩

/-- No request is being served: no writer and no reader holds the mutex of
`storeReceipts`. -/
def State.idle (st : State) : Prop := st.storeReceipts.RWMutex = ⟨false, 0⟩

instance (st : State) : Decidable (State.idle st) := by unfold State.idle; infer_instance

/-- The identifiers present in a map. -/
def receiptMap.keys (m : receiptMap) : List String := m.map fun e => e.1

/-- The response of `processReceipt` that hands out the identifier `id`: the
redirection (status 302) to the page of `id`. -/
def redirectTo (id : String) : gin.Response := .Redirect 302 ("/receipt-id.html?id=" ++ id)

/-- The client-error response (status 400) of `processReceipt`. -/
def decodeFailed : gin.Response := .JSON 400 [("error", .str "Failed to decode JSON")]

/-- The not-found response (status 404) of `getReceiptPoints`. -/
def receiptNotFound : gin.Response := .JSON 404 [("Error", .str "Receipt not found")]

/-- The success response (status 200) of `getReceiptPoints` with the points `n`. -/
def pointsFound (n : Int) : gin.Response := .JSON 200 [("points", .int n)]

/-- An environment to run the handlers in: the only text `Unmarshal` decodes is
the empty JSON object, to the zero receipt, and the `k`-th identifier drawn is
`k + 1` letters `a`. -/
def sampleEnv : Env :=
  ⟨fun s => if s = "\x7b\x7d" then some ⟨"", "", "", [], ""⟩ else none,
    fun k => String.mk (List.replicate (k + 1) 'a'), F64.amd64⟩

/-- The runes that the class `[a-zA-z0-9]` matches, by their code: `0`..`9`
(0x30..0x39), `a`..`z` (0x61..0x7A), and the whole range from `A` to `z`
(0x41..0x7A). -/
def inRetailerClass (c : Char) : Bool :=
  (0x30 ≤ c.toNat && c.toNat ≤ 0x39) || (0x61 ≤ c.toNat && c.toNat ≤ 0x7A) ||
    (0x41 ≤ c.toNat && c.toNat ≤ 0x7A)

/-- The six runes between `Z` and `a`: the brackets, the backslash, the caret,
the underscore and the backquote (codes 0x5B..0x60). -/
def betweenCases : List Char := [91, 92, 93, 94, 95, 96].map Char.ofNat

/-- A receipt of which only the retailer is filled in. -/
def retailerOnly (retailer : String) : receipt := ⟨retailer, "", "", [], ""⟩

/-! ## Lemmas on `wrapInt` and the decomposition of `calculatePoints` -/

theorem wrapInt_of_range {z : Int} (h1 : -2 ^ 63 ≤ z) (h2 : z < 2 ^ 63) : wrapInt z = z := by
  unfold wrapInt
  rw [Int.emod_eq_of_lt (by omega) (by omega)]
  omega

theorem wrapInt_range (z : Int) : -2 ^ 63 ≤ wrapInt z ∧ wrapInt z < 2 ^ 63 := by
  unfold wrapInt
  have h1 := Int.emod_nonneg (z + 2 ^ 63) (b := 2 ^ 64) (by norm_num)
  have h2 := Int.emod_lt_of_pos (z + 2 ^ 63) (b := 2 ^ 64) (by norm_num)
  constructor <;> omega

theorem wrapInt_add_left (a b : Int) : wrapInt (wrapInt a + b) = wrapInt (a + b) := by
  unfold wrapInt
  omega

theorem wrapInt_add_right (a b : Int) : wrapInt (a + wrapInt b) = wrapInt (a + b) := by
  unfold wrapInt
  omega

theorem wrapInt_idem (a : Int) : wrapInt (wrapInt a) = wrapInt a := by
  unfold wrapInt
  omega

theorem itemStep_eq (impl : F64 → Int) (p : Int) (item : Item) :
    itemStep impl (wrapInt p) item = wrapInt (p + itemPoints impl item) := by
  unfold itemStep itemPoints
  by_cases h : len (strings.TrimSpace item.ShortDescription.data) % 3 = 0
  · simp only [h, if_true]
    cases strconv.ParseFloat item.Price.data <;> simp [wrapInt_add_left]
  · simp [h]

theorem foldl_itemStep (impl : F64 → Int) (items : List Item) (p : Int) :
    items.foldl (itemStep impl) (wrapInt p) = wrapInt (p + (items.map (itemPoints impl)).sum) := by
  induction items generalizing p with
  | nil => simp
  | cons item items ih =>
    simp only [List.foldl_cons, List.map_cons, List.sum_cons]
    rw [itemStep_eq, ih]
    congr 1
    ring

/-- The result of `calculatePoints` is the sum of the seven amounts, reduced to
the range of `int`. -/
theorem calculatePoints_eq_sum (impl : F64 → Int) (rec : receipt) :
    calculatePoints impl rec =
      wrapInt (retailerPoints rec + roundDollarPoints rec + quarterPoints rec + pairPoints rec +
        descriptionPoints impl rec + datePoints rec + timePoints rec) := by
  unfold calculatePoints retailerPoints roundDollarPoints quarterPoints pairPoints
    descriptionPoints datePoints timePoints
  simp only [zero_add]
  have e1 : ∀ (a : Int) (c : Prop) [Decidable c] (k : Int),
      (if c then wrapInt (wrapInt a + k) else wrapInt a) = wrapInt (a + if c then k else 0) := by
    intro a c _ k
    split <;> simp [wrapInt_add_left]
  rw [e1]
  have e2 : ∀ (a : Int),
      (match strconv.ParseFloat rec.Total.data with
        | .ok total =>
          if F64.eq (math.Mod total F64.quarter) F64.zero then wrapInt (wrapInt a + 25)
          else wrapInt a
        | .error _ => wrapInt a) =
      wrapInt (a + match strconv.ParseFloat rec.Total.data with
        | .ok total => if F64.eq (math.Mod total F64.quarter) F64.zero then 25 else 0
        | .error _ => 0) := by
    intro a
    split
    · split <;> simp [wrapInt_add_left]
    · simp
  rw [e2, wrapInt_add_left, wrapInt_add_right, foldl_itemStep]
  have e3 : ∀ (a : Int),
      (match time.Parse time.layoutDate rec.PurchaseDate.data with
        | some date => if date.Day % 2 ≠ 0 then wrapInt (wrapInt a + 6) else wrapInt a
        | none => wrapInt a) =
      wrapInt (a + match time.Parse time.layoutDate rec.PurchaseDate.data with
        | some date => if date.Day % 2 ≠ 0 then 6 else 0
        | none => 0) := by
    intro a
    split
    · split <;> simp [wrapInt_add_left]
    · simp
  rw [e3]
  have e4 : ∀ (a : Int),
      (match time.Parse time.layoutClock rec.PurchaseTime.data with
        | some purchaseTime =>
          if 14 ≤ purchaseTime.Hour ∧ purchaseTime.Hour < 16 then wrapInt (wrapInt a + 10)
          else wrapInt a
        | none => wrapInt a) =
      wrapInt (a + match time.Parse time.layoutClock rec.PurchaseTime.data with
        | some purchaseTime =>
          if 14 ≤ purchaseTime.Hour ∧ purchaseTime.Hour < 16 then 10 else 0
        | none => 0) := by
    intro a
    split
    · split <;> simp [wrapInt_add_left]
    · simp
  rw [e4]

/-! ## Rule 1: the retailer name -/

/-- C1, the code at a failing input: for the retailer `_[`, with no item and the
other fields empty, `calculatePoints` returns 2, although the name has no ASCII
letter and no digit; the name `Target` gives 6. -/
theorem C1_retailer_symbols_counted (impl : F64 → Int) :
    calculatePoints impl ⟨"_[", "", "", [], ""⟩ = 2 ∧
    ("_[".data.filter isAsciiAlnum).length = 0 ∧
    calculatePoints impl ⟨"Target", "", "", [], ""⟩ = 6 :=
  ⟨rfl, rfl, rfl⟩

/-! ## Rule 2: the suffix `.00` -/

theorem HasSuffix_iff (s suffix : List Char) :
    strings.HasSuffix s suffix = true ↔ ∃ p, s = p ++ suffix := by
  unfold strings.HasSuffix
  constructor
  · intro h
    simp only [Bool.and_eq_true, decide_eq_true_eq, beq_iff_eq] at h
    refine ⟨s.take (s.length - suffix.length), ?_⟩
    conv_lhs => rw [← List.take_append_drop (s.length - suffix.length) s]
    rw [h.2]
  · rintro ⟨p, rfl⟩
    simp

/-- C6: the amount added by rule 2 is 50 exactly when the total ends with the
three characters `.00`, and 0 otherwise, whether or not the total is a number:
`9.00` and `abc.00` earn 50, while `9`, `9.0`, `9.000` and the empty total earn 0;
the amount is one of the seven summands of `calculatePoints`. -/
theorem C6_round_dollar_suffix (impl : F64 → Int) (rec : receipt) :
    (roundDollarPoints rec = 50 ↔ ∃ p, rec.Total.data = p ++ ['.', '0', '0']) ∧
    (roundDollarPoints rec ≠ 50 → roundDollarPoints rec = 0) ∧
    calculatePoints impl rec =
      wrapInt (retailerPoints rec + roundDollarPoints rec + quarterPoints rec + pairPoints rec +
        descriptionPoints impl rec + datePoints rec + timePoints rec) ∧
    roundDollarPoints (totalOnly "9.00") = 50 ∧ roundDollarPoints (totalOnly "abc.00") = 50 ∧
    calculatePoints impl (totalOnly "abc.00") = 50 ∧
    roundDollarPoints (totalOnly "9") = 0 ∧ roundDollarPoints (totalOnly "9.0") = 0 ∧
    roundDollarPoints (totalOnly "9.000") = 0 ∧ roundDollarPoints (totalOnly "") = 0 := by
  refine ⟨?_, ?_, calculatePoints_eq_sum impl rec, rfl, rfl, rfl, rfl, rfl, rfl, rfl⟩
  · unfold roundDollarPoints
    rw [← HasSuffix_iff]
    split <;> simp_all
  · unfold roundDollarPoints
    split <;> simp

/-! ## Rule 4: pairs of items -/

/-- C10: the amount added by rule 4 for a receipt with `n` items is
`floor(n / 2) * 5`; so `2k` and `2k+1` items add the same amount, and fewer than
two items add nothing; the amount is one of the seven summands of
`calculatePoints`. -/
theorem C10_item_pairs (impl : F64 → Int) (rec : receipt) :
    pairPoints rec = ⌊(rec.Items.length : ℚ) / 2⌋ * 5 ∧
    calculatePoints impl rec =
      wrapInt (retailerPoints rec + roundDollarPoints rec + quarterPoints rec + pairPoints rec +
        descriptionPoints impl rec + datePoints rec + timePoints rec) ∧
    (∀ (r1 r2 : receipt) (k : Nat), r1.Items.length = 2 * k → r2.Items.length = 2 * k + 1 →
      pairPoints r1 = 5 * k ∧ pairPoints r2 = 5 * k) ∧
    (rec.Items.length ≤ 1 → pairPoints rec = 0) := by
  refine ⟨?_, calculatePoints_eq_sum impl rec, ?_, ?_⟩
  · unfold pairPoints
    have h : ⌊(rec.Items.length : ℚ) / 2⌋ = ((rec.Items.length / 2 : Nat) : Int) := by
      have := Rat.floor_natCast_div_natCast rec.Items.length 2
      simpa using this
    rw [h]
  · intro r1 r2 k h1 h2
    unfold pairPoints
    rw [h1, h2]
    have e1 : 2 * k / 2 = k := by omega
    have e2 : (2 * k + 1) / 2 = k := by omega
    rw [e1, e2]
    constructor <;> ring
  · intro h
    unfold pairPoints
    have : rec.Items.length / 2 = 0 := by omega
    rw [this]
    simp

/-! ## Rules 6 and 7: `time.Parse` -/

theorem digit_ofNat (k : Nat) (h : k < 10) :
    time.digit (Char.ofNat ('0'.toNat + k)) = true ∧
      time.digitVal (Char.ofNat ('0'.toNat + k)) = k := by
  interval_cases k <;> exact ⟨rfl, rfl⟩

theorem digit_eq_ofNat (c : Char) (h : time.digit c = true) :
    time.digitVal c < 10 ∧ c = Char.ofNat ('0'.toNat + time.digitVal c) := by
  unfold time.digit at h
  unfold time.digitVal
  simp only [Bool.and_eq_true, decide_eq_true_eq] at h
  have h0 : '0'.toNat = 48 := rfl
  have h9 : '9'.toNat = 57 := rfl
  rw [h0, h9] at h
  rw [h0]
  refine ⟨by omega, ?_⟩
  have : 48 + (c.toNat - 48) = c.toNat := by omega
  rw [this, Char.ofNat_toNat]

theorem getnum_fixed_some (s rest : List Char) (n : Nat) :
    time.getnum s true = some (n, rest) ↔
      ∃ a b, a < 10 ∧ b < 10 ∧ n = a * 10 + b ∧
        s = Char.ofNat ('0'.toNat + a) :: Char.ofNat ('0'.toNat + b) :: rest := by
  constructor
  · intro h
    unfold time.getnum at h
    match s, h with
    | c0 :: c1 :: t, h =>
      by_cases h0 : time.digit c0 = true <;> by_cases h1 : time.digit c1 = true <;>
        simp [h0, h1] at h
      obtain ⟨hn, ht⟩ := h
      obtain ⟨ha, ea⟩ := digit_eq_ofNat c0 h0
      obtain ⟨hb, eb⟩ := digit_eq_ofNat c1 h1
      exact ⟨_, _, ha, hb, hn.symm, by rw [← ea, ← eb, ht]⟩
    | [c0], h =>
      by_cases h0 : time.digit c0 = true <;> simp [h0] at h
  · rintro ⟨a, b, ha, hb, rfl, rfl⟩
    obtain ⟨da, va⟩ := digit_ofNat a ha
    obtain ⟨db, vb⟩ := digit_ofNat b hb
    simp only [time.getnum, da, db, va, vb]
    simp

theorem getyear_some (s rest : List Char) (y : Nat) :
    time.getyear s = some (y, rest) ↔ y ≤ 9999 ∧ s = fourDigits y ++ rest := by
  constructor
  · intro h
    unfold time.getyear at h
    match s, h with
    | c0 :: c1 :: c2 :: c3 :: t, h =>
      by_cases h0 : time.digit c0 = true <;> by_cases h1 : time.digit c1 = true <;>
        by_cases h2 : time.digit c2 = true <;> by_cases h3 : time.digit c3 = true <;>
        simp [h0, h1, h2, h3] at h
      obtain ⟨hn, ht⟩ := h
      obtain ⟨l0, e0⟩ := digit_eq_ofNat c0 h0
      obtain ⟨l1, e1⟩ := digit_eq_ofNat c1 h1
      obtain ⟨l2, e2⟩ := digit_eq_ofNat c2 h2
      obtain ⟨l3, e3⟩ := digit_eq_ofNat c3 h3
      subst hn ht
      refine ⟨by omega, ?_⟩
      have q0 : (time.digitVal c0 * 1000 + time.digitVal c1 * 100 + time.digitVal c2 * 10 +
          time.digitVal c3) / 1000 = time.digitVal c0 := by omega
      have q1 : (time.digitVal c0 * 1000 + time.digitVal c1 * 100 + time.digitVal c2 * 10 +
          time.digitVal c3) / 100 % 10 = time.digitVal c1 := by omega
      have q2 : (time.digitVal c0 * 1000 + time.digitVal c1 * 100 + time.digitVal c2 * 10 +
          time.digitVal c3) / 10 % 10 = time.digitVal c2 := by omega
      have q3 : (time.digitVal c0 * 1000 + time.digitVal c1 * 100 + time.digitVal c2 * 10 +
          time.digitVal c3) % 10 = time.digitVal c3 := by omega
      simp only [fourDigits, q0, q1, q2, q3, ← e0, ← e1, ← e2, ← e3, List.cons_append,
        List.nil_append]
  · rintro ⟨hy, rfl⟩
    obtain ⟨d0, v0⟩ := digit_ofNat (y / 1000) (by omega)
    obtain ⟨d1, v1⟩ := digit_ofNat (y / 100 % 10) (by omega)
    obtain ⟨d2, v2⟩ := digit_ofNat (y / 10 % 10) (by omega)
    obtain ⟨d3, v3⟩ := digit_ofNat (y % 10) (by omega)
    simp only [fourDigits, List.cons_append, List.nil_append, time.getyear, d0, d1, d2, d3, v0,
      v1, v2, v3]
    simp
    omega

theorem two_digits_split (n : Nat) (a b : Nat) (hb : b < 10) (h : n = a * 10 + b) :
    twoDigits n = [Char.ofNat ('0'.toNat + a), Char.ofNat ('0'.toNat + b)] := by
  have e1 : n / 10 = a := by omega
  have e2 : n % 10 = b := by omega
  simp only [twoDigits, e1, e2]

theorem getnum_fixed_twoDigits (n : Nat) (hn : n < 100) (rest : List Char) :
    time.getnum (twoDigits n ++ rest) true = some (n, rest) := by
  rw [getnum_fixed_some]
  exact ⟨n / 10, n % 10, by omega, by omega, by omega, rfl⟩

theorem getnum_fixed_some_twoDigits (s rest : List Char) (n : Nat)
    (h : time.getnum s true = some (n, rest)) : n < 100 ∧ s = twoDigits n ++ rest := by
  rw [getnum_fixed_some] at h
  obtain ⟨a, b, ha, hb, hn, rfl⟩ := h
  refine ⟨by omega, ?_⟩
  rw [two_digits_split n a b hb hn]
  rfl

theorem daysIn_eq_monthLength (y m : Nat) (h1 : 1 ≤ m) (h2 : m ≤ 12) :
    time.daysIn m y = monthLength y m := by
  have hl : time.isLeap y = true ↔ leapYear y := by
    unfold time.isLeap leapYear
    simp only [Bool.and_eq_true, Bool.or_eq_true, beq_iff_eq, bne_iff_ne]
    omega
  unfold time.daysIn
  interval_cases m <;> simp [monthLength, hl]

/-- The function `time.Parse` with the layout `2006-01-02` accepts exactly the
writings `YYYY-MM-DD` of existing days, and returns that day. -/
theorem Parse_layoutDate (s : List Char) (t : time.Time) :
    time.Parse time.layoutDate s = some t ↔
      ∃ y m d, validDate y m d ∧ s = dateString y m d ∧ t = ⟨y, m, d, 0, 0⟩ := by
  unfold time.Parse time.layoutDate
  constructor
  · intro h
    simp only [time.parseChunks] at h
    cases hy : time.getyear s with
    | none => simp [hy] at h
    | some p =>
      obtain ⟨y, r1⟩ := p
      simp only [hy] at h
      obtain ⟨hy4, rfl⟩ := (getyear_some s r1 y).1 hy
      cases r1 with
      | nil => simp at h
      | cons v r2 =>
        by_cases hv : v = '-'
        · subst hv
          simp only [if_true] at h
          cases hm : time.getnum r2 true with
          | none => simp [hm] at h
          | some p =>
            obtain ⟨m, r3⟩ := p
            simp only [hm] at h
            obtain ⟨-, rfl⟩ := getnum_fixed_some_twoDigits r2 r3 m hm
            by_cases hm0 : m = 0 ∨ 12 < m
            · simp [hm0] at h
            · simp only [hm0, if_false] at h
              cases r3 with
              | nil => simp at h
              | cons w r4 =>
                by_cases hw : w = '-'
                · subst hw
                  simp only [if_true] at h
                  cases hd : time.getnum r4 true with
                  | none => simp [hd] at h
                  | some p =>
                    obtain ⟨d, r5⟩ := p
                    simp only [hd] at h
                    obtain ⟨-, rfl⟩ := getnum_fixed_some_twoDigits r4 r5 d hd
                    cases r5 with
                    | cons x r6 => simp at h
                    | nil =>
                      simp only [List.isEmpty_nil, if_true, Option.getD_some] at h
                      by_cases hd0 : d < 1 ∨ time.daysIn m y < d
                      · simp only [hd0, if_true] at h
                        exact absurd h (by simp)
                      · simp only [hd0, if_false, Option.some.injEq] at h
                        rw [daysIn_eq_monthLength y m (by omega) (by omega)] at hd0
                        refine ⟨y, m, d, ⟨hy4, by omega, by omega, by omega, by omega⟩, ?_, h.symm⟩
                        simp [dateString]
                · simp [hw] at h
        · simp [hv] at h
  · rintro ⟨y, m, d, hv, rfl, rfl⟩
    obtain ⟨hy, hm1, hm2, hd1, hd2⟩ := hv
    have hml : monthLength y m ≤ 31 := by
      unfold monthLength
      interval_cases m <;> simp only [] <;> first | omega | (split <;> omega)
    have e1 := (getyear_some (dateString y m d) ('-' :: twoDigits m ++ '-' :: twoDigits d) y).2
      ⟨hy, rfl⟩
    have e2 := getnum_fixed_twoDigits m (by omega) ('-' :: twoDigits d)
    have e3 := getnum_fixed_twoDigits d (by omega) []
    simp only [List.append_nil] at e3
    simp only [time.parseChunks, e1, List.cons_append, e2, e3]
    have hm0 : ¬(m = 0 ∨ 12 < m) := by omega
    have hd0 : ¬(d < 1 ∨ time.daysIn m y < d) := by
      rw [daysIn_eq_monthLength y m hm1 hm2]
      omega
    simp only [hm0, hd0, if_true, if_false, List.isEmpty_nil, Option.getD_some]

theorem getnum_free_twoDigits (n : Nat) (hn : n < 100) (rest : List Char) :
    time.getnum (twoDigits n ++ rest) false = some (n, rest) := by
  obtain ⟨da, va⟩ := digit_ofNat (n / 10) (by omega)
  obtain ⟨db, vb⟩ := digit_ofNat (n % 10) (by omega)
  simp only [twoDigits, List.cons_append, List.nil_append, time.getnum, da, db, va, vb]
  simp
  omega

theorem getnum_free_some (s rest : List Char) (n : Nat)
    (h : time.getnum s false = some (n, rest)) (hn : 10 ≤ n) :
    n < 100 ∧ s = twoDigits n ++ rest := by
  unfold time.getnum at h
  match s, h with
  | c0 :: c1 :: t, h =>
    by_cases h0 : time.digit c0 = true <;> by_cases h1 : time.digit c1 = true <;>
      simp [h0, h1] at h
    · obtain ⟨e, ht⟩ := h
      obtain ⟨ha, ea⟩ := digit_eq_ofNat c0 h0
      obtain ⟨hb, eb⟩ := digit_eq_ofNat c1 h1
      refine ⟨by omega, ?_⟩
      rw [two_digits_split n _ _ hb e.symm, ← ea, ← eb, ht]
      rfl
    · obtain ⟨ha, -⟩ := digit_eq_ofNat c0 h0
      omega
  | [c0], h =>
    by_cases h0 : time.digit c0 = true <;> simp [h0] at h
    obtain ⟨ha, -⟩ := digit_eq_ofNat c0 h0
    omega

/-- The function `time.Parse` with the layout `15:04` returns an hour of 10 or
more exactly on the writings `HH:MM` with that hour and a minute below 60. -/
theorem Parse_layoutClock (s : List Char) (hour : Nat) (h10 : 10 ≤ hour) :
    (∃ t, time.Parse time.layoutClock s = some t ∧ t.Hour = hour) ↔
      ∃ m, hour < 24 ∧ m < 60 ∧ s = clockString hour m := by
  unfold time.Parse time.layoutClock
  constructor
  · rintro ⟨t, h, ht⟩
    simp only [time.parseChunks] at h
    cases hh : time.getnum s false with
    | none => simp [hh] at h
    | some p =>
      obtain ⟨hr, r1⟩ := p
      simp only [hh] at h
      by_cases h24 : 24 ≤ hr
      · simp [h24] at h
      · simp only [h24, if_false] at h
        cases r1 with
        | nil => simp at h
        | cons v r2 =>
          by_cases hv : v = ':'
          · subst hv
            simp only [if_true] at h
            cases hm : time.getnum r2 true with
            | none => simp [hm] at h
            | some p =>
              obtain ⟨m, r3⟩ := p
              simp only [hm] at h
              obtain ⟨-, rfl⟩ := getnum_fixed_some_twoDigits r2 r3 m hm
              by_cases h60 : 60 ≤ m
              · simp [h60] at h
              · simp only [h60, if_false] at h
                cases r3 with
                | cons x r4 => simp at h
                | nil =>
                  simp only [List.isEmpty_nil, if_true, Option.getD_none] at h
                  have hd : ¬((1 : Nat) < 1 ∨ time.daysIn 1 0 < 1) := by decide
                  simp only [hd, if_false, Option.some.injEq] at h
                  subst h
                  simp only [time.Time.Hour] at ht
                  subst ht
                  obtain ⟨-, rfl⟩ := getnum_free_some _ _ _ hh h10
                  exact ⟨m, by omega, by omega, by simp [clockString]⟩
          · simp [hv] at h
  · rintro ⟨m, h24, h60, rfl⟩
    have e1 := getnum_free_twoDigits hour (by omega) (':' :: twoDigits m)
    have e2 := getnum_fixed_twoDigits m (by omega) []
    simp only [List.append_nil] at e2
    have h24' : ¬(24 ≤ hour) := by omega
    have h60' : ¬(60 ≤ m) := by omega
    have hd : ¬((1 : Nat) < 1 ∨ time.daysIn 1 0 < 1) := by decide
    refine ⟨⟨0, 1, 1, hour, m⟩, ?_, rfl⟩
    simp only [time.parseChunks, clockString, e1, e2, h24', h60', if_true, if_false,
      List.isEmpty_nil, Option.getD_none, hd]

/-- C8: the amount added by rule 7 is 10 exactly when the purchase time is a
writing `HH:MM` with hour 14 or 15 and a minute from 00 to 59, and 0 otherwise:
`14:00` and `15:59` earn 10, while `13:59`, `16:00`, `14:60`, `25:00`, `14:00:00`
and the empty string earn 0; the amount is one of the seven summands of
`calculatePoints`. -/
theorem C8_afternoon_window (impl : F64 → Int) (rec : receipt) :
    (timePoints rec = 10 ↔
      ∃ h m, (h = 14 ∨ h = 15) ∧ m < 60 ∧ rec.PurchaseTime.data = clockString h m) ∧
    (timePoints rec ≠ 10 → timePoints rec = 0) ∧
    calculatePoints impl rec =
      wrapInt (retailerPoints rec + roundDollarPoints rec + quarterPoints rec + pairPoints rec +
        descriptionPoints impl rec + datePoints rec + timePoints rec) ∧
    timePoints (timeOnly "14:00") = 10 ∧ timePoints (timeOnly "15:59") = 10 ∧
    calculatePoints impl (timeOnly "14:00") = 10 ∧
    timePoints (timeOnly "13:59") = 0 ∧ timePoints (timeOnly "16:00") = 0 ∧
    timePoints (timeOnly "14:60") = 0 ∧ timePoints (timeOnly "25:00") = 0 ∧
    timePoints (timeOnly "14:00:00") = 0 ∧ timePoints (timeOnly "") = 0 := by
  refine ⟨?_, ?_, calculatePoints_eq_sum impl rec, rfl, rfl, rfl, rfl, rfl, rfl, rfl, rfl, rfl⟩
  · unfold timePoints
    constructor
    · intro h
      cases hp : time.Parse time.layoutClock rec.PurchaseTime.data with
      | none => simp [hp] at h
      | some t =>
        simp only [hp] at h
        by_cases hw : 14 ≤ t.Hour ∧ t.Hour < 16
        · obtain ⟨m, h24, h60, e⟩ :=
            (Parse_layoutClock rec.PurchaseTime.data t.Hour (by omega)).1 ⟨t, hp, rfl⟩
          exact ⟨t.Hour, m, by omega, h60, e⟩
        · simp [hw] at h
    · rintro ⟨h, m, hh, h60, e⟩
      obtain ⟨t, hp, ht⟩ :=
        (Parse_layoutClock rec.PurchaseTime.data h (by omega)).2 ⟨m, by omega, h60, e⟩
      have hw : 14 ≤ t.Hour ∧ t.Hour < 16 := by omega
      simp only [hp, hw, and_self, if_true]
  · unfold timePoints
    intro h
    cases hp : time.Parse time.layoutClock rec.PurchaseTime.data with
    | none => rfl
    | some t =>
      simp only [hp] at h ⊢
      by_cases hw : 14 ≤ t.Hour ∧ t.Hour < 16
      · simp [hw] at h
      · simp [hw]

/-- C9: the amount added by rule 6 is 6 exactly when the purchase date is the
writing `YYYY-MM-DD` of a day that exists in the calendar and whose day of the
month is odd, and 0 otherwise: `2022-1-01`, `2022-13-01`, `2023-02-29` and
`2022-02-31` earn 0 although their day digits are odd, `2022-01-01` earns 6; the
amount is one of the seven summands of `calculatePoints`. -/
theorem C9_odd_day (impl : F64 → Int) (rec : receipt) :
    (datePoints rec = 6 ↔
      ∃ y m d, validDate y m d ∧ d % 2 = 1 ∧ rec.PurchaseDate.data = dateString y m d) ∧
    (datePoints rec ≠ 6 → datePoints rec = 0) ∧
    calculatePoints impl rec =
      wrapInt (retailerPoints rec + roundDollarPoints rec + quarterPoints rec + pairPoints rec +
        descriptionPoints impl rec + datePoints rec + timePoints rec) ∧
    datePoints (dateOnly "2022-01-01") = 6 ∧ calculatePoints impl (dateOnly "2022-01-01") = 6 ∧
    datePoints (dateOnly "2022-01-02") = 0 ∧
    datePoints (dateOnly "2022-1-01") = 0 ∧ datePoints (dateOnly "2022-13-01") = 0 ∧
    datePoints (dateOnly "2023-02-29") = 0 ∧ datePoints (dateOnly "2022-02-31") = 0 := by
  refine ⟨?_, ?_, calculatePoints_eq_sum impl rec, rfl, rfl, rfl, rfl, rfl, rfl, rfl⟩
  · unfold datePoints
    constructor
    · intro h
      cases hp : time.Parse time.layoutDate rec.PurchaseDate.data with
      | none => simp [hp] at h
      | some t =>
        simp only [hp] at h
        obtain ⟨y, m, d, hv, e, rfl⟩ := (Parse_layoutDate _ _).1 hp
        by_cases ho : d % 2 = 1
        · exact ⟨y, m, d, hv, ho, e⟩
        · simp [time.Time.Day, ho] at h
    · rintro ⟨y, m, d, hv, ho, e⟩
      have hp := (Parse_layoutDate rec.PurchaseDate.data ⟨y, m, d, 0, 0⟩).2 ⟨y, m, d, hv, e, rfl⟩
      simp [hp, time.Time.Day, ho]
  · unfold datePoints
    intro h
    cases hp : time.Parse time.layoutDate rec.PurchaseDate.data with
    | none => rfl
    | some t =>
      simp only [hp] at h ⊢
      by_cases hw : t.Day % 2 ≠ 0
      · simp [hw] at h
      · simp [hw]

/-! ## Rounding to `float64` -/

theorem bitLenAux_spec (fuel n acc : Nat) (h : n ≤ fuel) :
    ∃ b, F64.bitLenAux fuel n acc = acc + b ∧ (n = 0 → b = 0) ∧
      (0 < n → 2 ^ (b - 1) ≤ n ∧ n < 2 ^ b ∧ 0 < b) := by
  induction fuel generalizing n acc with
  | zero =>
    have : n = 0 := by omega
    subst this
    exact ⟨0, by simp [F64.bitLenAux], by simp, by simp⟩
  | succ fuel ih =>
    unfold F64.bitLenAux
    by_cases hn : n = 0
    · subst hn
      exact ⟨0, by simp, by simp, by simp⟩
    · simp only [hn, if_false]
      obtain ⟨b, hb, h0, h1⟩ := ih (n / 2) (acc + 1) (by omega)
      refine ⟨b + 1, by rw [hb]; ring, fun h0n => h0n.elim, ?_⟩
      intro _
      by_cases h2 : n / 2 = 0
      · have hb0 := h0 h2
        subst hb0
        have : n = 1 := by omega
        subst this
        simp
      · obtain ⟨l, u, bp⟩ := h1 (by omega)
        have e : b + 1 - 1 = (b - 1) + 1 := by omega
        rw [e, pow_succ, pow_succ]
        omega

theorem bitLen_spec (n : Nat) (h : 0 < n) :
    2 ^ (F64.bitLen n - 1) ≤ n ∧ n < 2 ^ F64.bitLen n ∧ 0 < F64.bitLen n := by
  obtain ⟨b, hb, -, h1⟩ := bitLenAux_spec n n 0 (le_refl n)
  unfold F64.bitLen
  rw [hb, zero_add]
  exact h1 h

theorem roundHalfEven_spec (N D : Nat) (hD : 0 < D) :
    2 * (F64.roundHalfEven N D * D) ≤ 2 * N + D ∧ 2 * N ≤ 2 * (F64.roundHalfEven N D * D) + D := by
  unfold F64.roundHalfEven
  have h1 := Nat.div_add_mod N D
  have h2 := Nat.mod_lt N hD
  have h3 : D * (N / D) = N / D * D := Nat.mul_comm _ _
  simp only []
  split
  · constructor <;> omega
  · split
    · rw [Nat.add_mul]; constructor <;> omega
    · split
      · constructor <;> omega
      · rw [Nat.add_mul]; constructor <;> omega

theorem roundHalfEven_of_dvd (N D : Nat) (hD : 0 < D) (h : D ∣ N) :
    F64.roundHalfEven N D = N / D := by
  unfold F64.roundHalfEven
  have : N % D = 0 := Nat.mod_eq_zero_of_dvd h
  simp [this, hD]

theorem roundHalfEven_le (N D : Nat) : F64.roundHalfEven N D ≤ N / D + 1 := by
  unfold F64.roundHalfEven
  simp only []
  split
  · omega
  · split
    · omega
    · split <;> omega
/-- What `F64.roundScaled` computes: the exponent `j` it picks leaves fewer than
53 bits above the point, and exactly 53 unless `j = 0`. -/
theorem roundScaled_spec (neg : Bool) (n den : Nat) (hn : 0 < n) (hd : 0 < den) :
    ∃ j : Nat, n < 2 ^ 53 * (den * 2 ^ j) ∧
      (0 < j → 2 ^ 52 * (den * 2 ^ j) ≤ n) ∧
      F64.roundScaled neg n den =
        if 2045 < j ∨ (j = 2045 ∧ F64.roundHalfEven n (den * 2 ^ j) = 2 ^ 53)
        then F64.inf neg
        else F64.finite neg (F64.roundHalfEven n (den * 2 ^ j)) ((j : Int) - 1074) := by
  obtain ⟨tl, tu, tp⟩ := bitLen_spec n hn
  obtain ⟨dl, du, dp⟩ := bitLen_spec den hd
  unfold F64.roundScaled
  generalize F64.bitLen n = t at *
  generalize F64.bitLen den = bd at *
  simp only []
  -- the estimate common to both cases
  have hup : n < 2 ^ 53 * (den * 2 ^ (t - (bd + 52))) := by
    have h1 : t ≤ 53 + ((bd - 1) + (t - (bd + 52))) := by omega
    calc n < 2 ^ t := tu
      _ ≤ 2 ^ (53 + ((bd - 1) + (t - (bd + 52)))) := Nat.pow_le_pow_right (by norm_num) h1
      _ = 2 ^ 53 * (2 ^ (bd - 1) * 2 ^ (t - (bd + 52))) := by rw [pow_add, pow_add]
      _ ≤ 2 ^ 53 * (den * 2 ^ (t - (bd + 52))) :=
        Nat.mul_le_mul_left _ (Nat.mul_le_mul_right _ dl)
  by_cases htest : den * 2 ^ (t - (bd + 52) + 52) ≤ n
  · refine ⟨t - (bd + 52), hup, ?_, by simp only [htest, if_true]⟩
    intro _
    calc 2 ^ 52 * (den * 2 ^ (t - (bd + 52))) = den * 2 ^ (t - (bd + 52) + 52) := by
          rw [pow_add]; ring
      _ ≤ n := htest
  · refine ⟨t - (bd + 52) - 1, ?_, ?_, by simp only [htest, if_false]⟩
    · by_cases hj : t - (bd + 52) = 0
      · rw [hj] at hup ⊢
        exact hup
      · have e : t - (bd + 52) + 52 = 53 + (t - (bd + 52) - 1) := by omega
        have : den * 2 ^ (t - (bd + 52) + 52) = 2 ^ 53 * (den * 2 ^ (t - (bd + 52) - 1)) := by
          rw [e, pow_add]; ring
        omega
    · intro hj
      have e : t - 1 = 52 + (bd + (t - (bd + 52) - 1)) := by omega
      have h2 : 2 ^ 52 * (den * 2 ^ (t - (bd + 52) - 1)) < 2 ^ (t - 1) := by
        rw [e, pow_add, pow_add]
        exact Nat.mul_lt_mul_of_pos_left
          (Nat.mul_lt_mul_of_pos_right du (Nat.pow_pos (by norm_num))) (Nat.pow_pos (by norm_num))
      omega

theorem quarter_eq : F64.quarter = F64.finite false (2 ^ 52) (-54) := by decide!

theorem fifth_eq : F64.fifth = F64.finite false 7205759403792794 (-55) := by decide!

/-- The test `math.Mod(x, .25) == 0` on a finite value `m * 2^e`: it holds exactly
when `m * 2^e` is a whole number of quarters. -/
theorem quarterTest_finite (neg : Bool) (m : Nat) (e : Int) :
    F64.eq (math.Mod (F64.finite neg m e) F64.quarter) F64.zero = true ↔
      (e < -2 → 2 ^ (-2 - e).toNat ∣ m) := by
  rw [quarter_eq]
  unfold math.Mod F64.eq F64.zero
  have h52 : (2 : Nat) ^ 52 ≠ 0 := by norm_num
  simp only [h52, if_false, zero_mul, beq_iff_eq, Bool.and_eq_true, Bool.or_eq_true]
  have hz : ∀ (a k : Nat), a * 2 ^ k = 0 ↔ a = 0 := by
    intro a k
    have : (2 : Nat) ^ k ≠ 0 := by positivity
    simp [this]
  rw [hz]
  constructor
  · rintro ⟨h, -⟩ he
    have hd := Nat.dvd_of_mod_eq_zero h
    by_cases h54 : -54 ≤ e
    · have e1 : min e (-54) = -54 := by omega
      rw [e1] at hd
      have e2 : (-54 - (-54 : Int)).toNat = 0 := by omega
      rw [e2, pow_zero, mul_one] at hd
      have e3 : 52 = (-2 - e).toNat + (e - -54).toNat := by omega
      rw [e3, pow_add] at hd
      exact Nat.dvd_of_mul_dvd_mul_right (by positivity) hd
    · have e1 : min e (-54) = e := by omega
      rw [e1] at hd
      have e2 : (e - e).toNat = 0 := by omega
      have e3 : (-2 - e).toNat = 52 + (-54 - e).toNat := by omega
      rw [e2, pow_zero, mul_one, ← pow_add, ← e3] at hd
      exact hd
  · intro h
    refine ⟨?_, Or.inl ?_⟩
    all_goals
      apply Nat.mod_eq_zero_of_dvd
      by_cases h54 : -54 ≤ e
      · have e1 : min e (-54) = -54 := by omega
        rw [e1]
        have e2 : (-54 - (-54 : Int)).toNat = 0 := by omega
        rw [e2, pow_zero, mul_one]
        by_cases h2 : e < -2
        · have e3 : 52 = (-2 - e).toNat + (e - -54).toNat := by omega
          rw [e3, pow_add]
          exact Nat.mul_dvd_mul (h h2) (dvd_refl _)
        · have e3 : (e - -54).toNat = 52 + (e + 2).toNat := by omega
          rw [e3, pow_add]
          exact ⟨m * 2 ^ (e + 2).toNat, by ring⟩
      · have e1 : min e (-54) = e := by omega
        rw [e1]
        have e2 : (e - e).toNat = 0 := by omega
        have e3 : (-2 - e).toNat = 52 + (-54 - e).toNat := by omega
        rw [e2, pow_zero, mul_one, ← pow_add, ← e3]
        exact h (by omega)
theorem two_pow_split (a j : Nat) (hj : j + 2 ≤ a) :
    (2 : Nat) ^ a = 4 * 2 ^ (a - 2 - j) * 2 ^ j := by
  have e : a = 2 + (a - 2 - j) + j := by omega
  calc (2 : Nat) ^ a = 2 ^ (2 + (a - 2 - j) + j) := by rw [← e]
    _ = 4 * 2 ^ (a - 2 - j) * 2 ^ j := by rw [pow_add, pow_add]; norm_num

/-- Rounding a whole number of quarters gives a whole number of quarters. -/
theorem round_quarterTest (neg : Bool) (num den : Nat) (hd : 0 < den) (h : den ∣ 4 * num)
    (n' : Bool) (m : Nat) (e : Int) (hx : F64.round neg num den = F64.finite n' m e) :
    F64.eq (math.Mod (F64.finite n' m e) F64.quarter) F64.zero = true := by
  rw [quarterTest_finite]
  intro he
  unfold F64.round at hx
  by_cases hn : num = 0
  · simp only [hn, if_true, F64.finite.injEq] at hx
    omega
  · simp only [hn, if_false] at hx
    have hP4 : ∀ j, j ≤ 1072 → (2 : Nat) ^ 1074 = 4 * 2 ^ (1072 - j) * 2 ^ j := by
      intro j hj
      rw [two_pow_split 1074 j (by omega), show 1074 - 2 - j = 1072 - j by omega]
    have hPpos : 0 < (2 : Nat) ^ 1074 := by positivity
    generalize (2 : Nat) ^ 1074 = P at hx hP4 hPpos
    obtain ⟨j, -, -, hr⟩ := roundScaled_spec neg (num * P) den (Nat.mul_pos (by omega) hPpos) hd
    rw [hr] at hx
    split at hx
    · exact absurd hx (by simp)
    · simp only [F64.finite.injEq] at hx
      obtain ⟨-, hm, hje⟩ := hx
      have hj : j < 1072 := by omega
      obtain ⟨c, hc⟩ := h
      have hN : num * P = (den * 2 ^ j) * (c * 2 ^ (1072 - j)) := by
        rw [hP4 j (by omega)]
        calc num * (4 * 2 ^ (1072 - j) * 2 ^ j) = (4 * num) * (2 ^ (1072 - j) * 2 ^ j) := by ring
          _ = (den * c) * (2 ^ (1072 - j) * 2 ^ j) := by rw [hc]
          _ = (den * 2 ^ j) * (c * 2 ^ (1072 - j)) := by ring
      have hD : 0 < den * 2 ^ j := Nat.mul_pos hd (Nat.pow_pos (by norm_num))
      rw [roundHalfEven_of_dvd _ _ hD ⟨_, hN⟩, hN, Nat.mul_div_cancel_left _ hD] at hm
      have e2 : (-2 - e).toNat = 1072 - j := by omega
      rw [e2, ← hm]
      exact ⟨c, by ring⟩

/-! ## `strconv.ParseFloat` on a text that ends with `.00` -/

theorem scanMantissa_append (base : Nat) (p q : List Char) (st : strconv.Mantissa) :
    strconv.scanMantissa base (p ++ q) st =
      if (strconv.scanMantissa base p st).2 = [] then
        strconv.scanMantissa base q (strconv.scanMantissa base p st).1
      else ((strconv.scanMantissa base p st).1, (strconv.scanMantissa base p st).2 ++ q) := by
  induction p generalizing st with
  | nil => simp [strconv.scanMantissa]
  | cons c cs ih =>
    simp only [List.cons_append, strconv.scanMantissa]
    by_cases h1 : c = '_'
    · simp only [if_pos h1]
      exact ih _
    · simp only [if_neg h1]
      by_cases h2 : c = '.'
      · simp only [if_pos h2]
        by_cases h3 : st.sawdot = true
        · simp [if_pos h3]
        · simp only [if_neg h3]
          exact ih _
      · simp only [if_neg h2]
        by_cases h4 : strconv.isDigit c = true
        · simp only [if_pos h4]
          exact ih _
        · simp only [if_neg h4]
          by_cases h5 : base = 16 ∧ strconv.isHexLetter c = true
          · simp only [if_pos h5]
            exact ih _
          · simp [if_neg h5]

theorem scanMantissa_frac (base : Nat) (s : List Char) (st : strconv.Mantissa)
    (h : st.sawdot = false → st.frac = 0) :
    (strconv.scanMantissa base s st).1.sawdot = false →
      (strconv.scanMantissa base s st).1.frac = 0 := by
  induction s generalizing st with
  | nil => simpa [strconv.scanMantissa] using h
  | cons c cs ih =>
    simp only [strconv.scanMantissa]
    by_cases h1 : c = '_'
    · simp only [if_pos h1]
      exact ih _ h
    · simp only [if_neg h1]
      by_cases h2 : c = '.'
      · simp only [if_pos h2]
        by_cases h3 : st.sawdot = true
        · simp only [if_pos h3]
          exact h
        · simp only [if_neg h3]
          exact ih _ (by simp)
      · simp only [if_neg h2]
        by_cases h4 : strconv.isDigit c = true
        · simp only [if_pos h4]
          apply ih
          intro hs
          have hs' : st.sawdot = false := hs
          simp only [hs', Bool.false_eq_true, if_false]
          exact h hs'
        · simp only [if_neg h4]
          by_cases h5 : base = 16 ∧ strconv.isHexLetter c = true
          · simp only [if_pos h5]
            apply ih
            intro hs
            have hs' : st.sawdot = false := hs
            simp only [hs', Bool.false_eq_true, if_false]
            exact h hs'
          · simp only [if_neg h5]
            exact h

theorem scanExp_dot (s : List Char) (e : Nat) (u : Bool) (h : '.' ∈ s) :
    '.' ∈ (strconv.scanExp s e u).2.2 := by
  induction s generalizing e u with
  | nil => simp at h
  | cons c cs ih =>
    simp only [strconv.scanExp]
    by_cases h1 : c = '_'
    · simp only [if_pos h1]
      apply ih
      simpa [h1] using h
    · simp only [if_neg h1]
      by_cases h4 : strconv.isDigit c = true
      · simp only [if_pos h4]
        apply ih
        have : c ≠ '.' := by
          rintro rfl
          exact absurd h4 (by decide)
        rcases List.mem_cons.1 h with h | h
        · exact absurd h.symm this
        · exact h
      · simpa [if_neg h4] using h

theorem readExp_dot (hex : Bool) (s rest : List Char) (e : Int) (u : Bool)
    (h : strconv.readExp hex s = some (e, u, rest)) (hd : '.' ∈ s) : '.' ∈ rest := by
  unfold strconv.readExp at h
  match s, h with
  | c :: t, h =>
    by_cases hc : strconv.lower c = if hex = true then 'p'.toNat else 'e'.toNat
    · simp only [hc, if_true] at h
      have hcd : c ≠ '.' := by
        rintro rfl
        cases hex <;> exact absurd hc (by decide)
      have ht : '.' ∈ t := by
        rcases List.mem_cons.1 hd with h' | h'
        · exact absurd h'.symm hcd
        · exact h'
      match t, h with
      | d :: t1, h =>
        simp only at h
        by_cases hs : d = '+' ∨ d = '-'
        · simp only [hs, if_true] at h
          have hdd : d ≠ '.' := by
            rintro rfl
            rcases hs with hs | hs <;> exact absurd hs (by decide)
          have ht1 : '.' ∈ t1 := by
            rcases List.mem_cons.1 ht with h' | h'
            · exact absurd h'.symm hdd
            · exact h'
          match t1, h with
          | b :: t2, h =>
            simp only at h
            by_cases hb : strconv.isDigit b = true
            · simp only [hb, Bool.not_true, Bool.false_eq_true, if_false, Option.some.injEq,
                Prod.mk.injEq] at h
              rw [← h.2.2]
              exact scanExp_dot _ _ _ ht1
            · simp [hb] at h
        · simp only [hs, if_false] at h
          by_cases hb : strconv.isDigit d = true
          · simp only [hb, Bool.not_true, Bool.false_eq_true, if_false, Option.some.injEq,
              Prod.mk.injEq] at h
            rw [← h.2.2]
            exact scanExp_dot _ _ _ ht
          · simp [hb] at h
    · simp only [hc, if_false] at h
      cases hex
      · simp only [Bool.false_eq_true, if_false, Option.some.injEq, Prod.mk.injEq] at h
        rw [← h.2.2]
        exact hd
      · simp at h

theorem commonPrefixLen_take (s pat : List Char) (hp : ∀ c ∈ pat, c.toNat ≠ '.'.toNat)
    (k : Nat) (hk : k ≤ strconv.commonPrefixLenIgnoreCase s pat) : '.' ∉ s.take k := by
  induction s generalizing pat k with
  | nil => simp
  | cons c cs ih =>
    cases pat with
    | nil =>
      simp only [strconv.commonPrefixLenIgnoreCase] at hk
      have : k = 0 := by omega
      simp [this]
    | cons p pat =>
      simp only [strconv.commonPrefixLenIgnoreCase] at hk
      cases k with
      | zero => simp
      | succ k =>
        by_cases heq : (if 'A'.toNat ≤ c.toNat ∧ c.toNat ≤ 'Z'.toNat then c.toNat + 32
            else c.toNat) = p.toNat
        · rw [if_pos heq] at hk
          simp only [List.take_succ_cons, List.mem_cons, not_or]
          refine ⟨?_, ih pat (fun c hc => hp c (List.mem_cons_of_mem _ hc)) k (by omega)⟩
          rintro rfl
          have := hp p (List.mem_cons_self _ _)
          have h46 : '.'.toNat = 46 := rfl
          have hA : 'A'.toNat = 65 := rfl
          rw [h46] at this heq
          rw [hA] at heq
          simp only [show ¬(65 ≤ 46 ∧ 46 ≤ 'Z'.toNat) by omega, if_false] at heq
          exact this heq.symm
        · rw [if_neg heq] at hk
          omega

theorem specialInf_no_dot (neg : Bool) (nsign : Nat) (s : List Char) (f : F64) (n : Nat)
    (h : strconv.specialInf neg nsign s = some (f, n)) :
    nsign ≤ n ∧ '.' ∉ s.take (n - nsign) := by
  unfold strconv.specialInf at h
  have hp : ∀ c ∈ "infinity".data, c.toNat ≠ '.'.toNat := by decide
  generalize "infinity".data = pat at h hp
  simp only [] at h
  by_cases hc : 3 < strconv.commonPrefixLenIgnoreCase s pat ∧
      strconv.commonPrefixLenIgnoreCase s pat < 8
  · simp only [if_pos hc, true_or, if_true, Option.some.injEq, Prod.mk.injEq] at h
    obtain ⟨-, rfl⟩ := h
    refine ⟨by omega, ?_⟩
    apply commonPrefixLen_take s pat hp
    omega
  · simp only [if_neg hc] at h
    split at h
    · simp only [Option.some.injEq, Prod.mk.injEq] at h
      obtain ⟨-, rfl⟩ := h
      refine ⟨by omega, ?_⟩
      apply commonPrefixLen_take s pat hp
      omega
    · exact absurd h (by simp)

theorem special_no_dot (s : List Char) (f : F64) (n : Nat)
    (h : strconv.special s = some (f, n)) (hn : n = s.length) : '.' ∉ s := by
  unfold strconv.special at h
  match s, h with
  | c :: t, h =>
    simp only at h
    by_cases h1 : c = '+'
    · simp only [if_pos h1] at h
      obtain ⟨hle, hnd⟩ := specialInf_no_dot _ _ _ _ _ h
      have : n - 1 = t.length := by simp at hn; omega
      rw [this, List.take_length] at hnd
      simp only [List.mem_cons, not_or]
      exact ⟨by rw [h1]; decide, hnd⟩
    · simp only [if_neg h1] at h
      by_cases h2 : c = '-'
      · simp only [if_pos h2] at h
        obtain ⟨hle, hnd⟩ := specialInf_no_dot _ _ _ _ _ h
        have : n - 1 = t.length := by simp at hn; omega
        rw [this, List.take_length] at hnd
        simp only [List.mem_cons, not_or]
        exact ⟨by rw [h2]; decide, hnd⟩
      · simp only [if_neg h2] at h
        by_cases h3 : c = 'i' ∨ c = 'I'
        · simp only [if_pos h3] at h
          obtain ⟨hle, hnd⟩ := specialInf_no_dot _ _ _ _ _ h
          rw [Nat.sub_zero, hn, List.take_length] at hnd
          exact hnd
        · simp only [if_neg h3] at h
          by_cases h4 : c = 'n' ∨ c = 'N'
          · simp only [if_pos h4] at h
            have hp : ∀ c ∈ ['n', 'a', 'n'], c.toNat ≠ '.'.toNat := by decide
            by_cases h5 : strconv.commonPrefixLenIgnoreCase (c :: t) ['n', 'a', 'n'] = 3
            · have h6 : some (F64.nan, 3) = some (f, n) := by
                rw [← h]
                exact (if_pos h5).symm
              simp only [Option.some.injEq, Prod.mk.injEq] at h6
              have := commonPrefixLen_take (c :: t) ['n', 'a', 'n'] hp 3 (le_of_eq h5.symm)
              rw [h6.2, hn, List.take_length] at this
              exact this
            · have h6 : none = some (f, n) := by
                rw [← h]
                exact (if_neg h5).symm
              exact absurd h6 (by simp)
          · simp [if_neg h4] at h

theorem scanMantissa_dot00 (base : Nat) (st : strconv.Mantissa) :
    strconv.scanMantissa base ['.', '0', '0'] st =
      if st.sawdot then (st, ['.', '0', '0'])
      else ({ st with sawdot := true, sawdigits := true, mant := st.mant * base * base,
                      frac := st.frac + 2 }, []) := by
  have d0 : strconv.isDigit '0' = true := by decide
  have n1 : ¬('0' = '_') := by decide
  have n2 : ¬('0' = '.') := by decide
  have n3 : ¬('.' = '_') := by decide
  by_cases hs : st.sawdot = true
  · simp only [strconv.scanMantissa, if_neg n3, if_pos hs, if_true]
  · simp only [strconv.scanMantissa, if_neg n3, if_neg hs, if_true, if_neg n1, if_neg n2,
      if_pos d0, Bool.false_eq_true, if_false]
    simp

theorem readDigits_suffix00 (hex : Bool) (p : List Char) (mant : Nat) (exp : Int) (u : Bool)
    (h : strconv.readDigits hex (p ++ ['.', '0', '0']) = some (mant, exp, u, [])) :
    hex = false ∧ exp = -2 ∧ ∃ M, mant = M * 100 := by
  unfold strconv.readDigits at h
  simp only [] at h
  have hdot : ∀ (q : List Char) (e : Int) (u : Bool), '.' ∈ q →
      strconv.readExp hex q ≠ some (e, u, []) := by
    intro q e u hq hr
    have := readExp_dot hex q [] e u hr hq
    simp at this
  generalize hr0 : strconv.scanMantissa (if hex = true then 16 else 10) p {} = r0 at h
  have hfrac := scanMantissa_frac (if hex = true then 16 else 10) p {} (by intro _; rfl)
  rw [hr0] at hfrac
  rw [scanMantissa_append, hr0] at h
  by_cases he : r0.2 = []
  · rw [if_pos he, scanMantissa_dot00] at h
    by_cases hs : r0.1.sawdot = true
    · rw [if_pos hs] at h
      simp only [] at h
      split at h
      · exact absurd h (by simp)
      · split at h
        · exact absurd h (by simp)
        · rename_i e' u' rest' hre
          simp only [Option.some.injEq, Prod.mk.injEq] at h
          rw [h.2.2.2] at hre
          exact absurd hre (hdot _ _ _ (by simp))
    · rw [if_neg hs] at h
      simp only [Bool.not_true, Bool.false_eq_true, if_false] at h
      cases hex with
      | true => simp [strconv.readExp] at h
      | false =>
        simp only [strconv.readExp, Bool.false_eq_true, if_false, Option.some.injEq,
          Prod.mk.injEq] at h
        have hf : r0.1.frac = 0 := hfrac (by simpa using hs)
        refine ⟨rfl, ?_, r0.1.mant, ?_⟩
        · rw [← h.2.1, hf]; simp
        · rw [← h.1]; ring
  · rw [if_neg he] at h
    simp only [] at h
    split at h
    · exact absurd h (by simp)
    · split at h
      · exact absurd h (by simp)
      · rename_i e' u' rest' hre
        simp only [Option.some.injEq, Prod.mk.injEq] at h
        rw [h.2.2.2] at hre
        exact absurd hre (hdot _ _ _ (by simp))

theorem drop_hexMarker_suffix00 (p : List Char)
    (h : strconv.hasHexMarker (p ++ ['.', '0', '0']) = true) :
    ∃ p2, (p ++ ['.', '0', '0']).drop 2 = p2 ++ ['.', '0', '0'] := by
  match p, h with
  | [], h => exact absurd h (by decide)
  | [a], h =>
    simp only [List.cons_append, List.nil_append, strconv.hasHexMarker, Bool.and_eq_true] at h
    exact absurd h.2 (by decide)
  | a :: b :: p', _ => exact ⟨p', rfl⟩

theorem readFloat_suffix00 (p : List Char) (l : strconv.Literal)
    (h : strconv.readFloat (p ++ ['.', '0', '0']) = some (l, [])) :
    l.hex = false ∧ l.exp = -2 ∧ ∃ M, l.mant = M * 100 := by
  -- the text after the sign still ends with `.00`
  have key : ∀ (p1 : List Char) (hex : Bool) (mant : Nat) (exp : Int) (u : Bool),
      hex = strconv.hasHexMarker (p1 ++ ['.', '0', '0']) →
      strconv.readDigits hex
        (if hex = true then (p1 ++ ['.', '0', '0']).drop 2 else p1 ++ ['.', '0', '0']) =
          some (mant, exp, u, []) →
      hex = false ∧ exp = -2 ∧ ∃ M, mant = M * 100 := by
    intro p1 hex mant exp u hh hr
    cases hex with
    | true =>
      obtain ⟨p2, hp2⟩ := drop_hexMarker_suffix00 p1 hh.symm
      rw [if_pos rfl, hp2] at hr
      exact readDigits_suffix00 _ _ _ _ _ hr
    | false =>
      simp only [Bool.false_eq_true, if_false] at hr
      exact readDigits_suffix00 _ _ _ _ _ hr
  unfold strconv.readFloat at h
  match p, h with
  | [], h =>
    simp only [List.nil_append, show ¬('.' = '+' ∨ '.' = '-') by decide, if_false] at h
    split at h
    · exact absurd h (by simp)
    · rename_i mant exp u rest hr
      split at h
      · exact absurd h (by simp)
      · simp only [Option.some.injEq, Prod.mk.injEq] at h
        obtain ⟨rfl, rfl⟩ := h
        exact key [] _ _ _ _ rfl hr
  | c :: p', h =>
    simp only [List.cons_append] at h
    by_cases hs : c = '+' ∨ c = '-'
    · simp only [if_pos hs] at h
      split at h
      · exact absurd h (by simp)
      · rename_i mant exp u rest hr
        split at h
        · exact absurd h (by simp)
        · simp only [Option.some.injEq, Prod.mk.injEq] at h
          obtain ⟨rfl, rfl⟩ := h
          exact key p' _ _ _ _ rfl hr
    · simp only [if_neg hs] at h
      split at h
      · exact absurd h (by simp)
      · rename_i mant exp u rest hr
        split at h
        · exact absurd h (by simp)
        · simp only [Option.some.injEq, Prod.mk.injEq] at h
          obtain ⟨rfl, rfl⟩ := h
          exact key (c :: p') _ _ _ _ rfl hr

theorem round_cases (neg : Bool) (num den : Nat) :
    (∃ m e, F64.round neg num den = F64.finite neg m e) ∨ F64.round neg num den = F64.inf neg := by
  unfold F64.round
  split
  · exact Or.inl ⟨_, _, rfl⟩
  · unfold F64.roundScaled
    simp only []
    split_ifs <;> first | exact Or.inr rfl | exact Or.inl ⟨_, _, rfl⟩

/-- A text that ends with `.00` and is accepted by `ParseFloat` is read as a whole
number `M`, written `M * 100 / 100`. -/
theorem ParseFloat_suffix00 (p : List Char) (x : F64)
    (h : strconv.ParseFloat (p ++ ['.', '0', '0']) = .ok x) :
    ∃ neg M n m e, x = F64.round neg (M * 100) 100 ∧ x = F64.finite n m e := by
  unfold strconv.ParseFloat at h
  split at h
  · rename_i f n hsp
    split at h
    · rename_i hn
      exact absurd (special_no_dot _ f n hsp hn) (by simp)
    · exact absurd h (by simp)
  · split at h
    · exact absurd h (by simp)
    · rename_i l rest hr
      split at h
      · exact absurd h (by simp)
      · rename_i hrest
        have hrest' : rest = [] := by simpa using hrest
        subst hrest'
        obtain ⟨hhex, hexp, M, hM⟩ := readFloat_suffix00 p l hr
        have htf : l.toF64 = F64.round l.neg (M * 100) 100 := by
          unfold strconv.Literal.toF64
          simp only [hhex, hexp, hM]
          have e10 : (10 : Nat) ^ Int.toNat 2 = 100 := by decide
          simp only [Bool.false_eq_true, if_false, show ((-2 : Int) < 0) by decide, if_true,
            neg_neg, e10]
        split at h
        · exact absurd h (by simp)
        · rename_i hninf
          simp only [Except.ok.injEq] at h
          subst h
          rcases round_cases l.neg (M * 100) 100 with ⟨m, e, hfin⟩ | hinf
          · exact ⟨l.neg, M, l.neg, m, e, htf, by rw [htf, hfin]⟩
          · exact absurd (htf.trans hinf) (hninf l.neg)

theorem quarterPoints_suffix00 (rec : receipt) (x : F64)
    (hsuffix : strings.HasSuffix rec.Total.data ".00".data = true)
    (hparse : strconv.ParseFloat rec.Total.data = .ok x) : quarterPoints rec = 25 := by
  obtain ⟨p, hp⟩ := (HasSuffix_iff _ _).1 hsuffix
  have hparse' := hparse
  rw [hp] at hparse'
  obtain ⟨neg, M, n, m, e, hx, hfin⟩ := ParseFloat_suffix00 p x hparse'
  have ht := round_quarterTest neg (M * 100) 100 (by norm_num) ⟨4 * M, by ring⟩ n m e
    (hx.symm.trans hfin)
  unfold quarterPoints
  rw [hparse, hfin]
  simp only [ht, if_true]
theorem totalOnly_points (impl : F64 → Int) (total : String) :
    calculatePoints impl (totalOnly total) =
      roundDollarPoints (totalOnly total) + quarterPoints (totalOnly total) := by
  have h1 : retailerPoints (totalOnly total) = 0 := rfl
  have h2 : pairPoints (totalOnly total) = 0 := by simp [pairPoints, totalOnly]
  have h3 : descriptionPoints impl (totalOnly total) = 0 := rfl
  have h4 : datePoints (totalOnly total) = 0 := rfl
  have h5 : timePoints (totalOnly total) = 0 := rfl
  rw [calculatePoints_eq_sum, h1, h2, h3, h4, h5]
  simp only [zero_add, add_zero]
  have r1 : roundDollarPoints (totalOnly total) = 50 ∨ roundDollarPoints (totalOnly total) = 0 := by
    unfold roundDollarPoints
    split <;> simp
  have r2 : quarterPoints (totalOnly total) = 25 ∨ quarterPoints (totalOnly total) = 0 := by
    unfold quarterPoints
    split
    · split <;> simp
    · simp
  apply wrapInt_of_range <;> rcases r1 with r1 | r1 <;> rcases r2 with r2 | r2 <;>
    rw [r1, r2] <;> norm_num

/-- C7: for every total that ends with `.00` and that `ParseFloat` accepts, rule 2
and rule 3 both fire, so the two rules on the total add exactly 75; for a receipt
with nothing but such a total `calculatePoints` returns 75. -/
theorem C7_round_dollar_and_quarter (impl : F64 → Int) (rec : receipt) (x : F64)
    (hsuffix : strings.HasSuffix rec.Total.data ".00".data = true)
    (hparse : strconv.ParseFloat rec.Total.data = .ok x) :
    roundDollarPoints rec = 50 ∧ quarterPoints rec = 25 ∧
    roundDollarPoints rec + quarterPoints rec = 75 ∧
    calculatePoints impl rec =
      wrapInt (retailerPoints rec + 75 + pairPoints rec + descriptionPoints impl rec +
        datePoints rec + timePoints rec) ∧
    calculatePoints impl (totalOnly rec.Total) = 75 := by
  have h50 : roundDollarPoints rec = 50 := by
    unfold roundDollarPoints
    rw [if_pos hsuffix]
  have h25 : quarterPoints rec = 25 := quarterPoints_suffix00 rec x hsuffix hparse
  refine ⟨h50, h25, by rw [h50, h25]; rfl, ?_, ?_⟩
  · rw [calculatePoints_eq_sum, h50, h25]
    have e : retailerPoints rec + 50 + 25 = retailerPoints rec + 75 := by ring
    rw [e]
  · have a1 : roundDollarPoints (totalOnly rec.Total) = 50 := h50
    have a2 : quarterPoints (totalOnly rec.Total) = 25 := h25
    rw [totalOnly_points, a1, a2]
    norm_num

/-- C7 at the total `9.00`: it ends with `.00`, `ParseFloat` reads it as 9, and
`calculatePoints` returns 75 for the receipt with only that total. -/
theorem C7_witness :
    (strings.HasSuffix (totalOnly "9.00").Total.data ".00".data = true ∧
      strconv.ParseFloat (totalOnly "9.00").Total.data =
        .ok (F64.finite false 5066549580791808 (-49))) ∧
    calculatePoints F64.amd64 (totalOnly (totalOnly "9.00").Total) = 75 :=
  ⟨⟨by decide!, by decide!⟩,
    (C7_round_dollar_and_quarter F64.amd64 (totalOnly "9.00")
      (F64.finite false 5066549580791808 (-49)) (by decide!) (by decide!)).2.2.2.2⟩

/-! ## `strconv.ParseFloat` on an amount with two decimals -/

theorem isDigit_ne (c : Char) (h : strconv.isDigit c = true) :
    c ≠ '_' ∧ c ≠ '.' ∧ c ≠ '+' ∧ c ≠ '-' ∧ c ≠ 'i' ∧ c ≠ 'I' ∧ c ≠ 'n' ∧ c ≠ 'N' ∧
      strconv.lower c ≠ 'x'.toNat := by
  have hx : strconv.lower c ≠ 'x'.toNat := by
    unfold strconv.isDigit at h
    simp only [Bool.and_eq_true, decide_eq_true_eq] at h
    have h0 : '0'.toNat = 48 := rfl
    have h9 : '9'.toNat = 57 := rfl
    rw [h0, h9] at h
    unfold strconv.lower
    obtain ⟨h1, h2⟩ := h
    generalize c.toNat = n at h1 h2
    interval_cases n <;> decide
  refine ⟨?_, ?_, ?_, ?_, ?_, ?_, ?_, ?_, hx⟩ <;> (rintro rfl; exact absurd h (by decide))

theorem scanMantissa_digits (ds rest : List Char) (st : strconv.Mantissa)
    (hd : ∀ c ∈ ds, strconv.isDigit c = true) :
    strconv.scanMantissa 10 (ds ++ rest) st =
      strconv.scanMantissa 10 rest
        { st with sawdigits := st.sawdigits || !ds.isEmpty,
                  mant := ds.foldl (fun a c => a * 10 + (c.toNat - '0'.toNat)) st.mant,
                  frac := if st.sawdot then st.frac + ds.length else st.frac } := by
  induction ds generalizing st with
  | nil => simp
  | cons c cs ih =>
    have hc := hd c (List.mem_cons_self _ _)
    obtain ⟨n1, n2, -⟩ := isDigit_ne c hc
    simp only [List.cons_append, strconv.scanMantissa, if_neg n1, if_neg n2, if_pos hc,
      List.append_eq]
    rw [ih _ (fun c' h' => hd c' (List.mem_cons_of_mem _ h'))]
    congr 1
    cases hs : st.sawdot <;> simp [hs]
    omega

theorem scanMantissa_point (base : Nat) (cs : List Char) (st : strconv.Mantissa)
    (h : st.sawdot = false) :
    strconv.scanMantissa base ('.' :: cs) st =
      strconv.scanMantissa base cs { st with sawdot := true } := by
  have n3 : ¬('.' = '_') := by decide
  rw [strconv.scanMantissa, if_neg n3, if_pos rfl, h]
  rfl

theorem readDigits_amount (ds : List Char) (c1 c2 : Char)
    (hds : ∀ c ∈ ds, strconv.isDigit c = true)
    (h1 : strconv.isDigit c1 = true) (h2 : strconv.isDigit c2 = true) :
    strconv.readDigits false (amountString ds c1 c2) =
      some (amountCents ds c1 c2, -2, false, []) := by
  have hcc : ∀ c ∈ [c1, c2], strconv.isDigit c = true := by
    intro c hc
    simp only [List.mem_cons, List.mem_singleton, List.not_mem_nil, or_false] at hc
    rcases hc with rfl | rfl <;> assumption
  have hs : strconv.scanMantissa 10 (amountString ds c1 c2) {} =
      (⟨amountCents ds c1 c2, 2, true, true, false⟩, []) := by
    unfold amountString
    rw [scanMantissa_digits ds _ _ hds, scanMantissa_point _ _ _ rfl]
    have := scanMantissa_digits [c1, c2] [] ⟨decimalValue ds, 0, true, false || !ds.isEmpty, false⟩
      hcc
    simp only [List.append_nil] at this
    unfold decimalValue at this
    simp only [] at this ⊢
    simp only [Bool.false_eq_true, if_false]
    rw [this]
    simp [strconv.scanMantissa, amountCents, decimalValue, List.foldl_append]
  unfold strconv.readDigits
  simp only [Bool.false_eq_true, if_false, hs, Bool.not_true, strconv.readExp]
  simp

theorem hasHexMarker_amount (ds : List Char) (c1 c2 : Char)
    (hds : ∀ c ∈ ds, strconv.isDigit c = true) :
    strconv.hasHexMarker (amountString ds c1 c2) = false := by
  unfold amountString
  match ds, hds with
  | [], _ => rfl
  | [a], _ =>
    simp only [List.cons_append, List.nil_append, strconv.hasHexMarker]
    have : (strconv.lower '.' == 'x'.toNat) = false := by decide
    rw [this, Bool.and_false]
  | a :: b :: t, hds =>
    have hb : strconv.lower b ≠ 120 := (isDigit_ne b (hds b (by simp))).2.2.2.2.2.2.2.2
    cases t <;> simp [strconv.hasHexMarker, hb]

/-- An amount written as digits, a point and two digits is read by `ParseFloat`
as the `float64` nearest to its number of cents divided by 100. -/
theorem ParseFloat_amount (ds : List Char) (c1 c2 : Char) (hne : ds ≠ [])
    (hds : ∀ c ∈ ds, strconv.isDigit c = true)
    (h1 : strconv.isDigit c1 = true) (h2 : strconv.isDigit c2 = true) :
    strconv.ParseFloat (amountString ds c1 c2) =
      match F64.round false (amountCents ds c1 c2) 100 with
      | .inf _ => .error .ErrRange
      | f => .ok f := by
  obtain ⟨c, t, rfl⟩ := List.exists_cons_of_ne_nil hne
  have hc := hds c (List.mem_cons_self _ _)
  obtain ⟨-, -, n3, n4, n5, n6, n7, n8, -⟩ := isDigit_ne c hc
  have hsp : strconv.special (amountString (c :: t) c1 c2) = none := by
    simp [amountString, strconv.special, n3, n4, n5, n6, n7, n8]
  have hrf : strconv.readFloat (amountString (c :: t) c1 c2) =
      some ({ neg := false, hex := false, mant := amountCents (c :: t) c1 c2, exp := -2 }, []) := by
    have hhex := hasHexMarker_amount (c :: t) c1 c2 hds
    have hrd := readDigits_amount (c :: t) c1 c2 hds h1 h2
    have hsign : ¬(c = '+' ∨ c = '-') := by simp [n3, n4]
    unfold amountString at hhex hrd ⊢
    simp only [List.cons_append] at hhex hrd ⊢
    simp only [strconv.readFloat, if_neg hsign, hhex, Bool.false_eq_true, if_false, hrd,
      Bool.false_and]
    simp [n4]
  unfold strconv.ParseFloat
  rw [hsp, hrf]
  simp only [List.isEmpty_nil, Bool.not_true, Bool.false_eq_true, if_false,
    strconv.Literal.toF64]
  have e10 : (10 : Nat) ^ Int.toNat 2 = 100 := by decide
  simp only [show ((-2 : Int) < 0) by decide, if_true, neg_neg, e10]

theorem two_pow_mono (a b : Nat) (h : a ≤ b) : (2 : Nat) ^ a ≤ 2 ^ b :=
  Nat.pow_le_pow_right (by norm_num) h

/-- For an amount of fewer than `10^16` cents, the `float64` nearest to the amount
is finite, and it is a whole number of quarters only if the amount is. -/
theorem round_amount_quarter (n : Nat) (hn : n < 10 ^ 16) :
    ∃ m e, F64.round false n 100 = F64.finite false m e ∧
      (F64.eq (math.Mod (F64.finite false m e) F64.quarter) F64.zero = true ↔ 25 ∣ n) := by
  by_cases h0 : n = 0
  · subst h0
    refine ⟨0, 0, rfl, ?_⟩
    rw [quarterTest_finite]
    simp
  · have hP4 : ∀ j, j ≤ 1072 → (2 : Nat) ^ 1074 = 4 * 2 ^ (1072 - j) * 2 ^ j := by
      intro j hj
      rw [two_pow_split 1074 j (by omega), show 1074 - 2 - j = 1072 - j by omega]
    have hP5 : ∀ j, 1069 ≤ j → (2 : Nat) ^ 1069 ≤ 2 ^ j := fun j hj => two_pow_mono 1069 j hj
    have hP6 : (2 : Nat) ^ 1074 = 32 * 2 ^ 1069 := by
      rw [two_pow_split 1074 1069 (by omega)]
      norm_num
    have hr : F64.round false n 100 = F64.roundScaled false (n * 2 ^ 1074) 100 := by
      unfold F64.round
      rw [if_neg h0]
    have hPpos : 0 < (2 : Nat) ^ 1074 := by positivity
    generalize (2 : Nat) ^ 1069 = P9 at hP5 hP6
    generalize (2 : Nat) ^ 1074 = P at hr hP4 hP6 hPpos
    obtain ⟨j, hlt, hge, hrs⟩ := roundScaled_spec false (n * P) 100 (Nat.mul_pos (by omega) hPpos)
      (by norm_num)
    have hj : j ≤ 1068 := by
      by_contra hcon
      have h1 := hge (by omega)
      have h2 := hP5 j (by omega)
      have h3 : n * P < 10 ^ 16 * P := Nat.mul_lt_mul_of_pos_right hn hPpos
      have h4 : 2 ^ 52 * (100 * P9) ≤ 2 ^ 52 * (100 * 2 ^ j) :=
        Nat.mul_le_mul_left _ (Nat.mul_le_mul_left _ h2)
      omega
    have hninf : ¬(2045 < j ∨ j = 2045 ∧ F64.roundHalfEven (n * P) (100 * 2 ^ j) = 2 ^ 53) := by
      omega
    rw [if_neg hninf] at hrs
    refine ⟨_, _, hr.trans hrs, ?_⟩
    constructor
    · intro ht
      rw [quarterTest_finite] at ht
      obtain ⟨c, hc⟩ := ht (by omega)
      have e2 : (-2 - ((j : Int) - 1074)).toNat = 1072 - j := by omega
      rw [e2] at hc
      have hD : 0 < 100 * 2 ^ j := by positivity
      obtain ⟨s1, s2⟩ := roundHalfEven_spec (n * P) (100 * 2 ^ j) hD
      rw [hc] at s1 s2
      have hPj := hP4 j (by omega)
      have hQ : 16 ≤ 2 ^ (1072 - j) := by
        calc 16 = 2 ^ 4 := by norm_num
          _ ≤ 2 ^ (1072 - j) := Nat.pow_le_pow_right (by norm_num) (by omega)
      have hmD : 2 ^ (1072 - j) * c * (100 * 2 ^ j) = 25 * c * P := by
        rw [hPj]; ring
      rw [hmD] at s1 s2
      have hDP : 100 * 2 ^ j < 2 * P := by
        rw [hPj]
        have h2j : 0 < 2 ^ j := by positivity
        nlinarith
      have l1 : (50 * c) * P < (2 * n + 2) * P := by linarith
      have l2 : (2 * n) * P < (50 * c + 2) * P := by linarith
      have l3 := Nat.lt_of_mul_lt_mul_right l1
      have l4 := Nat.lt_of_mul_lt_mul_right l2
      exact ⟨c, by omega⟩
    · intro hdvd
      apply round_quarterTest false n 100 (by norm_num) _ false _ _ (hr.trans hrs)
      obtain ⟨c, hc⟩ := hdvd
      exact ⟨c, by omega⟩

theorem quarter_magnitude (m : Nat) (e : Int) :
    (e < -2 → 2 ^ (-2 - e).toNat ∣ m) ↔ ∃ k : ℤ, (m : ℚ) * (2 : ℚ) ^ e = k / 4 := by
  have h2 : (2 : ℚ) ≠ 0 := by norm_num
  constructor
  · intro h
    by_cases he : e < -2
    · obtain ⟨c, hc⟩ := h he
      refine ⟨c, ?_⟩
      have e1 : (2 : ℚ) ^ e = (2 : ℚ) ^ (-2 : ℤ) / (2 : ℚ) ^ ((-2 - e).toNat : ℤ) := by
        rw [← zpow_sub₀ h2]
        congr 1
        omega
      rw [hc, e1, zpow_natCast]
      have hp : ((2 : ℚ) ^ (-2 - e).toNat) ≠ 0 := by positivity
      push_cast
      field_simp
      norm_num
      ring
    · refine ⟨(m * 2 ^ (e + 2).toNat : Nat), ?_⟩
      have e1 : (2 : ℚ) ^ e = (2 : ℚ) ^ ((e + 2).toNat : ℤ) * (2 : ℚ) ^ (-2 : ℤ) := by
        rw [← zpow_add₀ h2]
        congr 1
        omega
      rw [e1, zpow_natCast]
      push_cast
      norm_num
      ring
  · rintro ⟨k, hk⟩ he
    have e1 : (2 : ℚ) ^ e = (2 : ℚ) ^ (-2 : ℤ) / (2 : ℚ) ^ ((-2 - e).toNat : ℤ) := by
      rw [← zpow_sub₀ h2]
      congr 1
      omega
    rw [e1, zpow_natCast] at hk
    have hp : ((2 : ℚ) ^ (-2 - e).toNat) ≠ 0 := by positivity
    have hk2 : (m : ℚ) = ((k * 2 ^ (-2 - e).toNat : ℤ) : ℚ) := by
      push_cast
      field_simp at hk
      norm_num at hk
      linarith
    have hk3 : (m : ℤ) = k * 2 ^ (-2 - e).toNat := by
      exact_mod_cast hk2
    have hd : ((2 ^ (-2 - e).toNat : Nat) : ℤ) ∣ (m : ℤ) := by
      rw [hk3]
      push_cast
      exact Dvd.intro_left _ rfl
    exact Int.natCast_dvd_natCast.1 hd

/-- The test `math.Mod(x, .25) == 0` on a finite value, in terms of its exact
value: the value is a whole number of quarters. -/
theorem quarterTest_iff_toRat (neg : Bool) (m : Nat) (e : Int) :
    F64.eq (math.Mod (F64.finite neg m e) F64.quarter) F64.zero = true ↔
      ∃ k : ℤ, F64.toRat (F64.finite neg m e) = k / 4 := by
  rw [quarterTest_finite, quarter_magnitude]
  cases neg
  · simp only [F64.toRat, Bool.false_eq_true, if_false, one_mul]
  · simp only [F64.toRat, if_true]
    constructor
    · rintro ⟨k, hk⟩
      exact ⟨-k, by push_cast; linarith⟩
    · rintro ⟨k, hk⟩
      exact ⟨-k, by push_cast; linarith⟩

/-! ## Rule 3: multiples of a quarter -/

theorem isDigit_val (c : Char) (h : strconv.isDigit c = true) : c.toNat - '0'.toNat ≤ 9 := by
  unfold strconv.isDigit at h
  simp only [Bool.and_eq_true, decide_eq_true_eq] at h
  have h0 : '0'.toNat = 48 := rfl
  have h9 : '9'.toNat = 57 := rfl
  rw [h0, h9] at h
  rw [h0]
  omega

theorem foldl_digits_lt (ds : List Char) (hds : ∀ c ∈ ds, strconv.isDigit c = true) (a : Nat) :
    ds.foldl (fun a c => a * 10 + (c.toNat - '0'.toNat)) a < (a + 1) * 10 ^ ds.length := by
  induction ds generalizing a with
  | nil => simp
  | cons c cs ih =>
    have hc := isDigit_val c (hds c (List.mem_cons_self _ _))
    have := ih (fun c' h' => hds c' (List.mem_cons_of_mem _ h')) (a * 10 + (c.toNat - '0'.toNat))
    simp only [List.foldl_cons, List.length_cons]
    calc _ < (a * 10 + (c.toNat - '0'.toNat) + 1) * 10 ^ cs.length := this
      _ ≤ ((a + 1) * 10) * 10 ^ cs.length := Nat.mul_le_mul_right _ (by omega)
      _ = (a + 1) * 10 ^ (cs.length + 1) := by rw [pow_succ]; ring

theorem amountCents_eq (ds : List Char) (c1 c2 : Char) :
    amountCents ds c1 c2 = decimalValue ds * 100 + decimalValue [c1, c2] := by
  simp [amountCents, decimalValue, List.foldl_append]
  ring

theorem amountCents_lt (ds : List Char) (c1 c2 : Char)
    (hds : ∀ c ∈ ds, strconv.isDigit c = true)
    (h1 : strconv.isDigit c1 = true) (h2 : strconv.isDigit c2 = true) (k : Nat)
    (hlen : ds.length ≤ k) :
    decimalValue [c1, c2] < 100 ∧ amountCents ds c1 c2 < 10 ^ (k + 2) := by
  have hv := foldl_digits_lt ds hds 0
  have v1 := isDigit_val c1 h1
  have v2 := isDigit_val c2 h2
  have hcc : decimalValue [c1, c2] < 100 := by
    simp only [decimalValue, List.foldl_cons, List.foldl_nil]
    omega
  refine ⟨hcc, ?_⟩
  rw [amountCents_eq]
  have hp : 10 ^ ds.length ≤ 10 ^ k := Nat.pow_le_pow_right (by norm_num) hlen
  have : decimalValue ds < 10 ^ k := by
    unfold decimalValue
    omega
  rw [pow_add]
  omega

theorem quarterPoints_amount (rec : receipt) (ds : List Char) (c1 c2 : Char) (hne : ds ≠ [])
    (hds : ∀ c ∈ ds, strconv.isDigit c = true)
    (h1 : strconv.isDigit c1 = true) (h2 : strconv.isDigit c2 = true) (hlen : ds.length ≤ 14)
    (ht : rec.Total.data = amountString ds c1 c2) :
    quarterPoints rec = 25 ↔
      (decimalValue [c1, c2] = 0 ∨ decimalValue [c1, c2] = 25 ∨ decimalValue [c1, c2] = 50 ∨
        decimalValue [c1, c2] = 75) := by
  obtain ⟨hcc, hlt⟩ := amountCents_lt ds c1 c2 hds h1 h2 14 hlen
  obtain ⟨m, e, hr, hq⟩ := round_amount_quarter (amountCents ds c1 c2) hlt
  have hp := ParseFloat_amount ds c1 c2 hne hds h1 h2
  rw [hr] at hp
  simp only [] at hp
  unfold quarterPoints
  rw [ht, hp]
  simp only []
  have hd : 25 ∣ amountCents ds c1 c2 ↔ (decimalValue [c1, c2] = 0 ∨ decimalValue [c1, c2] = 25 ∨
      decimalValue [c1, c2] = 50 ∨ decimalValue [c1, c2] = 75) := by
    rw [amountCents_eq]
    omega
  rw [← hd, ← hq]
  split <;> simp_all

/-! ## `math.Ceil` and the conversion to `int` -/

theorem toRat_nonneg_exp (neg : Bool) (m : Nat) (e : Int) (he : 0 ≤ e) :
    F64.toRat (F64.finite neg m e) =
      (((if neg then -1 else 1) * ((m * 2 ^ e.toNat : Nat) : ℤ) : ℤ) : ℚ) := by
  have e1 : (2 : ℚ) ^ e = (2 : ℚ) ^ (e.toNat : ℤ) := by
    congr 1
    omega
  simp only [F64.toRat]
  rw [e1, zpow_natCast]
  cases neg <;> push_cast <;> ring

theorem toRat_neg_exp (neg : Bool) (m : Nat) (e : Int) (he : e < 0) :
    F64.toRat (F64.finite neg m e) =
      (if neg then -1 else 1) * ((m : ℚ) / ((2 ^ (-e).toNat : Nat) : ℚ)) := by
  have h2 : (2 : ℚ) ≠ 0 := by norm_num
  have e1 : (2 : ℚ) ^ e = ((2 : ℚ) ^ ((-e).toNat : ℤ))⁻¹ := by
    rw [← zpow_neg]
    congr 1
    omega
  simp only [F64.toRat]
  rw [e1, zpow_natCast]
  push_cast
  ring

theorem ceil_natDiv (m d : Nat) (hd : 0 < d) :
    ⌈(m : ℚ) / d⌉ = ((if m % d = 0 then m / d else m / d + 1 : Nat) : ℤ) ∧
      ⌈(-1 : ℚ) * ((m : ℚ) / d)⌉ = -((m / d : Nat) : ℤ) := by
  have hdq : (0 : ℚ) < (d : ℚ) := by exact_mod_cast hd
  have hdm := Nat.div_add_mod m d
  have hml := Nat.mod_lt m hd
  generalize m / d = q at *
  generalize m % d = r at *
  have hmq : (m : ℚ) = (d : ℚ) * (q : ℚ) + (r : ℚ) := by exact_mod_cast hdm.symm
  have hrq : (r : ℚ) < d := by exact_mod_cast hml
  have hr0 : (0 : ℚ) ≤ (r : ℚ) := by positivity
  have hquot : (m : ℚ) / d = (q : ℚ) + (r : ℚ) / d := by
    rw [hmq]
    field_simp
    ring
  have hfr1 : (r : ℚ) / d < 1 := by
    rw [div_lt_one hdq]
    exact hrq
  have hfr0 : (0 : ℚ) ≤ (r : ℚ) / d := by positivity
  constructor
  · rw [Int.ceil_eq_iff, hquot]
    by_cases hz : r = 0
    · subst hz
      simp
    · simp only [hz, if_false]
      have hrpos : (0 : ℚ) < (r : ℚ) := by
        have : 0 < r := by omega
        exact_mod_cast this
      have hfr : (0 : ℚ) < (r : ℚ) / d := by positivity
      simp only [Nat.cast_add, Nat.cast_one, Int.cast_add, Int.cast_natCast, Int.cast_one]
      constructor <;> linarith
  · rw [Int.ceil_eq_iff, hquot]
    simp only [Int.cast_neg, Int.cast_natCast]
    constructor <;> linarith

/-- On a finite value whose ceiling fits an `int`, `int(math.Ceil(x))` is the
ceiling of the exact value of `x`. -/
theorem toInt_Ceil (impl : F64 → Int) (neg : Bool) (m : Nat) (e : Int)
    (h1 : -2 ^ 63 ≤ ⌈F64.toRat (F64.finite neg m e)⌉)
    (h2 : ⌈F64.toRat (F64.finite neg m e)⌉ < 2 ^ 63) :
    F64.toInt impl (math.Ceil (F64.finite neg m e)) = ⌈F64.toRat (F64.finite neg m e)⌉ := by
  by_cases he : e < 0
  · have hd : 0 < 2 ^ (-e).toNat := by positivity
    obtain ⟨c1, c2⟩ := ceil_natDiv m (2 ^ (-e).toNat) hd
    rw [toRat_neg_exp neg m e he] at h1 h2 ⊢
    cases neg with
    | false =>
      simp only [Bool.false_eq_true, if_false, one_mul] at h1 h2 ⊢
      rw [c1] at h1 h2 ⊢
      simp only [math.Ceil, if_pos he, Bool.false_eq_true, if_false, F64.toInt,
        show ¬((0 : Int) < 0) by decide, Int.toNat_zero, pow_zero, mul_one]
      rw [if_pos ⟨h1, h2⟩]
    | true =>
      simp only [if_true] at h1 h2 ⊢
      rw [c2] at h1 h2 ⊢
      simp only [math.Ceil, if_pos he, if_true, F64.toInt,
        show ¬((0 : Int) < 0) by decide, Int.toNat_zero, pow_zero, mul_one, if_false]
      rw [if_pos ⟨h1, h2⟩]
  · rw [toRat_nonneg_exp neg m e (by omega), Int.ceil_intCast] at h1 h2 ⊢
    simp only [math.Ceil, if_neg he, F64.toInt]
    cases neg with
    | false =>
      simp only [Bool.false_eq_true, if_false, one_mul] at h1 h2 ⊢
      rw [if_pos ⟨h1, h2⟩]
    | true =>
      simp only [if_true, neg_mul, one_mul] at h1 h2 ⊢
      rw [if_pos ⟨h1, h2⟩]

/-- The conversion `int(math.Ceil(x))` on any finite value: the ceiling of the
exact value of `x` when that fits an `int`, and otherwise what the platform makes
of the conversion. -/
theorem toInt_Ceil_cases (impl : F64 → Int) (neg : Bool) (m : Nat) (e : Int) :
    F64.toInt impl (math.Ceil (F64.finite neg m e)) =
      if -2 ^ 63 ≤ ⌈F64.toRat (F64.finite neg m e)⌉ ∧ ⌈F64.toRat (F64.finite neg m e)⌉ < 2 ^ 63
      then ⌈F64.toRat (F64.finite neg m e)⌉
      else wrapInt (impl (math.Ceil (F64.finite neg m e))) := by
  by_cases hr : -2 ^ 63 ≤ ⌈F64.toRat (F64.finite neg m e)⌉ ∧
      ⌈F64.toRat (F64.finite neg m e)⌉ < 2 ^ 63
  · rw [if_pos hr]
    exact toInt_Ceil impl neg m e hr.1 hr.2
  · rw [if_neg hr]
    by_cases he : e < 0
    · have hd : 0 < 2 ^ (-e).toNat := by positivity
      obtain ⟨c1, c2⟩ := ceil_natDiv m (2 ^ (-e).toNat) hd
      rw [toRat_neg_exp neg m e he] at hr
      cases neg with
      | false =>
        simp only [Bool.false_eq_true, if_false, one_mul] at hr
        rw [c1] at hr
        simp only [math.Ceil, if_pos he, Bool.false_eq_true, if_false, F64.toInt,
          show ¬((0 : Int) < 0) by decide, Int.toNat_zero, pow_zero, mul_one]
        rw [if_neg hr]
      | true =>
        simp only [if_true] at hr
        rw [c2] at hr
        simp only [math.Ceil, if_pos he, if_true, F64.toInt,
          show ¬((0 : Int) < 0) by decide, Int.toNat_zero, pow_zero, mul_one, if_false]
        rw [if_neg hr]
    · rw [toRat_nonneg_exp neg m e (by omega), Int.ceil_intCast] at hr
      simp only [math.Ceil, if_neg he, F64.toInt]
      cases neg with
      | false =>
        simp only [Bool.false_eq_true, if_false, one_mul] at hr ⊢
        rw [if_neg hr]
      | true =>
        simp only [if_true, neg_mul, one_mul] at hr ⊢
        rw [if_neg hr]

theorem wrapInt_amd64 (x : F64) : wrapInt (F64.amd64 x) = -2 ^ 63 := by
  unfold wrapInt F64.amd64
  norm_num

/-! ## Rule 5: descriptions whose trimmed length is a multiple of 3 -/

theorem toInt_range (impl : F64 → Int) (x : F64) :
    -2 ^ 63 ≤ F64.toInt impl x ∧ F64.toInt impl x < 2 ^ 63 := by
  cases x with
  | finite neg m e =>
    simp only [F64.toInt]
    generalize (if neg = true then
      -(if e < 0 then ((m / 2 ^ (-e).toNat : Nat) : Int) else ((m * 2 ^ e.toNat : Nat) : Int))
      else (if e < 0 then ((m / 2 ^ (-e).toNat : Nat) : Int) else ((m * 2 ^ e.toNat : Nat) : Int))) = v
    by_cases h : -2 ^ 63 ≤ v ∧ v < 2 ^ 63
    · rw [if_pos h]
      exact h
    · rw [if_neg h]
      exact wrapInt_range _
  | inf neg => exact wrapInt_range _
  | nan => exact wrapInt_range _

theorem TrimSpace_blank (s : List Char) (h : ∀ c ∈ s, strings.isSpace c = true) :
    strings.TrimSpace s = [] := by
  unfold strings.TrimSpace
  have : s.dropWhile strings.isSpace = [] := by
    rw [List.dropWhile_eq_nil_iff]
    exact h
  rw [this]
  rfl

theorem singleItem_points (impl : F64 → Int) (item : Item) :
    calculatePoints impl ⟨"", "", "", [item], ""⟩ = wrapInt (itemPoints impl item) := by
  rw [calculatePoints_eq_sum]
  have h1 : retailerPoints ⟨"", "", "", [item], ""⟩ = 0 := rfl
  have h2 : roundDollarPoints ⟨"", "", "", [item], ""⟩ = 0 := rfl
  have h3 : quarterPoints ⟨"", "", "", [item], ""⟩ = 0 := rfl
  have h4 : pairPoints ⟨"", "", "", [item], ""⟩ = 0 := by simp [pairPoints]
  have h5 : datePoints ⟨"", "", "", [item], ""⟩ = 0 := rfl
  have h6 : timePoints ⟨"", "", "", [item], ""⟩ = 0 := rfl
  have h7 : descriptionPoints impl ⟨"", "", "", [item], ""⟩ = itemPoints impl item := by
    simp [descriptionPoints]
  rw [h1, h2, h3, h4, h5, h6, h7]
  simp

/-! ## Bounds on rounded values -/

theorem scaled_ratio (m : Nat) (e : Int) :
    ((m * 2 ^ e.toNat : Nat) : ℚ) / ((2 ^ (-e).toNat : Nat) : ℚ) = (m : ℚ) * (2 : ℚ) ^ e := by
  have h2 : (2 : ℚ) ≠ 0 := by norm_num
  by_cases he : 0 ≤ e
  · have e1 : (-e).toNat = 0 := by omega
    have e2 : (2 : ℚ) ^ e = (2 : ℚ) ^ (e.toNat : ℤ) := by
      congr 1
      omega
    rw [e1, e2, zpow_natCast]
    push_cast
    simp [div_eq_mul_inv]
  · have e1 : e.toNat = 0 := by omega
    have e2 : (2 : ℚ) ^ e = ((2 : ℚ) ^ ((-e).toNat : ℤ))⁻¹ := by
      rw [← zpow_neg]
      congr 1
      omega
    rw [e1, e2, zpow_natCast]
    push_cast
    simp [div_eq_mul_inv]

/-- Rounding a value below `2^K` gives a finite value of at most `2^K`. -/
theorem round_le_pow (neg : Bool) (num den K : Nat) (hd : 0 < den) (hK : K ≤ 1023)
    (h : num < 2 ^ K * den) :
    ∃ m e, F64.round neg num den = F64.finite neg m e ∧ (m : ℚ) * (2 : ℚ) ^ e ≤ 2 ^ K := by
  by_cases h0 : num = 0
  · refine ⟨0, 0, by simp [F64.round, h0], ?_⟩
    simp
  · have hPK : ∀ j, j ≤ K + 1074 → 2 ^ K * (2 : Nat) ^ 1074 = 2 ^ (K + 1074 - j) * 2 ^ j := by
      intro j hj
      rw [← pow_add, ← pow_add]
      congr 1
      omega
    have hP52 : ∀ j, K + 1022 ≤ j → 2 ^ K * (2 : Nat) ^ 1074 ≤ 2 ^ 52 * 2 ^ j := by
      intro j hj
      rw [← pow_add, ← pow_add]
      exact two_pow_mono _ _ (by omega)
    have hr : F64.round neg num den = F64.roundScaled neg (num * 2 ^ 1074) den := by
      unfold F64.round
      rw [if_neg h0]
    have hPpos : 0 < (2 : Nat) ^ 1074 := by positivity
    generalize (2 : Nat) ^ 1074 = P at hr hPK hP52 hPpos
    obtain ⟨j, hlt, hge, hrs⟩ := roundScaled_spec neg (num * P) den
      (Nat.mul_pos (by omega) hPpos) hd
    have hN : num * P < 2 ^ K * den * P := Nat.mul_lt_mul_of_pos_right h hPpos
    have hj : j < K + 1022 := by
      by_contra hc
      have h1 := hge (by omega)
      have h2 := hP52 j (by omega)
      have h3 : 2 ^ K * den * P ≤ 2 ^ 52 * (den * 2 ^ j) := by
        calc 2 ^ K * den * P = den * (2 ^ K * P) := by ring
          _ ≤ den * (2 ^ 52 * 2 ^ j) := Nat.mul_le_mul_left _ h2
          _ = 2 ^ 52 * (den * 2 ^ j) := by ring
      omega
    have hninf : ¬(2045 < j ∨ j = 2045 ∧ F64.roundHalfEven (num * P) (den * 2 ^ j) = 2 ^ 53) := by
      omega
    have hexp : ((K + 1074 - j : ℕ) : ℤ) + ((j : ℤ) - 1074) = (K : ℤ) := by omega
    rw [if_neg hninf] at hrs
    refine ⟨_, _, hr.trans hrs, ?_⟩
    have hD : 0 < den * 2 ^ j := by positivity
    have hNQ : num * P < 2 ^ (K + 1074 - j) * (den * 2 ^ j) := by
      calc num * P < 2 ^ K * den * P := hN
        _ = den * (2 ^ K * P) := by ring
        _ = den * (2 ^ (K + 1074 - j) * 2 ^ j) := by rw [hPK j (by omega)]
        _ = 2 ^ (K + 1074 - j) * (den * 2 ^ j) := by ring
    have hq : num * P / (den * 2 ^ j) < 2 ^ (K + 1074 - j) := (Nat.div_lt_iff_lt_mul hD).2 hNQ
    have hm : F64.roundHalfEven (num * P) (den * 2 ^ j) ≤ 2 ^ (K + 1074 - j) :=
      le_trans (roundHalfEven_le _ _) hq
    have hmq : ((F64.roundHalfEven (num * P) (den * 2 ^ j) : Nat) : ℚ) ≤
        (2 : ℚ) ^ (K + 1074 - j) := by exact_mod_cast hm
    have hpe : (0 : ℚ) < (2 : ℚ) ^ ((j : ℤ) - 1074) := by positivity
    calc ((F64.roundHalfEven (num * P) (den * 2 ^ j) : Nat) : ℚ) * (2 : ℚ) ^ ((j : ℤ) - 1074)
        ≤ (2 : ℚ) ^ (K + 1074 - j) * (2 : ℚ) ^ ((j : ℤ) - 1074) :=
          mul_le_mul_of_nonneg_right hmq hpe.le
      _ = (2 : ℚ) ^ K := by
          rw [← zpow_natCast, ← zpow_natCast, ← zpow_add₀ (by norm_num), hexp]

/-- The bonus of rule 5 for a price read as a non-negative value below `2^62`:
the conversion to `int` is in range and the bonus is not negative. -/
theorem bonus_nonneg (impl : F64 → Int) (m : Nat) (e : Int)
    (h : F64.toRat (F64.finite false m e) < 2 ^ 62) :
    0 ≤ F64.toInt impl (math.Ceil (F64.mul (F64.finite false m e) F64.fifth)) ∧
      F64.toInt impl (math.Ceil (F64.mul (F64.finite false m e) F64.fifth)) ≤ 2 ^ 60 := by
  simp only [F64.toRat, Bool.false_eq_true, if_false, one_mul] at h
  rw [fifth_eq]
  have hmul : F64.mul (F64.finite false m e) (F64.finite false 7205759403792794 (-55)) =
      F64.round false (m * 7205759403792794 * 2 ^ (e + -55).toNat) (2 ^ (-(e + -55)).toNat) := rfl
  rw [hmul]
  have hden : 0 < 2 ^ (-(e + -55)).toNat := by positivity
  have hratio := scaled_ratio (m * 7205759403792794) (e + -55)
  have hq : ((m * 7205759403792794 : Nat) : ℚ) * (2 : ℚ) ^ (e + -55) < 2 ^ 60 := by
    rw [zpow_add₀ (by norm_num)]
    have h55 : (2 : ℚ) ^ (-55 : ℤ) = 1 / 2 ^ 55 := by
      rw [zpow_neg, one_div]
      norm_cast
    rw [h55]
    push_cast
    have hpos : (0 : ℚ) ≤ (m : ℚ) * (2 : ℚ) ^ e := by positivity
    have : (m : ℚ) * 7205759403792794 * ((2 : ℚ) ^ e * (1 / 2 ^ 55)) =
        ((m : ℚ) * (2 : ℚ) ^ e) * (7205759403792794 / 2 ^ 55) := by ring
    rw [this]
    calc ((m : ℚ) * (2 : ℚ) ^ e) * (7205759403792794 / 2 ^ 55)
        ≤ ((m : ℚ) * (2 : ℚ) ^ e) * (1 / 4) := by
          apply mul_le_mul_of_nonneg_left _ hpos
          norm_num
      _ < 2 ^ 62 * (1 / 4) := by
          apply mul_lt_mul_of_pos_right h
          norm_num
      _ = 2 ^ 60 := by norm_num
  have hnat : m * 7205759403792794 * 2 ^ (e + -55).toNat < 2 ^ 60 * 2 ^ (-(e + -55)).toNat := by
    rw [← hratio] at hq
    have hdq : (0 : ℚ) < ((2 ^ (-(e + -55)).toNat : Nat) : ℚ) := by exact_mod_cast hden
    rw [div_lt_iff₀ hdq] at hq
    exact_mod_cast hq
  obtain ⟨m', e', hr, hle⟩ := round_le_pow false _ _ 60 hden (by norm_num) hnat
  rw [hr]
  have hv : F64.toRat (F64.finite false m' e') = (m' : ℚ) * (2 : ℚ) ^ e' := by
    simp [F64.toRat]
  have hv0 : (0 : ℚ) ≤ F64.toRat (F64.finite false m' e') := by
    rw [hv]
    positivity
  have hc0 : 0 ≤ ⌈F64.toRat (F64.finite false m' e')⌉ := Int.ceil_nonneg hv0
  have hc1 : ⌈F64.toRat (F64.finite false m' e')⌉ ≤ 2 ^ 60 := by
    rw [Int.ceil_le, hv]
    push_cast
    exact hle
  rw [toInt_Ceil impl false m' e' (by omega) (by omega)]
  exact ⟨hc0, hc1⟩

theorem retailerPoints_nonneg (rec : receipt) : 0 ≤ retailerPoints rec := by
  unfold retailerPoints
  positivity

theorem roundDollarPoints_nonneg (rec : receipt) : 0 ≤ roundDollarPoints rec := by
  unfold roundDollarPoints
  split <;> norm_num

theorem quarterPoints_nonneg (rec : receipt) : 0 ≤ quarterPoints rec := by
  unfold quarterPoints
  split
  · split <;> norm_num
  · norm_num

theorem pairPoints_nonneg (rec : receipt) : 0 ≤ pairPoints rec := by
  unfold pairPoints
  positivity

theorem datePoints_nonneg (rec : receipt) : 0 ≤ datePoints rec := by
  unfold datePoints
  split
  · split <;> norm_num
  · norm_num

theorem timePoints_nonneg (rec : receipt) : 0 ≤ timePoints rec := by
  unfold timePoints
  split
  · split <;> norm_num
  · norm_num

/-- C2, counterexample: for the receipt with the single item of description `abc`
and price `-10` (everything else empty), `calculatePoints` returns -2, whatever the
platform does with out-of-range conversions. -/
theorem C2_counterexample :
    (¬ ∃ impl : F64 → Int, 0 ≤ calculatePoints impl ⟨"", "", "", [⟨"abc", "-10"⟩], ""⟩) ∧
    calculatePoints F64.amd64 ⟨"", "", "", [⟨"abc", "-10"⟩], ""⟩ = -2 := by
  have h : ∀ impl : F64 → Int, calculatePoints impl ⟨"", "", "", [⟨"abc", "-10"⟩], ""⟩ = -2 := by
    intro impl
    rw [singleItem_points]
    have hp : strconv.ParseFloat (Item.mk "abc" "-10").Price.data =
        .ok (F64.finite true 5629499534213120 (-49)) := by decide!
    have hc : math.Ceil (F64.mul (F64.finite true 5629499534213120 (-49)) F64.fifth) =
        F64.finite true 2 0 := by decide!
    have hq : len (strings.TrimSpace (Item.mk "abc" "-10").ShortDescription.data) % 3 = 0 := by
      decide
    have hi : itemPoints impl ⟨"abc", "-10"⟩ = -2 := by
      unfold itemPoints
      rw [if_pos hq, hp]
      simp only [hc]
      rfl
    rw [hi]
    rfl
  refine ⟨?_, h _⟩
  rintro ⟨impl, hi⟩
  rw [h impl] at hi
  omega

theorem itemPoints_ceil (impl : F64 → Int) (item : Item) (p : F64) (neg : Bool) (m : Nat)
    (e : Int) (hq : len (strings.TrimSpace item.ShortDescription.data) % 3 = 0)
    (hp : strconv.ParseFloat item.Price.data = .ok p)
    (hm : F64.mul p F64.fifth = F64.finite neg m e)
    (h1 : -2 ^ 63 ≤ ⌈F64.toRat (F64.finite neg m e)⌉)
    (h2 : ⌈F64.toRat (F64.finite neg m e)⌉ < 2 ^ 63) :
    itemPoints impl item = ⌈F64.toRat (F64.finite neg m e)⌉ := by
  unfold itemPoints
  rw [if_pos hq, hp]
  simp only []
  rw [hm]
  exact toInt_Ceil impl neg m e h1 h2

theorem negativePrice_items (impl : F64 → Int) :
    itemPoints impl ⟨"abc", "-10"⟩ = -2 ∧ itemPoints impl ⟨"abc", "-4"⟩ = 0 ∧
    itemPoints impl ⟨"abc", "1e19"⟩ = 2000000000000000000 := by
  have hq : ∀ price : String,
      len (strings.TrimSpace (Item.mk "abc" price).ShortDescription.data) % 3 = 0 := by
    intro price
    have h : len (strings.TrimSpace "abc".data) % 3 = 0 := by decide
    exact h
  have p1 : strconv.ParseFloat (Item.mk "abc" "-10").Price.data =
      .ok (F64.finite true 5629499534213120 (-49)) := by decide!
  have m1 : F64.mul (F64.finite true 5629499534213120 (-49)) F64.fifth =
      F64.finite true 4503599627370496 (-51) := by decide!
  have v1 : ⌈F64.toRat (F64.finite true 4503599627370496 (-51))⌉ = -2 := by
    simp only [F64.toRat, if_true]
    rw [zpow_neg, Int.ceil_eq_iff]
    norm_num
  have p2 : strconv.ParseFloat (Item.mk "abc" "-4").Price.data =
      .ok (F64.finite true 4503599627370496 (-50)) := by decide!
  have m2 : F64.mul (F64.finite true 4503599627370496 (-50)) F64.fifth =
      F64.finite true 7205759403792794 (-53) := by decide!
  have v2 : ⌈F64.toRat (F64.finite true 7205759403792794 (-53))⌉ = 0 := by
    simp only [F64.toRat, if_true]
    rw [zpow_neg, Int.ceil_eq_iff]
    norm_num
  have p3 : strconv.ParseFloat (Item.mk "abc" "1e19").Price.data =
      .ok (F64.finite false 4882812500000000 11) := by decide!
  have m3 : F64.mul (F64.finite false 4882812500000000 11) F64.fifth =
      F64.finite false 7812500000000000 8 := by decide!
  have v3 : ⌈F64.toRat (F64.finite false 7812500000000000 8)⌉ = 2000000000000000000 := by
    simp only [F64.toRat, Bool.false_eq_true, if_false, one_mul]
    rw [Int.ceil_eq_iff]
    norm_num
  refine ⟨?_, ?_, ?_⟩
  · rw [itemPoints_ceil impl _ _ _ _ _ (hq _) p1 m1 (by rw [v1]; norm_num) (by rw [v1]; norm_num)]
    exact v1
  · rw [itemPoints_ceil impl _ _ _ _ _ (hq _) p2 m2 (by rw [v2]; norm_num) (by rw [v2]; norm_num)]
    exact v2
  · rw [itemPoints_ceil impl _ _ _ _ _ (hq _) p3 m3 (by rw [v3]; norm_num) (by rw [v3]; norm_num)]
    exact v3

/-- C2, amended: rules 1 to 4, 6 and 7 never add a negative amount.  Rule 5 adds
`int(math.Ceil(price * 0.2))` for an item that qualifies and whose price
`ParseFloat` accepts, and 0 for any other item; when the `float64` product is
finite and its ceiling fits an `int`, the amount is that ceiling, and it is
negative exactly when the product is at most -1 (the price `-10` adds -2, the
price `-4` adds 0, the price `1e19` adds 2000000000000000000).  When, for every
item that qualifies and whose price is accepted, the product is finite, above -1
and has a ceiling below `2^63`, no item adds a negative amount, and if the sum of
the seven amounts is below `2^63` then `calculatePoints` is not negative.  On
amd64 the condition on an item is also necessary for its amount not to be
negative. -/
theorem C2_points_nonneg (impl : F64 → Int) (rec : receipt) :
    (0 ≤ retailerPoints rec ∧ 0 ≤ roundDollarPoints rec ∧ 0 ≤ quarterPoints rec ∧
      0 ≤ pairPoints rec ∧ 0 ≤ datePoints rec ∧ 0 ≤ timePoints rec) ∧
    (∀ item : Item, len (strings.TrimSpace item.ShortDescription.data) % 3 ≠ 0 →
      itemPoints impl item = 0) ∧
    (∀ (item : Item) (err : strconv.NumError), strconv.ParseFloat item.Price.data = .error err →
      itemPoints impl item = 0) ∧
    (∀ (item : Item) (p : F64), len (strings.TrimSpace item.ShortDescription.data) % 3 = 0 →
      strconv.ParseFloat item.Price.data = .ok p →
      itemPoints impl item = F64.toInt impl (math.Ceil (F64.mul p F64.fifth)) ∧
      ∀ (neg : Bool) (m : Nat) (e : Int), F64.mul p F64.fifth = F64.finite neg m e →
        -2 ^ 63 ≤ ⌈F64.toRat (F64.finite neg m e)⌉ →
        ⌈F64.toRat (F64.finite neg m e)⌉ < 2 ^ 63 →
        itemPoints impl item = ⌈F64.toRat (F64.finite neg m e)⌉ ∧
        (itemPoints impl item < 0 ↔ F64.toRat (F64.finite neg m e) ≤ -1) ∧
        (0 ≤ itemPoints impl item ↔ -1 < F64.toRat (F64.finite neg m e))) ∧
    ((∀ item ∈ rec.Items, len (strings.TrimSpace item.ShortDescription.data) % 3 = 0 →
        ∀ p, strconv.ParseFloat item.Price.data = .ok p →
          ∃ (neg : Bool) (m : Nat) (e : Int), F64.mul p F64.fifth = F64.finite neg m e ∧
            -1 < F64.toRat (F64.finite neg m e) ∧
            ⌈F64.toRat (F64.finite neg m e)⌉ < 2 ^ 63) →
      (∀ item ∈ rec.Items, 0 ≤ itemPoints impl item) ∧
      0 ≤ descriptionPoints impl rec ∧
      (retailerPoints rec + roundDollarPoints rec + quarterPoints rec + pairPoints rec +
          descriptionPoints impl rec + datePoints rec + timePoints rec < 2 ^ 63 →
        0 ≤ calculatePoints impl rec)) ∧
    (∀ (item : Item) (p : F64), len (strings.TrimSpace item.ShortDescription.data) % 3 = 0 →
      strconv.ParseFloat item.Price.data = .ok p →
      (0 ≤ itemPoints F64.amd64 item ↔
        ∃ (neg : Bool) (m : Nat) (e : Int), F64.mul p F64.fifth = F64.finite neg m e ∧
          -1 < F64.toRat (F64.finite neg m e) ∧
          ⌈F64.toRat (F64.finite neg m e)⌉ < 2 ^ 63)) ∧
    itemPoints impl ⟨"abc", "-10"⟩ = -2 ∧ itemPoints impl ⟨"abc", "-4"⟩ = 0 ∧
    itemPoints impl ⟨"abc", "1e19"⟩ = 2000000000000000000 := by
  have h1 := retailerPoints_nonneg rec
  have h2 := roundDollarPoints_nonneg rec
  have h3 := quarterPoints_nonneg rec
  have h4 := pairPoints_nonneg rec
  have h6 := datePoints_nonneg rec
  have h7 := timePoints_nonneg rec
  have hceil : ∀ v : ℚ, (⌈v⌉ < 0 ↔ v ≤ -1) ∧ (0 ≤ ⌈v⌉ ↔ -1 < v) := by
    intro v
    have e1 : (0 ≤ ⌈v⌉ ↔ -1 < v) := by
      have := Int.lt_ceil (z := -1) (a := v)
      rw [show (-1 : ℤ) < ⌈v⌉ ↔ 0 ≤ ⌈v⌉ by omega] at this
      simpa using this
    refine ⟨?_, e1⟩
    rw [← not_le, e1, not_lt]
  refine ⟨⟨h1, h2, h3, h4, h6, h7⟩, ?_, ?_, ?_, ?_, ?_, negativePrice_items impl⟩
  · intro item hq
    unfold itemPoints
    rw [if_neg hq]
  · intro item err he
    unfold itemPoints
    rw [he]
    simp
  · intro item p hq hp
    constructor
    · unfold itemPoints
      rw [if_pos hq, hp]
    · intro neg m e hm hlo hhi
      have hi := itemPoints_ceil impl item p neg m e hq hp hm hlo hhi
      refine ⟨hi, ?_, ?_⟩
      · rw [hi]
        exact (hceil _).1
      · rw [hi]
        exact (hceil _).2
  · intro hprice
    have hitem : ∀ item ∈ rec.Items, 0 ≤ itemPoints impl item := by
      intro item hmem
      by_cases hq : len (strings.TrimSpace item.ShortDescription.data) % 3 = 0
      · cases hp : strconv.ParseFloat item.Price.data with
        | error err =>
          unfold itemPoints
          rw [if_pos hq, hp]
        | ok p =>
          obtain ⟨neg, m, e, hm, hlo, hhi⟩ := hprice item hmem hq p hp
          have hc := ((hceil (F64.toRat (F64.finite neg m e))).2).2 hlo
          rw [itemPoints_ceil impl item p neg m e hq hp hm
            (le_trans (by norm_num) hc) hhi]
          exact hc
      · unfold itemPoints
        rw [if_neg hq]
    have hdesc : 0 ≤ descriptionPoints impl rec := by
      unfold descriptionPoints
      apply List.sum_nonneg
      intro x hx
      obtain ⟨item, hmem, rfl⟩ := List.mem_map.1 hx
      exact hitem item hmem
    refine ⟨hitem, hdesc, ?_⟩
    intro hfit
    rw [calculatePoints_eq_sum, wrapInt_of_range (by omega) hfit]
    omega
  · intro item p hq hp
    have hi : itemPoints F64.amd64 item =
        F64.toInt F64.amd64 (math.Ceil (F64.mul p F64.fifth)) := by
      unfold itemPoints
      rw [if_pos hq, hp]
    constructor
    · intro h0
      rw [hi] at h0
      cases hm : F64.mul p F64.fifth with
      | finite neg m e =>
        rw [hm, toInt_Ceil_cases] at h0
        by_cases hr : -2 ^ 63 ≤ ⌈F64.toRat (F64.finite neg m e)⌉ ∧
            ⌈F64.toRat (F64.finite neg m e)⌉ < 2 ^ 63
        · rw [if_pos hr] at h0
          exact ⟨neg, m, e, rfl, ((hceil _).2).1 h0, hr.2⟩
        · rw [if_neg hr, wrapInt_amd64] at h0
          exact absurd h0 (by norm_num)
      | inf neg =>
        rw [hm] at h0
        simp only [math.Ceil, F64.toInt] at h0
        rw [wrapInt_amd64] at h0
        exact absurd h0 (by norm_num)
      | nan =>
        rw [hm] at h0
        simp only [math.Ceil, F64.toInt] at h0
        rw [wrapInt_amd64] at h0
        exact absurd h0 (by norm_num)
    · rintro ⟨neg, m, e, hm, hlo, hhi⟩
      have hc := ((hceil (F64.toRat (F64.finite neg m e))).2).2 hlo
      rw [itemPoints_ceil F64.amd64 item p neg m e hq hp hm (le_trans (by norm_num) hc) hhi]
      exact hc

/-- C2 (amended) at `smallReceipt`: its only qualifying item has the price 12.25,
of which the product with 0.2 is about 2.45; the sum of the seven amounts fits an
`int`, and `calculatePoints` is not negative. -/
theorem C2_witness :
    ((∀ item ∈ smallReceipt.Items,
        len (strings.TrimSpace item.ShortDescription.data) % 3 = 0 →
        ∀ p, strconv.ParseFloat item.Price.data = .ok p →
          ∃ (neg : Bool) (m : Nat) (e : Int), F64.mul p F64.fifth = F64.finite neg m e ∧
            -1 < F64.toRat (F64.finite neg m e) ∧
            ⌈F64.toRat (F64.finite neg m e)⌉ < 2 ^ 63) ∧
      retailerPoints smallReceipt + roundDollarPoints smallReceipt + quarterPoints smallReceipt +
        pairPoints smallReceipt + descriptionPoints F64.amd64 smallReceipt +
        datePoints smallReceipt + timePoints smallReceipt < 2 ^ 63) ∧
    0 ≤ calculatePoints F64.amd64 smallReceipt := by
  have hprice : ∀ item ∈ smallReceipt.Items,
      len (strings.TrimSpace item.ShortDescription.data) % 3 = 0 →
      ∀ p, strconv.ParseFloat item.Price.data = .ok p →
        ∃ (neg : Bool) (m : Nat) (e : Int), F64.mul p F64.fifth = F64.finite neg m e ∧
          -1 < F64.toRat (F64.finite neg m e) ∧
          ⌈F64.toRat (F64.finite neg m e)⌉ < 2 ^ 63 := by
    intro item hmem
    simp only [smallReceipt, List.mem_cons, List.mem_singleton, List.not_mem_nil,
      or_false] at hmem
    rcases hmem with rfl | rfl
    · intro _ p hp
      have h : strconv.ParseFloat (Item.mk "Emils Cheese Pizza" "12.25").Price.data =
          .ok (F64.finite false 6896136929411072 (-49)) := by decide!
      rw [h] at hp
      simp only [Except.ok.injEq] at hp
      subst hp
      have hm : F64.mul (F64.finite false 6896136929411072 (-49)) F64.fifth =
          F64.finite false 5516909543528858 (-51) := by decide!
      have hv : F64.toRat (F64.finite false 5516909543528858 (-51)) =
          5516909543528858 / 2 ^ 51 := by
        simp only [F64.toRat, Bool.false_eq_true, if_false, one_mul]
        rw [zpow_neg]
        norm_num
      refine ⟨false, _, _, hm, ?_, ?_⟩
      · rw [hv]
        norm_num
      · rw [hv]
        have : ⌈(5516909543528858 / 2 ^ 51 : ℚ)⌉ = 3 := by
          rw [Int.ceil_eq_iff]
          norm_num
        rw [this]
        norm_num
    · intro hq
      exact absurd hq (by decide)
  have hfit : retailerPoints smallReceipt + roundDollarPoints smallReceipt +
      quarterPoints smallReceipt + pairPoints smallReceipt +
      descriptionPoints F64.amd64 smallReceipt + datePoints smallReceipt +
      timePoints smallReceipt < 2 ^ 63 := by decide!
  exact ⟨⟨hprice, hfit⟩,
    ((C2_points_nonneg F64.amd64 smallReceipt).2.2.2.2.1 hprice).2.2 hfit⟩

theorem descriptionPoints_filterMap (impl : F64 → Int) (items : List Item) :
    (items.map (itemPoints impl)).sum =
      (items.filterMap fun item =>
        if len (strings.TrimSpace item.ShortDescription.data) % 3 = 0 then
          match strconv.ParseFloat item.Price.data with
          | .ok p => some (F64.toInt impl (math.Ceil (F64.mul p F64.fifth)))
          | .error _ => none
        else none).sum := by
  induction items with
  | nil => rfl
  | cons item items ih =>
    rw [List.map_cons, List.sum_cons, ih, List.filterMap_cons]
    unfold itemPoints
    by_cases hq : len (strings.TrimSpace item.ShortDescription.data) % 3 = 0
    · simp only [if_pos hq]
      cases strconv.ParseFloat item.Price.data with
      | error err => simp
      | ok p => simp
    · simp only [if_neg hq]
      simp

/-! ## Totals whose exact value is a whole number of quarters -/

theorem scanMantissa_stop (c : Char) (t : List Char) (h1 : c ≠ '_') (h2 : c ≠ '.')
    (h3 : strconv.isDigit c = false) (st : strconv.Mantissa) :
    strconv.scanMantissa 10 (c :: t) st = (st, c :: t) := by
  rw [strconv.scanMantissa, if_neg h1, if_neg h2, h3]
  simp

theorem readFloat_letter (s : List Char) (c : Char) (t : List Char)
    (hs : s = c :: t ∨ s = '+' :: c :: t ∨ s = '-' :: c :: t)
    (hc : c = 'i' ∨ c = 'I' ∨ c = 'n' ∨ c = 'N') : strconv.readFloat s = none := by
  have h1 : c ≠ '_' := by rcases hc with rfl | rfl | rfl | rfl <;> decide
  have h2 : c ≠ '.' := by rcases hc with rfl | rfl | rfl | rfl <;> decide
  have h3 : strconv.isDigit c = false := by rcases hc with rfl | rfl | rfl | rfl <;> decide
  have h4 : ¬(c = '+' ∨ c = '-') := by rcases hc with rfl | rfl | rfl | rfl <;> decide
  have h5 : c ≠ '0' := by rcases hc with rfl | rfl | rfl | rfl <;> decide
  have hhex : strconv.hasHexMarker (c :: t) = false := by
    unfold strconv.hasHexMarker
    split
    · simp_all
    · rfl
  have hrd : strconv.readDigits false (c :: t) = none := by
    unfold strconv.readDigits
    simp only [Bool.false_eq_true, if_false, scanMantissa_stop c t h1 h2 h3]
    rfl
  rcases hs with rfl | rfl | rfl
  · simp only [strconv.readFloat, if_neg h4, hhex, Bool.false_eq_true, if_false, hrd]
  · simp only [strconv.readFloat, true_or, if_true, hhex, Bool.false_eq_true, if_false, hrd]
  · simp only [strconv.readFloat, or_true, if_true, hhex, Bool.false_eq_true, if_false, hrd]

theorem commonPrefixLen_pos (s : List Char) (p : Char) (pat : List Char)
    (h : 0 < strconv.commonPrefixLenIgnoreCase s (p :: pat)) (hp : 97 ≤ p.toNat ∧ p.toNat ≤ 122) :
    ∃ c t, s = c :: t ∧ (c = p ∨ c = Char.ofNat (p.toNat - 32)) := by
  match s, h with
  | c :: t, h =>
    refine ⟨c, t, rfl, ?_⟩
    simp only [strconv.commonPrefixLenIgnoreCase] at h
    by_cases heq : (if 'A'.toNat ≤ c.toNat ∧ c.toNat ≤ 'Z'.toNat then c.toNat + 32 else c.toNat) =
        p.toNat
    · have hA : 'A'.toNat = 65 := rfl
      have hZ : 'Z'.toNat = 90 := rfl
      rw [hA, hZ] at heq
      by_cases hu : 65 ≤ c.toNat ∧ c.toNat ≤ 90
      · rw [if_pos hu] at heq
        right
        have : p.toNat - 32 = c.toNat := by omega
        rw [this, Char.ofNat_toNat]
      · rw [if_neg hu] at heq
        left
        rw [← Char.ofNat_toNat c, heq, Char.ofNat_toNat]
    · rw [if_neg heq] at h
      omega

theorem special_readFloat (s : List Char) (f : F64) (n : Nat)
    (h : strconv.special s = some (f, n)) : strconv.readFloat s = none := by
  have hinf : ∀ (neg : Bool) (k : Nat) (t : List Char), strconv.specialInf neg k t = some (f, n) →
      ∃ c t', t = c :: t' ∧ (c = 'i' ∨ c = 'I') := by
    intro neg k t ht
    unfold strconv.specialInf at ht
    simp only [] at ht
    have hpos : 0 < strconv.commonPrefixLenIgnoreCase t ('i' :: "nfinity".data) := by
      by_contra hcon
      have h0 : strconv.commonPrefixLenIgnoreCase t "infinity".data = 0 := by
        have : "infinity".data = 'i' :: "nfinity".data := rfl
        rw [this]
        omega
      rw [h0] at ht
      simp at ht
    obtain ⟨c, t', rfl, hc⟩ := commonPrefixLen_pos t 'i' _ hpos (by decide)
    exact ⟨c, t', rfl, hc⟩
  unfold strconv.special at h
  match s, h with
  | c :: t, h =>
    simp only at h
    by_cases h1 : c = '+'
    · simp only [if_pos h1] at h
      obtain ⟨c', t', rfl, hc⟩ := hinf _ _ _ h
      subst h1
      exact readFloat_letter _ c' t' (Or.inr (Or.inl rfl)) (by tauto)
    · simp only [if_neg h1] at h
      by_cases h2 : c = '-'
      · simp only [if_pos h2] at h
        obtain ⟨c', t', rfl, hc⟩ := hinf _ _ _ h
        subst h2
        exact readFloat_letter _ c' t' (Or.inr (Or.inr rfl)) (by tauto)
      · simp only [if_neg h2] at h
        by_cases h3 : c = 'i' ∨ c = 'I'
        · exact readFloat_letter _ c t (Or.inl rfl) (by tauto)
        · simp only [if_neg h3] at h
          by_cases h4 : c = 'n' ∨ c = 'N'
          · exact readFloat_letter _ c t (Or.inl rfl) (by tauto)
          · simp [if_neg h4] at h

/-- When `readFloat` reads the whole text, `ParseFloat` returns the `float64`
nearest to the number read, unless that is an infinity. -/
theorem ParseFloat_of_readFloat (s : List Char) (l : strconv.Literal)
    (h : strconv.readFloat s = some (l, [])) :
    strconv.ParseFloat s =
      match l.toF64 with
      | .inf _ => .error .ErrRange
      | f => .ok f := by
  have hsp : strconv.special s = none := by
    cases hsp : strconv.special s with
    | none => rfl
    | some r =>
      have := special_readFloat s r.1 r.2 hsp
      rw [h] at this
      exact absurd this (by simp)
  unfold strconv.ParseFloat
  rw [hsp, h]
  simp

theorem pow_dvd_of_quarter (mant : Nat) (b N : Nat) (s : ℚ) (hs : s = 1 ∨ s = -1) (hb : 0 < b)
    (h : ∃ k : ℤ, s * (mant : ℚ) * ((b : ℚ) ^ N)⁻¹ = k / 4) : b ^ N ∣ 4 * mant := by
  obtain ⟨k, hk⟩ := h
  have hbq : ((b : ℚ) ^ N) ≠ 0 := by positivity
  have h1 : (4 : ℚ) * mant = ((s * k * b ^ N : ℚ)) := by
    rcases hs with rfl | rfl
    · field_simp at hk
      linarith
    · field_simp at hk
      linarith
  have h2 : ((b ^ N : Nat) : ℤ) ∣ ((4 * mant : Nat) : ℤ) := by
    rcases hs with rfl | rfl
    · have : ((4 * mant : Nat) : ℤ) = k * (b ^ N : Nat) := by
        have : ((4 * mant : Nat) : ℚ) = ((k * (b ^ N : Nat) : ℤ) : ℚ) := by
          push_cast
          linarith
        exact_mod_cast this
      rw [this]
      exact Dvd.intro_left _ rfl
    · have : ((4 * mant : Nat) : ℤ) = (-k) * (b ^ N : Nat) := by
        have : ((4 * mant : Nat) : ℚ) = (((-k) * (b ^ N : Nat) : ℤ) : ℚ) := by
          push_cast
          linarith
        exact_mod_cast this
      rw [this]
      exact Dvd.intro_left _ rfl
  exact Int.natCast_dvd_natCast.1 h2

/-- A number whose exact value is a whole number of quarters is rounded to a
`float64` that passes the test of rule 3. -/
theorem literal_quarterTest (l : strconv.Literal) (h : ∃ k : ℤ, l.toRat = k / 4)
    (n : Bool) (m : Nat) (e : Int) (hx : l.toF64 = F64.finite n m e) :
    F64.eq (math.Mod (F64.finite n m e) F64.quarter) F64.zero = true := by
  unfold strconv.Literal.toF64 at hx
  simp only [] at hx
  have hb : 0 < (if l.hex = true then 2 else 10 : Nat) := by split <;> norm_num
  by_cases he : l.exp < 0
  · rw [if_pos he] at hx
    refine round_quarterTest l.neg _ _ (by positivity) ?_ n m e hx
    apply pow_dvd_of_quarter l.mant _ _ (if l.neg then -1 else 1) (by split <;> simp) hb
    obtain ⟨k, hk⟩ := h
    refine ⟨k, ?_⟩
    rw [← hk]
    unfold strconv.Literal.toRat
    have e1 : l.exp = -(((-l.exp).toNat : ℕ) : ℤ) := by omega
    have e2 : ((if l.hex = true then 2 else 10 : Nat) : ℚ) = (if l.hex = true then 2 else 10 : ℚ) := by
      split <;> norm_num
    conv_rhs => rw [e1, zpow_neg, zpow_natCast]
    rw [e2]
  · rw [if_neg he] at hx
    exact round_quarterTest l.neg _ 1 (by norm_num) (one_dvd _) n m e hx

theorem toF64_cases (l : strconv.Literal) :
    (∃ m e, l.toF64 = F64.finite l.neg m e) ∨ l.toF64 = F64.inf l.neg := by
  unfold strconv.Literal.toF64
  simp only []
  split <;> exact round_cases _ _ _

/-- A total that `ParseFloat` accepts and whose exact value, as written, is a whole
number of quarters earns the 25 points of rule 3. -/
theorem quarterPoints_of_exact (rec : receipt) (l : strconv.Literal) (x : F64)
    (hr : strconv.readFloat rec.Total.data = some (l, []))
    (hq : ∃ k : ℤ, l.toRat = k / 4)
    (hp : strconv.ParseFloat rec.Total.data = .ok x) : quarterPoints rec = 25 := by
  have h := ParseFloat_of_readFloat _ l hr
  rw [hp] at h
  rcases toF64_cases l with ⟨m, e, hf⟩ | hi
  · rw [hf] at h
    simp only [Except.ok.injEq] at h
    subst h
    unfold quarterPoints
    rw [hp]
    simp only [literal_quarterTest l hq l.neg m e hf, if_true]
  · rw [hi] at h
    exact absurd h (by simp)

/-! ## Rule 3: the claim -/

/-- C5, counterexample: the total `4503599627370496.10` is read as the number
`450359962737049610 / 100`, which is not a whole number of quarters (its cents
are 10), and yet rule 3 adds 25 for it. -/
theorem C5_counterexample :
    strconv.readFloat "4503599627370496.10".data =
      some (⟨false, false, 450359962737049610, -2⟩, []) ∧
    (¬ ∃ k : ℤ, (450359962737049610 : ℚ) / 100 = k / 4) ∧
    quarterPoints (totalOnly "4503599627370496.10") = 25 ∧
    calculatePoints F64.amd64 (totalOnly "4503599627370496.10") = 25 := by
  refine ⟨by decide!, ?_, by decide!, by decide!⟩
  rintro ⟨k, hk⟩
  have h1 : (450359962737049610 : ℚ) * 4 = k * 100 := by
    field_simp at hk
    linarith
  have h2 : (450359962737049610 : ℤ) * 4 = k * 100 := by exact_mod_cast h1
  omega

/-- C5, amended: rule 3 adds 25 when `ParseFloat` accepts the total and the exact
value of the number written is a whole number of quarters; more generally it adds
25 exactly when `ParseFloat` accepts the total and the `float64` it returns is a
finite whole number of quarters, and 0 otherwise, in particular when the total is
not accepted (the empty total, `abc`).  For a total written as at most 14 digits,
a point and two digits, it adds 25 exactly when the two digits are 00, 25, 50 or
75.  The amount is one of the seven summands of `calculatePoints`. -/
theorem C5_quarter_multiple (impl : F64 → Int) (rec : receipt) :
    (∀ l x, strconv.readFloat rec.Total.data = some (l, []) → (∃ k : ℤ, l.toRat = k / 4) →
      strconv.ParseFloat rec.Total.data = .ok x → quarterPoints rec = 25) ∧
    (quarterPoints rec = 25 ↔
      ∃ neg m e, strconv.ParseFloat rec.Total.data = .ok (F64.finite neg m e) ∧
        ∃ k : ℤ, F64.toRat (F64.finite neg m e) = k / 4) ∧
    (quarterPoints rec ≠ 25 → quarterPoints rec = 0) ∧
    (∀ err, strconv.ParseFloat rec.Total.data = .error err → quarterPoints rec = 0) ∧
    (∀ (ds : List Char) (c1 c2 : Char), ds ≠ [] → (∀ c ∈ ds, strconv.isDigit c = true) →
      strconv.isDigit c1 = true → strconv.isDigit c2 = true → ds.length ≤ 14 →
      rec.Total.data = amountString ds c1 c2 →
      (quarterPoints rec = 25 ↔
        (decimalValue [c1, c2] = 0 ∨ decimalValue [c1, c2] = 25 ∨ decimalValue [c1, c2] = 50 ∨
          decimalValue [c1, c2] = 75))) ∧
    calculatePoints impl rec =
      wrapInt (retailerPoints rec + roundDollarPoints rec + quarterPoints rec + pairPoints rec +
        descriptionPoints impl rec + datePoints rec + timePoints rec) ∧
    quarterPoints (totalOnly "") = 0 ∧ quarterPoints (totalOnly "abc") = 0 ∧
    quarterPoints (totalOnly "9.25") = 25 ∧ quarterPoints (totalOnly "35.35") = 0 := by
  refine ⟨fun l x hr hq hp => quarterPoints_of_exact rec l x hr hq hp, ?_, ?_, ?_, ?_,
    calculatePoints_eq_sum impl rec, by decide!, by decide!, by decide!, by decide!⟩
  · unfold quarterPoints
    constructor
    · intro h
      cases hp : strconv.ParseFloat rec.Total.data with
      | error err => simp [hp] at h
      | ok x =>
        simp only [hp] at h
        by_cases ht : F64.eq (math.Mod x F64.quarter) F64.zero = true
        · cases x with
          | finite neg m e => exact ⟨neg, m, e, rfl, (quarterTest_iff_toRat neg m e).1 ht⟩
          | inf neg => exact absurd ht (by rw [quarter_eq]; simp [math.Mod, F64.eq])
          | nan => exact absurd ht (by rw [quarter_eq]; simp [math.Mod, F64.eq])
        · simp [ht] at h
    · rintro ⟨neg, m, e, hp, hk⟩
      rw [hp]
      simp only [(quarterTest_iff_toRat neg m e).2 hk, if_true]
  · intro h
    unfold quarterPoints at h ⊢
    split
    · rename_i x hp
      simp only [hp] at h
      by_cases ht : F64.eq (math.Mod x F64.quarter) F64.zero = true
      · simp [ht] at h
      · simp [ht]
    · rfl
  · intro err he
    unfold quarterPoints
    rw [he]
  · intro ds c1 c2 hne hds h1 h2 hlen ht
    exact quarterPoints_amount rec ds c1 c2 hne hds h1 h2 hlen ht

/-! ## The error of rounding -/

/-- The `float64` nearest to a positive quotient in the normal range: the result is
`m * 2^e`, within half a unit `2^e` of the quotient, and the quotient has its
leading bit at `2^(e + 52)`. -/
theorem round_near (num den K : Nat) (hd : 0 < den) (hK : K ≤ 1023)
    (hlo : (2 : ℚ) ^ (-1021 : ℤ) ≤ (num : ℚ) / den) (hhi : num < 2 ^ K * den) :
    ∃ (m : Nat) (e : ℤ), F64.round false num den = F64.finite false m e ∧
      |(m : ℚ) * (2 : ℚ) ^ e - (num : ℚ) / den| ≤ (2 : ℚ) ^ e / 2 ∧
      (2 : ℚ) ^ e * 2 ^ 52 ≤ (num : ℚ) / den ∧ (num : ℚ) / den < (2 : ℚ) ^ e * 2 ^ 53 := by
  have hdq : (0 : ℚ) < (den : ℚ) := by exact_mod_cast hd
  have hqpos : (0 : ℚ) < (num : ℚ) / den := lt_of_lt_of_le (by positivity) hlo
  have hn : 0 < num := by
    by_contra hcon
    have : num = 0 := by omega
    rw [this] at hqpos
    simp at hqpos
  have h0 : num ≠ 0 := by omega
  have hP52 : ∀ j, K + 1022 ≤ j → 2 ^ K * (2 : Nat) ^ 1074 ≤ 2 ^ 52 * 2 ^ j := by
    intro j hj
    rw [← pow_add, ← pow_add]
    exact two_pow_mono _ _ (by omega)
  have hPq : ∀ j : Nat, (((2 : Nat) ^ 1074 : Nat) : ℚ) * (2 : ℚ) ^ ((j : ℤ) - 1074) = (2 : ℚ) ^ j := by
    intro j
    have h2 : (2 : ℚ) ≠ 0 := by norm_num
    rw [Nat.cast_pow, zpow_sub₀ h2, zpow_natCast]
    have : (2 : ℚ) ^ (1074 : ℤ) = ((2 : ℕ) : ℚ) ^ 1074 := by
      rw [← zpow_natCast]
      norm_num
    rw [this]
    have hne : (((2 : ℕ) : ℚ) ^ 1074) ≠ 0 := by positivity
    field_simp
  have hPlo : (2 : ℚ) ^ (-1021 : ℤ) * (((2 : Nat) ^ 1074 : Nat) : ℚ) = 2 ^ 53 := by
    have := hPq 53
    have e : ((53 : ℕ) : ℤ) - 1074 = -1021 := by norm_num
    rw [e] at this
    linarith
  have hr : F64.round false num den = F64.roundScaled false (num * 2 ^ 1074) den := by
    unfold F64.round
    rw [if_neg h0]
  have hPpos : 0 < (2 : Nat) ^ 1074 := by positivity
  generalize (2 : Nat) ^ 1074 = P at hr hP52 hPq hPlo hPpos
  have hPqpos : (0 : ℚ) < (P : ℚ) := by exact_mod_cast hPpos
  obtain ⟨j, hlt, hge, hrs⟩ := roundScaled_spec false (num * P) den (Nat.mul_pos hn hPpos) hd
  have hN : num * P < 2 ^ K * den * P := Nat.mul_lt_mul_of_pos_right hhi hPpos
  have hj : j < K + 1022 := by
    by_contra hc
    have h1 := hge (by omega)
    have h2 := hP52 j (by omega)
    have h3 : 2 ^ K * den * P ≤ 2 ^ 52 * (den * 2 ^ j) := by
      calc 2 ^ K * den * P = den * (2 ^ K * P) := by ring
        _ ≤ den * (2 ^ 52 * 2 ^ j) := Nat.mul_le_mul_left _ h2
        _ = 2 ^ 52 * (den * 2 ^ j) := by ring
    omega
  have hjpos : 0 < j := by
    by_contra hc
    have hj0 : j = 0 := by omega
    rw [hj0, pow_zero, mul_one] at hlt
    have hltq : (num : ℚ) * P < 2 ^ 53 * den := by exact_mod_cast hlt
    have : (num : ℚ) / den * P < 2 ^ 53 := by
      rw [div_mul_eq_mul_div, div_lt_iff₀ hdq]
      exact hltq
    have h2 : (2 : ℚ) ^ (-1021 : ℤ) * P ≤ (num : ℚ) / den * P :=
      mul_le_mul_of_nonneg_right hlo hPqpos.le
    rw [hPlo] at h2
    exact absurd (lt_of_le_of_lt h2 this) (lt_irrefl _)
  have hge' := hge hjpos
  have hninf : ¬(2045 < j ∨ j = 2045 ∧ F64.roundHalfEven (num * P) (den * 2 ^ j) = 2 ^ 53) := by
    omega
  rw [if_neg hninf] at hrs
  refine ⟨_, _, hr.trans hrs, ?_, ?_, ?_⟩
  all_goals
    have hD : 0 < den * 2 ^ j := by positivity
    obtain ⟨s1, s2⟩ := roundHalfEven_spec (num * P) (den * 2 ^ j) hD
    generalize F64.roundHalfEven (num * P) (den * 2 ^ j) = m at s1 s2
    have he : (2 : ℚ) ^ ((j : ℤ) - 1074) = (2 : ℚ) ^ j / P := by
      rw [eq_div_iff hPqpos.ne', mul_comm]
      exact hPq j
    have h2j : (0 : ℚ) < (2 : ℚ) ^ j := by positivity
    have s1q : 2 * ((m : ℚ) * (den * 2 ^ j)) ≤ 2 * (num * P) + den * 2 ^ j := by exact_mod_cast s1
    have s2q : 2 * ((num : ℚ) * P) ≤ 2 * (m * (den * 2 ^ j)) + den * 2 ^ j := by exact_mod_cast s2
    have hltq : (num : ℚ) * P < 2 ^ 53 * (den * 2 ^ j) := by exact_mod_cast hlt
    have hgeq : (2 : ℚ) ^ 52 * (den * 2 ^ j) ≤ num * P := by exact_mod_cast hge'
    rw [he]
  · have hdP : (0 : ℚ) < 2 * (den * P) := by positivity
    rw [abs_le]
    constructor
    · rw [← sub_nonneg]
      have : (m : ℚ) * (2 ^ j / P) - num / den - -(2 ^ j / P / 2) =
          (2 * (m * (den * 2 ^ j)) + den * 2 ^ j - 2 * (num * P)) / (2 * (den * P)) := by
        field_simp
        ring
      rw [this]
      exact div_nonneg (by linarith) hdP.le
    · rw [← sub_nonneg]
      have : (2 : ℚ) ^ j / P / 2 - ((m : ℚ) * (2 ^ j / P) - num / den) =
          (2 * (num * P) + den * 2 ^ j - 2 * (m * (den * 2 ^ j))) / (2 * (den * P)) := by
        field_simp
        ring
      rw [this]
      exact div_nonneg (by linarith) hdP.le
  · have hdP : (0 : ℚ) < den * P := by positivity
    rw [← sub_nonneg]
    have : (num : ℚ) / den - 2 ^ j / P * 2 ^ 52 =
        (num * P - 2 ^ 52 * (den * 2 ^ j)) / (den * P) := by
      field_simp
      ring
    rw [this]
    exact div_nonneg (by linarith) hdP.le
  · have hdP : (0 : ℚ) < den * P := by positivity
    rw [← sub_pos]
    have : (2 : ℚ) ^ j / P * 2 ^ 53 - num / den =
        (2 ^ 53 * (den * 2 ^ j) - num * P) / (den * P) := by
      field_simp
      ring
    rw [this]
    exact div_pos (by linarith) hdP

/-- The two roundings that rule 5 makes cannot move the fifth of an amount across
a whole number, when the amount is not a multiple of five units. -/
theorem bonus_between (n k f : Nat) (q p y r a b : ℚ) (hn : n < 10 ^ 15)
    (hnk : n = 500 * k + f) (hf1 : 1 ≤ f) (hf2 : f ≤ 499) (hq : q = (n : ℚ) / 100)
    (ha : |p - q| ≤ a / 2) (ha2 : a * 2 ^ 52 ≤ q)
    (hy : y = p * (7205759403792794 / 2 ^ 55))
    (hb : |r - y| ≤ b / 2) (hb2 : b * 2 ^ 52 ≤ y) :
    (k : ℚ) < r ∧ r ≤ (k : ℚ) + 1 := by
  have hnq : (n : ℚ) = 500 * k + f := by exact_mod_cast hnk
  have hf1q : (1 : ℚ) ≤ f := by exact_mod_cast hf1
  have hf2q : (f : ℚ) ≤ 499 := by exact_mod_cast hf2
  have hnlt : (n : ℚ) < 10 ^ 15 := by exact_mod_cast hn
  have hk0 : (0 : ℚ) ≤ k := by positivity
  have hq0 : 0 < q := by rw [hq, hnq]; positivity
  obtain ⟨ha3, ha4⟩ := abs_le.1 ha
  obtain ⟨hb3, hb4⟩ := abs_le.1 hb
  -- relative errors
  have hp_lo : q * (1 - 1 / 2 ^ 53) ≤ p := by nlinarith
  have hp_hi : p ≤ q * (1 + 1 / 2 ^ 53) := by nlinarith
  have hp0 : 0 < p := lt_of_lt_of_le (by positivity) hp_lo
  have hy0 : 0 < y := by rw [hy]; positivity
  have hr_lo : y * (1 - 1 / 2 ^ 53) ≤ r := by nlinarith
  have hr_hi : r ≤ y * (1 + 1 / 2 ^ 53) := by nlinarith
  have hy_lo : q * (1 - 1 / 2 ^ 53) * (7205759403792794 / 2 ^ 55) ≤ y := by
    rw [hy]
    exact mul_le_mul_of_nonneg_right hp_lo (by positivity)
  have hy_hi : y ≤ q * (1 + 1 / 2 ^ 53) * (7205759403792794 / 2 ^ 55) := by
    rw [hy]
    exact mul_le_mul_of_nonneg_right hp_hi (by positivity)
  have hr_lo2 : q * (1 - 1 / 2 ^ 53) * (7205759403792794 / 2 ^ 55) * (1 - 1 / 2 ^ 53) ≤ r :=
    le_trans (mul_le_mul_of_nonneg_right hy_lo (by norm_num)) hr_lo
  have hr_hi2 : r ≤ q * (1 + 1 / 2 ^ 53) * (7205759403792794 / 2 ^ 55) * (1 + 1 / 2 ^ 53) :=
    le_trans hr_hi (mul_le_mul_of_nonneg_right hy_hi (by norm_num))
  have hlo : q * (1 - 1 / 2 ^ 53) * (7205759403792794 / 2 ^ 55) * (1 - 1 / 2 ^ 53) =
      q * ((1 - 1 / 2 ^ 53) * (7205759403792794 / 2 ^ 55) * (1 - 1 / 2 ^ 53)) := by ring
  have hhi : q * (1 + 1 / 2 ^ 53) * (7205759403792794 / 2 ^ 55) * (1 + 1 / 2 ^ 53) =
      q * ((1 + 1 / 2 ^ 53) * (7205759403792794 / 2 ^ 55) * (1 + 1 / 2 ^ 53)) := by ring
  have clo : (1 / 5 : ℚ) * (1 - 3 / 10 ^ 16) ≤
      (1 - 1 / 2 ^ 53) * (7205759403792794 / 2 ^ 55) * (1 - 1 / 2 ^ 53) := by norm_num
  have chi : (1 + 1 / 2 ^ 53) * (7205759403792794 / 2 ^ 55) * (1 + 1 / 2 ^ 53) ≤
      (1 / 5 : ℚ) * (1 + 3 / 10 ^ 16) := by norm_num
  rw [hlo] at hr_lo2
  rw [hhi] at hr_hi2
  have h1 : q * ((1 / 5 : ℚ) * (1 - 3 / 10 ^ 16)) ≤ r :=
    le_trans (mul_le_mul_of_nonneg_left clo hq0.le) hr_lo2
  have h2 : r ≤ q * ((1 / 5 : ℚ) * (1 + 3 / 10 ^ 16)) :=
    le_trans hr_hi2 (mul_le_mul_of_nonneg_left chi hq0.le)
  rw [hq] at h1 h2
  constructor
  · linarith
  · linarith

/-- A value `m * 2^e` with `e ≤ 0` that lies within less than one unit `2^e` of a
whole number is that whole number. -/
theorem snap_whole (m Q : Nat) (e : Int) (he : e ≤ 0)
    (h : |(m : ℚ) * (2 : ℚ) ^ e - Q| < (2 : ℚ) ^ e) : (m : ℚ) * (2 : ℚ) ^ e = Q := by
  have hE : (2 : ℚ) ^ e = 1 / 2 ^ (-e).toNat := by
    have : e = -(((-e).toNat : ℕ) : ℤ) := by omega
    conv_lhs => rw [this]
    rw [zpow_neg, zpow_natCast, one_div]
  rw [hE] at h ⊢
  have hpos : (0 : ℚ) < 2 ^ (-e).toNat := by positivity
  generalize (-e).toNat = N at *
  have h1 : |(m : ℚ) - (Q : ℚ) * 2 ^ N| < 1 := by
    have : (m : ℚ) * (1 / 2 ^ N) - Q = ((m : ℚ) - (Q : ℚ) * 2 ^ N) / 2 ^ N := by
      field_simp
      ring
    rw [this, abs_div, abs_of_pos hpos, div_lt_div_iff₀ hpos hpos] at h
    have h3 : |(m : ℚ) - (Q : ℚ) * 2 ^ N| * 2 ^ N < 1 * 2 ^ N := by linarith
    exact lt_of_mul_lt_mul_right h3 hpos.le
  have h2 : |(m : ℤ) - (Q : ℤ) * 2 ^ N| < 1 := by
    have : (((|(m : ℤ) - (Q : ℤ) * 2 ^ N| : ℤ)) : ℚ) < ((1 : ℤ) : ℚ) := by
      push_cast
      exact h1
    exact_mod_cast this
  have h3 : (m : ℤ) = (Q : ℤ) * 2 ^ N := by
    have := abs_lt.1 h2
    omega
  have h4 : (m : ℚ) = (Q : ℚ) * 2 ^ N := by exact_mod_cast h3
  rw [h4]
  field_simp

/-- The two roundings that rule 5 makes leave the fifth of a whole multiple of
five units exact. -/
theorem bonus_whole (k m1 m2 : Nat) (e1 e2 : Int) (hk : k < 2 * 10 ^ 12)
    (ha : |(m1 : ℚ) * (2 : ℚ) ^ e1 - ((5 * k : Nat) : ℚ)| ≤ (2 : ℚ) ^ e1 / 2)
    (ha2 : (2 : ℚ) ^ e1 * 2 ^ 52 ≤ ((5 * k : Nat) : ℚ))
    (hb : |(m2 : ℚ) * (2 : ℚ) ^ e2 -
      (m1 : ℚ) * (2 : ℚ) ^ e1 * (7205759403792794 / 2 ^ 55)| ≤ (2 : ℚ) ^ e2 / 2)
    (hb2 : (2 : ℚ) ^ e2 * 2 ^ 52 ≤ (m1 : ℚ) * (2 : ℚ) ^ e1 * (7205759403792794 / 2 ^ 55))
    (hb3 : (m1 : ℚ) * (2 : ℚ) ^ e1 * (7205759403792794 / 2 ^ 55) < (2 : ℚ) ^ e2 * 2 ^ 53) :
    (m2 : ℚ) * (2 : ℚ) ^ e2 = k := by
  have hkq : (k : ℚ) < 2 * 10 ^ 12 := by exact_mod_cast hk
  have hk0 : (0 : ℚ) ≤ k := by positivity
  have h5k : ((5 * k : Nat) : ℚ) = 5 * (k : ℚ) := by push_cast; ring
  have hapos : (0 : ℚ) < (2 : ℚ) ^ e1 := by positivity
  have hbpos : (0 : ℚ) < (2 : ℚ) ^ e2 := by positivity
  have he1 : e1 ≤ 0 := by
    by_contra hcon
    have : (1 : ℚ) ≤ (2 : ℚ) ^ e1 := one_le_zpow₀ (by norm_num) (by omega)
    rw [h5k] at ha2
    nlinarith
  have hp : (m1 : ℚ) * (2 : ℚ) ^ e1 = ((5 * k : Nat) : ℚ) :=
    snap_whole m1 (5 * k) e1 he1 (lt_of_le_of_lt ha (by linarith))
  rw [hp, h5k] at hb hb2 hb3
  have hy : 5 * (k : ℚ) * (7205759403792794 / 2 ^ 55) = k + k / 2 ^ 54 := by
    field_simp
    ring
  rw [hy] at hb hb2 hb3
  have he2 : e2 ≤ 0 := by
    by_contra hcon
    have : (1 : ℚ) ≤ (2 : ℚ) ^ e2 := one_le_zpow₀ (by norm_num) (by omega)
    have h54 : (k : ℚ) / 2 ^ 54 ≤ k := by
      apply div_le_self hk0
      norm_num
    nlinarith
  apply snap_whole m2 k e2 he2
  obtain ⟨hb4, hb5⟩ := abs_le.1 hb
  have h54 : (0 : ℚ) ≤ (k : ℚ) / 2 ^ 54 := by positivity
  have h54b : (k : ℚ) / 2 ^ 54 < (2 : ℚ) ^ e2 / 2 := by
    have : (k : ℚ) < (2 : ℚ) ^ e2 * 2 ^ 53 := by linarith
    rw [div_lt_div_iff₀ (by norm_num) (by norm_num)]
    nlinarith
  rw [abs_lt]
  constructor
  · linarith
  · linarith

/-- Rule 5 on an amount of `n` hundredths, `n` below `10^15`: the product of the
nearest `float64` to the amount with the `float64` constant `0.2`, rounded up and
converted, is the exact `⌈n / 500⌉`. -/
theorem bonus_amount (impl : F64 → Int) (n : Nat) (hn : n < 10 ^ 15) :
    F64.toInt impl (math.Ceil (F64.mul (F64.round false n 100) F64.fifth)) =
      (((n + 499) / 500 : Nat) : Int) := by
  by_cases h0 : n = 0
  · subst h0
    rw [fifth_eq]
    have hr : F64.round false 0 100 = F64.finite false 0 0 := by simp [F64.round]
    rw [hr]
    have hmul : F64.mul (F64.finite false 0 0) (F64.finite false 7205759403792794 (-55)) =
        F64.finite false 0 0 := by
      simp [F64.mul, F64.ofScaled, F64.round]
    rw [hmul]
    simp [math.Ceil, F64.toInt]
  · have hnq : (n : ℚ) < 10 ^ 15 := by exact_mod_cast hn
    have hn1 : (1 : ℚ) ≤ n := by exact_mod_cast Nat.one_le_iff_ne_zero.2 h0
    have hlo : (2 : ℚ) ^ (-1021 : ℤ) ≤ (n : ℚ) / ((100 : Nat) : ℚ) := by
      have h7 : (2 : ℚ) ^ (-1021 : ℤ) ≤ (2 : ℚ) ^ (-7 : ℤ) :=
        zpow_le_zpow_right₀ (by norm_num) (by norm_num)
      have h7b : (2 : ℚ) ^ (-7 : ℤ) = 1 / 128 := by
        rw [zpow_neg, one_div]
        norm_num
      rw [h7b] at h7
      refine le_trans h7 ?_
      rw [div_le_div_iff₀ (by norm_num) (by norm_num)]
      push_cast
      linarith
    obtain ⟨m1, e1, hr1, herr1, hlo1, hhi1⟩ :=
      round_near n 100 50 (by norm_num) (by norm_num) hlo (by omega)
    have hcast : (((100 : Nat) : ℚ)) = 100 := by norm_num
    rw [hcast] at herr1 hlo1 hhi1
    rw [hr1, fifth_eq]
    have hmul : F64.mul (F64.finite false m1 e1) (F64.finite false 7205759403792794 (-55)) =
        F64.round false (m1 * 7205759403792794 * 2 ^ (e1 + -55).toNat)
          (2 ^ (-(e1 + -55)).toNat) := rfl
    rw [hmul]
    have hden : 0 < 2 ^ (-(e1 + -55)).toNat := by positivity
    have hratio : ((m1 * 7205759403792794 * 2 ^ (e1 + -55).toNat : Nat) : ℚ) /
        ((2 ^ (-(e1 + -55)).toNat : Nat) : ℚ) =
        (m1 : ℚ) * (2 : ℚ) ^ e1 * (7205759403792794 / 2 ^ 55) := by
      rw [scaled_ratio (m1 * 7205759403792794) (e1 + -55), zpow_add₀ (by norm_num)]
      have h55 : (2 : ℚ) ^ (-55 : ℤ) = 1 / 2 ^ 55 := by
        rw [zpow_neg, one_div]
        norm_cast
      rw [h55]
      push_cast
      ring
    have hapos : (0 : ℚ) < (2 : ℚ) ^ e1 := by positivity
    obtain ⟨ha3, ha4⟩ := abs_le.1 herr1
    have hp_lo : (n : ℚ) / 100 * (1 - 1 / 2 ^ 53) ≤ (m1 : ℚ) * (2 : ℚ) ^ e1 := by nlinarith
    have hp_hi : (m1 : ℚ) * (2 : ℚ) ^ e1 ≤ (n : ℚ) / 100 * (1 + 1 / 2 ^ 53) := by nlinarith
    have hlo2 : (2 : ℚ) ^ (-1021 : ℤ) ≤
        ((m1 * 7205759403792794 * 2 ^ (e1 + -55).toNat : Nat) : ℚ) /
          ((2 ^ (-(e1 + -55)).toNat : Nat) : ℚ) := by
      rw [hratio]
      have h10 : (2 : ℚ) ^ (-1021 : ℤ) ≤ (2 : ℚ) ^ (-10 : ℤ) :=
        zpow_le_zpow_right₀ (by norm_num) (by norm_num)
      have h10b : (2 : ℚ) ^ (-10 : ℤ) = 1 / 1024 := by
        rw [zpow_neg, one_div]
        norm_num
      rw [h10b] at h10
      refine le_trans h10 ?_
      have hp1 : (1 / 128 : ℚ) ≤ (m1 : ℚ) * (2 : ℚ) ^ e1 := by
        refine le_trans ?_ hp_lo
        have : (1 : ℚ) / 100 * (1 - 1 / 2 ^ 53) ≤ (n : ℚ) / 100 * (1 - 1 / 2 ^ 53) := by
          apply mul_le_mul_of_nonneg_right _ (by norm_num)
          linarith
        refine le_trans ?_ this
        norm_num
      calc (1 / 1024 : ℚ) ≤ 1 / 128 * (7205759403792794 / 2 ^ 55) := by norm_num
        _ ≤ (m1 : ℚ) * (2 : ℚ) ^ e1 * (7205759403792794 / 2 ^ 55) :=
            mul_le_mul_of_nonneg_right hp1 (by norm_num)
    have hhi2 : m1 * 7205759403792794 * 2 ^ (e1 + -55).toNat <
        2 ^ 60 * 2 ^ (-(e1 + -55)).toNat := by
      have hq : ((m1 * 7205759403792794 * 2 ^ (e1 + -55).toNat : Nat) : ℚ) /
          ((2 ^ (-(e1 + -55)).toNat : Nat) : ℚ) < 2 ^ 60 := by
        rw [hratio]
        have hp2 : (m1 : ℚ) * (2 : ℚ) ^ e1 < 2 ^ 51 := by
          refine lt_of_le_of_lt hp_hi ?_
          have : (n : ℚ) / 100 * (1 + 1 / 2 ^ 53) < 10 ^ 15 / 100 * (1 + 1 / 2 ^ 53) := by
            apply mul_lt_mul_of_pos_right _ (by norm_num)
            linarith
          refine lt_trans this ?_
          norm_num
        calc (m1 : ℚ) * (2 : ℚ) ^ e1 * (7205759403792794 / 2 ^ 55)
            < 2 ^ 51 * (7205759403792794 / 2 ^ 55) :=
              mul_lt_mul_of_pos_right hp2 (by norm_num)
          _ < 2 ^ 60 := by norm_num
      have hdq : (0 : ℚ) < ((2 ^ (-(e1 + -55)).toNat : Nat) : ℚ) := by exact_mod_cast hden
      rw [div_lt_iff₀ hdq] at hq
      exact_mod_cast hq
    obtain ⟨m2, e2, hr2, herr2, hlo3, hhi3⟩ :=
      round_near _ _ 60 hden (by norm_num) hlo2 hhi2
    rw [hratio] at herr2 hlo3 hhi3
    rw [hr2]
    have hv : F64.toRat (F64.finite false m2 e2) = (m2 : ℚ) * (2 : ℚ) ^ e2 := by
      simp [F64.toRat]
    have hdm := Nat.div_add_mod n 500
    have hml := Nat.mod_lt n (show 0 < 500 by norm_num)
    have hceil : ⌈F64.toRat (F64.finite false m2 e2)⌉ = (((n + 499) / 500 : Nat) : Int) := by
      rw [hv]
      by_cases hf : n % 500 = 0
      · have hnk : n = 100 * (5 * (n / 500)) := by omega
        have hq5 : (n : ℚ) / 100 = ((5 * (n / 500) : Nat) : ℚ) := by
          rw [div_eq_iff (by norm_num)]
          exact_mod_cast (by omega : n = 5 * (n / 500) * 100)
        rw [hq5] at herr1 hlo1
        have hexact := bonus_whole (n / 500) m1 m2 e1 e2 (by omega) herr1 hlo1 herr2 hlo3 hhi3
        rw [hexact, Int.ceil_natCast]
        congr 1
        omega
      · have hbt := bonus_between n (n / 500) (n % 500) ((n : ℚ) / 100)
          ((m1 : ℚ) * (2 : ℚ) ^ e1)
          ((m1 : ℚ) * (2 : ℚ) ^ e1 * (7205759403792794 / 2 ^ 55))
          ((m2 : ℚ) * (2 : ℚ) ^ e2) ((2 : ℚ) ^ e1) ((2 : ℚ) ^ e2) hn (by omega) (by omega)
          (by omega) rfl herr1 hlo1 rfl herr2 hlo3
        have hk : (n + 499) / 500 = n / 500 + 1 := by omega
        rw [hk, Int.ceil_eq_iff]
        generalize n / 500 = k at hbt ⊢
        push_cast
        constructor
        · linarith [hbt.1]
        · exact hbt.2
    have hbound : (n + 499) / 500 < 10 ^ 15 := by omega
    rw [toInt_Ceil impl false m2 e2 (by rw [hceil]; omega) (by rw [hceil]; omega), hceil]

/-- Rule 5 on a price written as at most 13 digits, a point and two digits: an item
whose trimmed description has a length that is a multiple of 3 adds the ceiling of
the exact fifth of the written amount. -/
theorem itemPoints_amount (impl : F64 → Int) (item : Item) (ds : List Char) (c1 c2 : Char)
    (hne : ds ≠ []) (hds : ∀ c ∈ ds, strconv.isDigit c = true)
    (h1 : strconv.isDigit c1 = true) (h2 : strconv.isDigit c2 = true) (hlen : ds.length ≤ 13)
    (hq : len (strings.TrimSpace item.ShortDescription.data) % 3 = 0)
    (hp : item.Price.data = amountString ds c1 c2) :
    itemPoints impl item = ⌈(amountCents ds c1 c2 : ℚ) / 100 * (2 / 10)⌉ := by
  obtain ⟨-, hlt⟩ := amountCents_lt ds c1 c2 hds h1 h2 13 hlen
  obtain ⟨m, e, hr, -⟩ := round_amount_quarter (amountCents ds c1 c2) (by omega)
  have hpf := ParseFloat_amount ds c1 c2 hne hds h1 h2
  have hb := bonus_amount impl (amountCents ds c1 c2) hlt
  rw [hr] at hpf hb
  simp only [] at hpf
  unfold itemPoints
  rw [if_pos hq, hp, hpf]
  simp only []
  rw [hb]
  have hc : (amountCents ds c1 c2 : ℚ) / 100 * (2 / 10) =
      (amountCents ds c1 c2 : ℚ) / ((500 : Nat) : ℚ) := by
    push_cast
    ring
  rw [hc, (ceil_natDiv (amountCents ds c1 c2) 500 (by norm_num)).1]
  congr 1
  split_ifs <;> omega

/-! ## Rule 5: the claims -/

/-- C3, counterexample: the price `5.0000000000000001` is read as the number
`50000000000000001 / 10^16`, of which the fifth has ceiling 2 in exact arithmetic;
the item with description `abc` and that price adds 1. -/
theorem C3_counterexample :
    strconv.readFloat "5.0000000000000001".data =
      some (⟨false, false, 50000000000000001, -16⟩, []) ∧
    ⌈(50000000000000001 : ℚ) / 10 ^ 16 * (2 / 10)⌉ = 2 ∧
    len (strings.TrimSpace "abc".data) % 3 = 0 ∧
    itemPoints F64.amd64 ⟨"abc", "5.0000000000000001"⟩ = 1 ∧
    descriptionPoints F64.amd64 ⟨"", "", "", [⟨"abc", "5.0000000000000001"⟩], ""⟩ = 1 ∧
    calculatePoints F64.amd64 ⟨"", "", "", [⟨"abc", "5.0000000000000001"⟩], ""⟩ = 1 := by
  refine ⟨by decide!, ?_, by decide, by decide!, by decide!, by decide!⟩
  rw [Int.ceil_eq_iff]
  norm_num

/-- C3, amended: the amount added by rule 5 is the sum, over exactly the items whose
trimmed description has a number of bytes that is a multiple of 3 and whose price
`ParseFloat` reads as a `float64` value `p`, of `int(math.Ceil(p * 0.2))` computed in
`float64` arithmetic (the ceiling of the exact value of the `float64` product when
that fits an `int`, and the ceiling of the exact fifth of the written price when
the price is written as at most 13 digits, a point and two digits); the prices
`12.25`, `12.00` and `5.00` give 3, 3 and 1.  An
item whose length is not a multiple of 3, or whose price is rejected, adds 0, and
the amount of a list of items is the sum of the amounts of its items. -/
theorem C3_description_bonus (impl : F64 → Int) (rec : receipt) :
    descriptionPoints impl rec =
      (rec.Items.filterMap fun item =>
        if len (strings.TrimSpace item.ShortDescription.data) % 3 = 0 then
          match strconv.ParseFloat item.Price.data with
          | .ok p => some (F64.toInt impl (math.Ceil (F64.mul p F64.fifth)))
          | .error _ => none
        else none).sum ∧
    (∀ item : Item, len (strings.TrimSpace item.ShortDescription.data) % 3 ≠ 0 →
      itemPoints impl item = 0) ∧
    (∀ (item : Item) err, strconv.ParseFloat item.Price.data = .error err →
      itemPoints impl item = 0) ∧
    (∀ (item : Item) p, len (strings.TrimSpace item.ShortDescription.data) % 3 = 0 →
      strconv.ParseFloat item.Price.data = .ok p →
      itemPoints impl item = F64.toInt impl (math.Ceil (F64.mul p F64.fifth)) ∧
      ∀ neg m e, F64.mul p F64.fifth = F64.finite neg m e →
        -2 ^ 63 ≤ ⌈F64.toRat (F64.finite neg m e)⌉ → ⌈F64.toRat (F64.finite neg m e)⌉ < 2 ^ 63 →
        itemPoints impl item = ⌈F64.toRat (F64.mul p F64.fifth)⌉) ∧
    (∀ (item : Item) (ds : List Char) (c1 c2 : Char), ds ≠ [] →
      (∀ c ∈ ds, strconv.isDigit c = true) →
      strconv.isDigit c1 = true → strconv.isDigit c2 = true → ds.length ≤ 13 →
      len (strings.TrimSpace item.ShortDescription.data) % 3 = 0 →
      item.Price.data = amountString ds c1 c2 →
      itemPoints impl item = ⌈(amountCents ds c1 c2 : ℚ) / 100 * (2 / 10)⌉) ∧
    (∀ (r1 r2 : receipt) (item : Item),
      r2.Items = r1.Items ++ [item] →
      descriptionPoints impl r2 = descriptionPoints impl r1 + itemPoints impl item) ∧
    calculatePoints impl rec =
      wrapInt (retailerPoints rec + roundDollarPoints rec + quarterPoints rec + pairPoints rec +
        descriptionPoints impl rec + datePoints rec + timePoints rec) ∧
    itemPoints F64.amd64 ⟨"abc", "12.25"⟩ = 3 ∧ itemPoints F64.amd64 ⟨"abc", "12.00"⟩ = 3 ∧
    itemPoints F64.amd64 ⟨"abc", "5.00"⟩ = 1 ∧ itemPoints F64.amd64 ⟨"abcd", "5.00"⟩ = 0 ∧
    itemPoints F64.amd64 ⟨"abc", "five"⟩ = 0 := by
  refine ⟨descriptionPoints_filterMap impl rec.Items, ?_, ?_, ?_, ?_, ?_,
    calculatePoints_eq_sum impl rec, by decide!, by decide!, by decide!, by decide!, by decide!⟩
  · intro item hq
    unfold itemPoints
    rw [if_neg hq]
  · intro item err he
    unfold itemPoints
    rw [he]
    simp
  · intro item p hq hp
    have hi : itemPoints impl item = F64.toInt impl (math.Ceil (F64.mul p F64.fifth)) := by
      unfold itemPoints
      rw [if_pos hq, hp]
    refine ⟨hi, ?_⟩
    intro neg m e hm h1 h2
    rw [hi, hm]
    exact toInt_Ceil impl neg m e h1 h2
  · intro item ds c1 c2 hne hds h1 h2 hlen hq hp
    exact itemPoints_amount impl item ds c1 c2 hne hds h1 h2 hlen hq hp
  · intro r1 r2 item h
    unfold descriptionPoints
    rw [h]
    simp

theorem blankLarge_values :
    strconv.ParseFloat (Item.mk "   " "5e19").Price.data =
      .ok (F64.finite false 6103515625000000 13) ∧
    F64.mul (F64.finite false 6103515625000000 13) F64.fifth =
      F64.finite false 4882812500000000 11 ∧
    itemPoints F64.amd64 ⟨"   ", "5e19"⟩ = -9223372036854775808 ∧
    calculatePoints F64.amd64 ⟨"", "", "", [⟨"   ", "5e19"⟩], ""⟩ = -9223372036854775808 := by
  refine ⟨by decide!, by decide!, by decide!, by decide!⟩

/-- C4, counterexample: the item with a description of three spaces and the price
`5e19`.  The price is read as 5 * 10^19, of which the fifth is 10^19, in exact
arithmetic and as a `float64` product alike; this does not fit an `int`, so the
item cannot add it on any platform, and on amd64 it adds -9223372036854775808. -/
theorem C4_counterexample :
    (∀ c ∈ (Item.mk "   " "5e19").ShortDescription.data, strings.isSpace c = true) ∧
    strconv.ParseFloat (Item.mk "   " "5e19").Price.data =
      .ok (F64.finite false 6103515625000000 13) ∧
    F64.toRat (F64.finite false 6103515625000000 13) = 5 * 10 ^ 19 ∧
    ⌈(5 * 10 ^ 19 : ℚ) * (2 / 10)⌉ = 10 ^ 19 ∧
    F64.mul (F64.finite false 6103515625000000 13) F64.fifth =
      F64.finite false 4882812500000000 11 ∧
    ⌈F64.toRat (F64.finite false 4882812500000000 11)⌉ = 10 ^ 19 ∧
    itemPoints F64.amd64 ⟨"   ", "5e19"⟩ = -9223372036854775808 ∧
    calculatePoints F64.amd64 ⟨"", "", "", [⟨"   ", "5e19"⟩], ""⟩ = -9223372036854775808 ∧
    (∀ impl : F64 → Int, itemPoints impl ⟨"   ", "5e19"⟩ ≠ 10 ^ 19) := by
  obtain ⟨hp, hm, hi, hc⟩ := blankLarge_values
  have hv1 : F64.toRat (F64.finite false 6103515625000000 13) = 5 * 10 ^ 19 := by
    simp only [F64.toRat, Bool.false_eq_true, if_false, one_mul]
    norm_num
  have hv2 : F64.toRat (F64.finite false 4882812500000000 11) = 10 ^ 19 := by
    simp only [F64.toRat, Bool.false_eq_true, if_false, one_mul]
    norm_num
  refine ⟨by decide, hp, hv1, ?_, hm, ?_, hi, hc, ?_⟩
  · rw [Int.ceil_eq_iff]
    norm_num
  · rw [hv2, Int.ceil_eq_iff]
    norm_num
  · intro impl h
    have hq : len (strings.TrimSpace (Item.mk "   " "5e19").ShortDescription.data) % 3 = 0 := by
      decide
    have hi2 : itemPoints impl ⟨"   ", "5e19"⟩ =
        F64.toInt impl (math.Ceil (F64.mul (F64.finite false 6103515625000000 13) F64.fifth)) := by
      unfold itemPoints
      rw [if_pos hq, hp]
    have hr := (toInt_range impl
      (math.Ceil (F64.mul (F64.finite false 6103515625000000 13) F64.fifth))).2
    rw [← hi2, h] at hr
    exact absurd hr (by norm_num)

/-- C4, amended: an item whose description holds nothing but white space trims to
the empty string, of length 0, so it qualifies for rule 5; when `ParseFloat` reads
its price as `p`, the item adds `int(math.Ceil(p * 0.2))`, computed on `float64`,
to the points, and a receipt with nothing but this item scores that amount.  The
amount is the ceiling of the exact value of the `float64` product when the product
is finite and that ceiling fits an `int`; it is the ceiling of the exact fifth of
the written price when the price is written as at most 13 digits, a point and two
digits; in the other cases it is what the platform makes of the conversion,
within the range of `int`. -/
theorem C4_blank_description (impl : F64 → Int) (item : Item) (p : F64)
    (hblank : ∀ c ∈ item.ShortDescription.data, strings.isSpace c = true)
    (hprice : strconv.ParseFloat item.Price.data = .ok p) :
    strings.TrimSpace item.ShortDescription.data = [] ∧
    len (strings.TrimSpace item.ShortDescription.data) = 0 ∧
    itemPoints impl item = F64.toInt impl (math.Ceil (F64.mul p F64.fifth)) ∧
    (∀ points, itemStep impl points item =
      wrapInt (points + F64.toInt impl (math.Ceil (F64.mul p F64.fifth)))) ∧
    calculatePoints impl ⟨"", "", "", [item], ""⟩ =
      F64.toInt impl (math.Ceil (F64.mul p F64.fifth)) ∧
    (∀ neg m e, F64.mul p F64.fifth = F64.finite neg m e →
      -2 ^ 63 ≤ ⌈F64.toRat (F64.finite neg m e)⌉ → ⌈F64.toRat (F64.finite neg m e)⌉ < 2 ^ 63 →
      itemPoints impl item = ⌈F64.toRat (F64.mul p F64.fifth)⌉) ∧
    (∀ (ds : List Char) (c1 c2 : Char), ds ≠ [] → (∀ c ∈ ds, strconv.isDigit c = true) →
      strconv.isDigit c1 = true → strconv.isDigit c2 = true → ds.length ≤ 13 →
      item.Price.data = amountString ds c1 c2 →
      itemPoints impl item = ⌈(amountCents ds c1 c2 : ℚ) / 100 * (2 / 10)⌉) ∧
    (∀ neg m e, F64.mul p F64.fifth = F64.finite neg m e →
      ¬ (-2 ^ 63 ≤ ⌈F64.toRat (F64.finite neg m e)⌉ ∧
        ⌈F64.toRat (F64.finite neg m e)⌉ < 2 ^ 63) →
      itemPoints impl item = wrapInt (impl (math.Ceil (F64.finite neg m e)))) ∧
    ((∀ neg m e, F64.mul p F64.fifth ≠ F64.finite neg m e) →
      itemPoints impl item = wrapInt (impl (F64.mul p F64.fifth))) ∧
    (-2 ^ 63 ≤ itemPoints impl item ∧ itemPoints impl item < 2 ^ 63) := by
  have ht := TrimSpace_blank _ hblank
  have hl : len (strings.TrimSpace item.ShortDescription.data) = 0 := by rw [ht]; rfl
  have hi : itemPoints impl item = F64.toInt impl (math.Ceil (F64.mul p F64.fifth)) := by
    unfold itemPoints
    rw [hl, hprice]
    rfl
  refine ⟨ht, hl, hi, ?_, ?_, ?_, ?_, ?_, ?_, ?_⟩
  · intro points
    unfold itemStep
    simp only [hl, hprice]
    rfl
  · rw [singleItem_points, hi]
    obtain ⟨r1, r2⟩ := toInt_range impl (math.Ceil (F64.mul p F64.fifth))
    exact wrapInt_of_range r1 r2
  · intro neg m e hm h1 h2
    rw [hi, hm]
    exact toInt_Ceil impl neg m e h1 h2
  · intro ds c1 c2 hne hds h1 h2 hlen hp
    exact itemPoints_amount impl item ds c1 c2 hne hds h1 h2 hlen (by rw [hl]) hp
  · intro neg m e hm hr
    rw [hi, hm, toInt_Ceil_cases, if_neg hr]
  · intro hnot
    rw [hi]
    cases hm : F64.mul p F64.fifth with
    | finite neg m e => exact absurd hm (hnot neg m e)
    | inf neg => rfl
    | nan => rfl
  · rw [hi]
    exact toInt_range impl _

/-- C4 at the item with description of three spaces and price `12.25`: the price is
read as 12.25, and the item adds 3. -/
theorem C4_witness :
    ((∀ c ∈ (Item.mk "   " "12.25").ShortDescription.data, strings.isSpace c = true) ∧
      strconv.ParseFloat (Item.mk "   " "12.25").Price.data =
        .ok (F64.finite false 6896136929411072 (-49))) ∧
    itemPoints F64.amd64 (Item.mk "   " "12.25") =
      F64.toInt F64.amd64
        (math.Ceil (F64.mul (F64.finite false 6896136929411072 (-49)) F64.fifth)) ∧
    F64.toInt F64.amd64
        (math.Ceil (F64.mul (F64.finite false 6896136929411072 (-49)) F64.fifth)) = 3 :=
  ⟨⟨by decide, by decide!⟩,
    (C4_blank_description F64.amd64 (Item.mk "   " "12.25")
      (F64.finite false 6896136929411072 (-49)) (by decide) (by decide!)).2.2.1,
    by decide!⟩

/-! ## The seven contributions -/

theorem calculatePoints_contributions (impl : F64 → Int) (rec : receipt) :
    calculatePoints impl rec = wrapInt (contributions impl rec).sum := by
  rw [calculatePoints_eq_sum]
  congr 1
  simp only [contributions, List.sum_cons, List.sum_nil]
  ring

theorem itemPoints_unparsed (impl : F64 → Int) (d bad : String) (err : strconv.NumError)
    (h : strconv.ParseFloat bad.data = .error err) : itemPoints impl ⟨d, bad⟩ = 0 := by
  unfold itemPoints
  simp only [h]
  split <;> rfl

theorem quarterTotal_amounts :
    strconv.ParseFloat "x.00".data = .error .ErrSyntax ∧
    contributions F64.amd64 (totalOnly "9.25") = [0, 0, 25, 0, 0, 0, 0] ∧
    contributions F64.amd64 (withTotal (totalOnly "9.25") "x.00") = [0, 50, 0, 0, 0, 0, 0] := by
  refine ⟨by decide!, by decide!, by decide!⟩

/-- C11, counterexample: the receipt with two items of description `abc` and
price `4e19`.  Each item adds 8000000000000000000 and the pair of items adds 5, so
the sum of the seven amounts is 16000000000000000005, which does not fit an `int`:
`calculatePoints` returns -2446744073709551611.  Also, replacing the total `9.25`
by `x.00`, which does not parse, takes the amount of the quarter rule from 25 to 0
and the amount of the suffix rule from 0 to 50. -/
theorem C11_counterexample :
    (¬ ∀ (impl : F64 → Int) (rec : receipt),
      calculatePoints impl rec = (contributions impl rec).sum) ∧
    contributions F64.amd64 largePrices =
      [0, 0, 0, 5, 8000000000000000000 + 8000000000000000000, 0, 0] ∧
    (contributions F64.amd64 largePrices).sum = 16000000000000000005 ∧
    calculatePoints F64.amd64 largePrices = -2446744073709551611 ∧
    strconv.ParseFloat "x.00".data = .error .ErrSyntax ∧
    contributions F64.amd64 (totalOnly "9.25") = [0, 0, 25, 0, 0, 0, 0] ∧
    contributions F64.amd64 (withTotal (totalOnly "9.25") "x.00") = [0, 50, 0, 0, 0, 0, 0] := by
  have h1 : contributions F64.amd64 largePrices =
      [0, 0, 0, 5, 8000000000000000000 + 8000000000000000000, 0, 0] := by decide!
  have h2 : calculatePoints F64.amd64 largePrices = -2446744073709551611 := by decide!
  have h3 : (contributions F64.amd64 largePrices).sum = 16000000000000000005 := by
    rw [h1]
    rfl
  refine ⟨?_, h1, h3, h2, quarterTotal_amounts⟩
  intro h
  have h4 := h F64.amd64 largePrices
  rw [h2, h3] at h4
  omega

theorem retailerPoints_congr (r1 r2 : receipt) (h : r1.Retailer = r2.Retailer) :
    retailerPoints r1 = retailerPoints r2 := by
  unfold retailerPoints
  rw [h]

theorem roundDollarPoints_congr (r1 r2 : receipt) (h : r1.Total = r2.Total) :
    roundDollarPoints r1 = roundDollarPoints r2 := by
  unfold roundDollarPoints
  rw [h]

theorem quarterPoints_congr (r1 r2 : receipt) (h : r1.Total = r2.Total) :
    quarterPoints r1 = quarterPoints r2 := by
  unfold quarterPoints
  rw [h]

theorem pairPoints_congr (r1 r2 : receipt) (h : r1.Items.length = r2.Items.length) :
    pairPoints r1 = pairPoints r2 := by
  unfold pairPoints
  rw [h]

theorem descriptionPoints_congr (impl : F64 → Int) (r1 r2 : receipt) (h : r1.Items = r2.Items) :
    descriptionPoints impl r1 = descriptionPoints impl r2 := by
  unfold descriptionPoints
  rw [h]

theorem datePoints_congr (r1 r2 : receipt) (h : r1.PurchaseDate = r2.PurchaseDate) :
    datePoints r1 = datePoints r2 := by
  unfold datePoints
  rw [h]

theorem timePoints_congr (r1 r2 : receipt) (h : r1.PurchaseTime = r2.PurchaseTime) :
    timePoints r1 = timePoints r2 := by
  unfold timePoints
  rw [h]

theorem scenarioA_amounts :
    contributions F64.amd64 scenarioA = [6, 0, 0, 10, 0 + 3 + 0 + 0 + 3, 6, 0] := by decide!

theorem scenarioA_points : calculatePoints F64.amd64 scenarioA = 28 := by decide!

theorem scenarioA_shape (impl : F64 → Int) (items : List Item) (h : items.length = 5) :
    contributions impl ⟨"Target", "2022-01-01", "13:01", items, "35.35"⟩ =
      [6, 0, 0, 10, (items.map (itemPoints impl)).sum, 6, 0] := by
  have h4 : pairPoints ⟨"Target", "2022-01-01", "13:01", items, "35.35"⟩ = 10 := by
    simp [pairPoints, h]
  have h1 : retailerPoints ⟨"Target", "2022-01-01", "13:01", items, "35.35"⟩ = 6 := by
    exact (retailerPoints_congr ⟨"Target", "2022-01-01", "13:01", items, "35.35"⟩ ⟨"Target", "", "", [], ""⟩ rfl).trans (by decide)
  have h2 : roundDollarPoints ⟨"Target", "2022-01-01", "13:01", items, "35.35"⟩ = 0 := by
    exact (roundDollarPoints_congr ⟨"Target", "2022-01-01", "13:01", items, "35.35"⟩ (totalOnly "35.35") rfl).trans (by decide)
  have h3 : quarterPoints ⟨"Target", "2022-01-01", "13:01", items, "35.35"⟩ = 0 := by
    exact (quarterPoints_congr ⟨"Target", "2022-01-01", "13:01", items, "35.35"⟩ (totalOnly "35.35") rfl).trans (by decide!)
  have h6 : datePoints ⟨"Target", "2022-01-01", "13:01", items, "35.35"⟩ = 6 := by
    exact (datePoints_congr ⟨"Target", "2022-01-01", "13:01", items, "35.35"⟩ (dateOnly "2022-01-01") rfl).trans (by decide!)
  have h7 : timePoints ⟨"Target", "2022-01-01", "13:01", items, "35.35"⟩ = 0 := by
    exact (timePoints_congr ⟨"Target", "2022-01-01", "13:01", items, "35.35"⟩ (timeOnly "13:01") rfl).trans (by decide!)
  simp only [contributions, h1, h2, h3, h4, h6, h7, descriptionPoints]

/-- C11, amended: `calculatePoints` is the sum of seven amounts, reduced to the
range of the 64-bit `int`; it is the exact sum whenever that sum fits an `int`, and
the result always lies in the range of `int`.  Each amount is computed from one
field: the retailer; the total (its suffix, and its value); the number of items;
the items; the purchase date; the purchase time.  A purchase date, a purchase
time, a total or a price of an item that does not parse makes the amount of its
rule (or of its item) 0 and leaves the amounts computed from the other fields as
they were; the suffix rule keeps reading the text of the total.  For scenario A
the seven amounts are 6, 0, 0, 10, the sum over the items, 6 and 0, and the
receipt `scenarioA` scores 28. -/
theorem C11_independent_contributions (impl : F64 → Int) (rec : receipt) :
    calculatePoints impl rec = wrapInt (contributions impl rec).sum ∧
    (-2 ^ 63 ≤ (contributions impl rec).sum → (contributions impl rec).sum < 2 ^ 63 →
      calculatePoints impl rec = (contributions impl rec).sum) ∧
    (-2 ^ 63 ≤ calculatePoints impl rec ∧ calculatePoints impl rec < 2 ^ 63) ∧
    (∀ r : receipt, r.Retailer = rec.Retailer → retailerPoints r = retailerPoints rec) ∧
    (∀ r : receipt, r.Total = rec.Total →
      roundDollarPoints r = roundDollarPoints rec ∧ quarterPoints r = quarterPoints rec) ∧
    (∀ r : receipt, r.Items.length = rec.Items.length → pairPoints r = pairPoints rec) ∧
    (∀ r : receipt, r.Items = rec.Items → descriptionPoints impl r = descriptionPoints impl rec) ∧
    (∀ r : receipt, r.PurchaseDate = rec.PurchaseDate → datePoints r = datePoints rec) ∧
    (∀ r : receipt, r.PurchaseTime = rec.PurchaseTime → timePoints r = timePoints rec) ∧
    (∀ bad : String, time.Parse time.layoutDate bad.data = none →
      contributions impl (withDate rec bad) = (contributions impl rec).set 5 0) ∧
    (∀ bad : String, time.Parse time.layoutClock bad.data = none →
      contributions impl (withTime rec bad) = (contributions impl rec).set 6 0) ∧
    (∀ (bad : String) (err : strconv.NumError), strconv.ParseFloat bad.data = .error err →
      contributions impl (withTotal rec bad) =
        ((contributions impl rec).set 2 0).set 1
          (if strings.HasSuffix bad.data ".00".data then 50 else 0)) ∧
    (∀ (l1 l2 : List Item) (d p bad : String) (err : strconv.NumError),
      rec.Items = l1 ++ ⟨d, p⟩ :: l2 → strconv.ParseFloat bad.data = .error err →
      (l1 ++ ⟨d, bad⟩ :: l2).map (itemPoints impl) =
        (rec.Items.map (itemPoints impl)).set l1.length 0 ∧
      contributions impl (withItems rec (l1 ++ ⟨d, bad⟩ :: l2)) =
        (contributions impl rec).set 4 (descriptionPoints impl rec - itemPoints impl ⟨d, p⟩)) ∧
    (∀ items : List Item, items.length = 5 →
      contributions impl ⟨"Target", "2022-01-01", "13:01", items, "35.35"⟩ =
        [6, 0, 0, 10, (items.map (itemPoints impl)).sum, 6, 0]) ∧
    contributions F64.amd64 scenarioA = [6, 0, 0, 10, 0 + 3 + 0 + 0 + 3, 6, 0] ∧
    calculatePoints F64.amd64 scenarioA = 28 := by
  have hs := calculatePoints_contributions impl rec
  refine ⟨hs, ?_, ?_, ?_, ?_, ?_, ?_, ?_, ?_, ?_, ?_, ?_, ?_, ?_, scenarioA_amounts, scenarioA_points⟩
  · intro h1 h2
    rw [hs, wrapInt_of_range h1 h2]
  · rw [hs]
    exact wrapInt_range _
  · exact fun r h => retailerPoints_congr r rec h
  · exact fun r h => ⟨roundDollarPoints_congr r rec h, quarterPoints_congr r rec h⟩
  · exact fun r h => pairPoints_congr r rec h
  · exact fun r h => descriptionPoints_congr impl r rec h
  · exact fun r h => datePoints_congr r rec h
  · exact fun r h => timePoints_congr r rec h
  · intro bad h
    have h0 : datePoints (withDate rec bad) = 0 := by
      simp only [datePoints, withDate, h]
    simp only [contributions, h0, List.set_cons_succ, List.set_cons_zero]
    rfl
  · intro bad h
    have h0 : timePoints (withTime rec bad) = 0 := by
      simp only [timePoints, withTime, h]
    simp only [contributions, h0, List.set_cons_succ, List.set_cons_zero]
    rfl
  · intro bad err h
    have h0 : quarterPoints (withTotal rec bad) = 0 := by
      simp only [quarterPoints, withTotal, h]
    simp only [contributions, h0, List.set_cons_succ, List.set_cons_zero]
    rfl
  · intro l1 l2 d p bad err hi h
    have h0 := itemPoints_unparsed impl d bad err h
    have hd : descriptionPoints impl (withItems rec (l1 ++ ⟨d, bad⟩ :: l2)) =
        descriptionPoints impl rec - itemPoints impl ⟨d, p⟩ := by
      simp only [descriptionPoints, withItems, hi, List.map_append, List.map_cons,
        List.sum_append, List.sum_cons, h0]
      ring
    have hp : pairPoints (withItems rec (l1 ++ ⟨d, bad⟩ :: l2)) = pairPoints rec := by
      simp [pairPoints, withItems, hi]
    constructor
    · rw [hi]
      simp only [List.map_append, List.map_cons, h0]
      rw [List.set_append_right _ _ (by simp)]
      simp
    · simp only [contributions, hd, hp, List.set_cons_succ, List.set_cons_zero]
      rfl
  · intro items h
    exact scenarioA_shape impl items h

/-! ## The map of receipts -/

theorem index_assign (m : receiptMap) (key k : String) (v : receipt) :
    receiptMap.index (receiptMap.assign m key v) k =
      if k = key then some v else receiptMap.index m k := by
  induction m with
  | nil =>
    by_cases h : k = key
    · simp [receiptMap.assign, receiptMap.index, h]
    · have h2 : ¬ key = k := fun e => h e.symm
      simp [receiptMap.assign, receiptMap.index, h, h2]
  | cons e m ih =>
    obtain ⟨k0, w⟩ := e
    by_cases h0 : k0 = key
    · subst h0
      by_cases h : k = k0
      · subst h
        simp [receiptMap.assign, receiptMap.index]
      · have h2 : ¬ k0 = k := fun e => h e.symm
        simp [receiptMap.assign, receiptMap.index, h, h2]
    · by_cases h : k = key
      · subst h
        simp [receiptMap.assign, receiptMap.index, h0, ih]
      · by_cases h1 : k0 = k
        · simp [receiptMap.assign, receiptMap.index, h0, h, h1]
        · simp [receiptMap.assign, receiptMap.index, h0, h, h1, ih]

theorem index_assign_same (m : receiptMap) (key : String) (v : receipt) :
    receiptMap.index (receiptMap.assign m key v) key = some v := by
  rw [index_assign, if_pos rfl]

theorem index_assign_other (m : receiptMap) (key k : String) (v : receipt) (h : k ≠ key) :
    receiptMap.index (receiptMap.assign m key v) k = receiptMap.index m k := by
  rw [index_assign, if_neg h]

theorem index_none_iff (m : receiptMap) (k : String) :
    receiptMap.index m k = none ↔ k ∉ receiptMap.keys m := by
  induction m with
  | nil => simp [receiptMap.index, receiptMap.keys]
  | cons e m ih =>
    obtain ⟨k0, w⟩ := e
    by_cases h : k0 = k
    · simp [receiptMap.index, receiptMap.keys, h]
    · have h2 : ¬ k = k0 := fun e => h e.symm
      simp only [receiptMap.index, if_neg h, ih]
      simp [receiptMap.keys, h2]

theorem assign_absent (m : receiptMap) (key : String) (v : receipt)
    (h : receiptMap.index m key = none) : receiptMap.assign m key v = m ++ [(key, v)] := by
  induction m with
  | nil => rfl
  | cons e m ih =>
    obtain ⟨k0, w⟩ := e
    by_cases h0 : k0 = key
    · simp [receiptMap.index, h0] at h
    · simp only [receiptMap.index, if_neg h0] at h
      simp [receiptMap.assign, h0, ih h]

theorem keys_assign (m : receiptMap) (key : String) (v : receipt) :
    receiptMap.keys (receiptMap.assign m key v) =
      if receiptMap.index m key = none then receiptMap.keys m ++ [key] else receiptMap.keys m := by
  induction m with
  | nil => simp [receiptMap.assign, receiptMap.index, receiptMap.keys]
  | cons e m ih =>
    obtain ⟨k0, w⟩ := e
    by_cases h0 : k0 = key
    · simp [receiptMap.assign, receiptMap.index, receiptMap.keys, h0]
    · simp only [receiptMap.assign, receiptMap.index, if_neg h0]
      unfold receiptMap.keys at ih ⊢
      rw [List.map_cons, ih]
      split <;> simp

theorem keys_nodup_assign (m : receiptMap) (key : String) (v : receipt)
    (h : (receiptMap.keys m).Nodup) : (receiptMap.keys (receiptMap.assign m key v)).Nodup := by
  rw [keys_assign]
  split
  · rename_i h0
    rw [index_none_iff] at h0
    rw [List.nodup_append]
    refine ⟨h, List.nodup_singleton _, ?_⟩
    intro a ha hb
    rw [List.mem_singleton] at hb
    subst hb
    exact h0 ha
  · exact h

/-! ## The two handlers -/

theorem processReceipt_decoded (env : Env) (jsonInput : String) (st : State) (rec : receipt)
    (hidle : State.idle st) (hdec : env.Unmarshal jsonInput = some rec) :
    processReceipt env jsonInput st =
      some (redirectTo (env.New st.drawn),
        ⟨⟨⟨false, 0⟩, receiptMap.assign st.storeReceipts.receipts (env.New st.drawn) rec⟩,
          st.drawn + 1⟩) := by
  unfold State.idle at hidle
  simp [processReceipt, hdec, generateID, hidle, sync.RWMutex.Lock, sync.RWMutex.Unlock,
    redirectTo, http.StatusFound]

theorem processReceipt_failed (env : Env) (jsonInput : String) (st : State)
    (hdec : env.Unmarshal jsonInput = none) :
    processReceipt env jsonInput st = some (decodeFailed, st) := by
  simp [processReceipt, hdec, decodeFailed, http.StatusBadRequest]

theorem getReceiptPoints_idle (env : Env) (id : String) (st : State) (hidle : State.idle st) :
    getReceiptPoints env id st =
      some (match receiptMap.index st.storeReceipts.receipts id with
        | none => receiptNotFound
        | some rec => pointsFound (calculatePoints env.impl rec), st) := by
  obtain ⟨⟨mu, m⟩, d⟩ := st
  unfold State.idle at hidle
  simp only at hidle
  subst hidle
  simp only [getReceiptPoints, sync.RWMutex.RLock, sync.RWMutex.RUnlock]
  cases receiptMap.index m id with
  | none => simp [receiptNotFound, http.StatusNotFound]
  | some rec => simp [pointsFound, http.StatusOK]

theorem redirectTo_inj (id1 id2 : String) (h : redirectTo id1 = redirectTo id2) : id1 = id2 := by
  unfold redirectTo at h
  injection h with _ h2
  have h3 := congrArg String.data h2
  rw [String.data_append, String.data_append] at h3
  exact String.ext (List.append_cancel_left h3)

theorem route_idle (env : Env) (req : Request) (st : State) (hidle : State.idle st) :
    ∃ resp st', route env req st = some (resp, st') ∧ State.idle st' ∧
      (∀ id, receiptMap.index st'.storeReceipts.receipts id ≠ none ↔
        (receiptMap.index st.storeReceipts.receipts id ≠ none ∨ resp = redirectTo id)) ∧
      (∀ id, resp ≠ redirectTo id →
        receiptMap.index st'.storeReceipts.receipts id =
          receiptMap.index st.storeReceipts.receipts id) := by
  cases req with
  | process jsonInput =>
    cases hdec : env.Unmarshal jsonInput with
    | none =>
      refine ⟨decodeFailed, st, processReceipt_failed env jsonInput st hdec, hidle, ?_, ?_⟩
      · intro id
        simp [decodeFailed, redirectTo]
      · intro id _
        rfl
    | some rec =>
      refine ⟨_, _, processReceipt_decoded env jsonInput st rec hidle hdec, rfl, ?_, ?_⟩
      · intro id
        simp only [index_assign]
        by_cases h : id = env.New st.drawn
        · subst h
          simp
        · rw [if_neg h]
          constructor
          · exact fun h2 => Or.inl h2
          · rintro (h2 | h2)
            · exact h2
            · exact absurd (redirectTo_inj _ _ h2).symm h
      · intro id hne
        simp only [index_assign]
        rw [if_neg]
        intro h
        exact hne (by rw [h])
  | points id0 =>
    refine ⟨_, st, getReceiptPoints_idle env id0 st hidle, hidle, ?_, ?_⟩
    · intro id
      cases receiptMap.index st.storeReceipts.receipts id0 <;>
        simp [receiptNotFound, pointsFound, redirectTo]
    · intro id _
      rfl

theorem serve_idle (env : Env) (reqs : List Request) (st : State) (hidle : State.idle st) :
    ∃ resps st', serve env reqs st = some (resps, st') ∧ State.idle st' ∧
      resps.length = reqs.length ∧
      (∀ id, receiptMap.index st'.storeReceipts.receipts id ≠ none ↔
        (receiptMap.index st.storeReceipts.receipts id ≠ none ∨ redirectTo id ∈ resps)) ∧
      (∀ id, redirectTo id ∉ resps →
        receiptMap.index st'.storeReceipts.receipts id =
          receiptMap.index st.storeReceipts.receipts id) := by
  induction reqs generalizing st with
  | nil => exact ⟨[], st, rfl, hidle, rfl, by simp, by simp⟩
  | cons req rest ih =>
    obtain ⟨resp, st1, h1, hidle1, hix, hfr⟩ := route_idle env req st hidle
    obtain ⟨resps, st2, h2, hidle2, hlen, hkeys, hframe⟩ := ih st1 hidle1
    refine ⟨resp :: resps, st2, ?_, hidle2, by simp [hlen], ?_, ?_⟩
    · simp [serve, h1, h2]
    · intro id
      rw [hkeys id, hix id, List.mem_cons, or_assoc]
      constructor
      · rintro (h | h | h)
        · exact Or.inl h
        · exact Or.inr (Or.inl h.symm)
        · exact Or.inr (Or.inr h)
      · rintro (h | h | h)
        · exact Or.inl h
        · exact Or.inr (Or.inl h.symm)
        · exact Or.inr (Or.inr h)
    · intro id hnot
      have hne : resp ≠ redirectTo id := by
        intro e
        exact hnot (by simp [e])
      have hrest : redirectTo id ∉ resps := by
        intro e
        exact hnot (List.mem_cons_of_mem _ e)
      rw [hframe id hrest, hfr id hne]

/-! ## The store: the claims -/

/-- C12: in every idle state, when `processReceipt` decodes the receipt `r` and
`generateID` returns `id`, the handler stores `r` under `id` (`receipts[id] = r`)
and redirects to the page of `id`; right after, the index expression of
`getReceiptPoints` for `id` finds `r`, and the handler answers 200 with
`calculatePoints(r)`.  On the map alone: after `m[id] = r`, `m[id]` is `r`. -/
theorem C12_store_round_trip (env : Env) (st : State) (jsonInput : String) (r : receipt)
    (id : String) (hidle : State.idle st) (hdec : env.Unmarshal jsonInput = some r)
    (hid : env.New st.drawn = id) :
    (∀ m : receiptMap, receiptMap.index (receiptMap.assign m id r) id = some r) ∧
    ∃ st', processReceipt env jsonInput st = some (redirectTo id, st') ∧
      st'.storeReceipts.receipts = receiptMap.assign st.storeReceipts.receipts id r ∧
      receiptMap.index st'.storeReceipts.receipts id = some r ∧
      getReceiptPoints env id st' =
        some (.JSON 200 [("points", .int (calculatePoints env.impl r))], st') ∧
      serve env [.process jsonInput, .points id] st =
        some ([.Redirect 302 ("/receipt-id.html?id=" ++ id),
          .JSON 200 [("points", .int (calculatePoints env.impl r))]], st') := by
  subst hid
  have hp := processReceipt_decoded env jsonInput st r hidle hdec
  have hg := getReceiptPoints_idle env (env.New st.drawn)
    ⟨⟨⟨false, 0⟩, receiptMap.assign st.storeReceipts.receipts (env.New st.drawn) r⟩,
      st.drawn + 1⟩ rfl
  simp only [index_assign_same] at hg
  refine ⟨fun m => index_assign_same m _ r, _, hp, rfl, index_assign_same _ _ r, hg, ?_⟩
  simp only [serve, route, hp, hg]
  rfl

/-- C12 in the sample environment, from the start state: the empty JSON object is
decoded to the zero receipt and stored under the first identifier, `a`; the lookup
of `a` that follows reports the points of the zero receipt. -/
theorem C12_witness :
    (State.idle State.start ∧
      sampleEnv.Unmarshal "\x7b\x7d" = some ⟨"", "", "", [], ""⟩ ∧
      sampleEnv.New State.start.drawn = "a") ∧
    ∃ st', serve sampleEnv [.process "\x7b\x7d", .points "a"] State.start =
      some ([.Redirect 302 ("/receipt-id.html?id=" ++ "a"),
        .JSON 200 [("points", .int (calculatePoints sampleEnv.impl ⟨"", "", "", [], ""⟩))]],
        st') := by
  refine ⟨⟨by decide, by decide, by decide⟩, ?_⟩
  obtain ⟨-, st', -, -, -, -, h5⟩ :=
    C12_store_round_trip sampleEnv State.start "\x7b\x7d" ⟨"", "", "", [], ""⟩ "a"
      (by decide) (by decide) (by decide)
  exact ⟨st', h5⟩

/-- C13: the requests of any list, served one after the other from the start
state, all return; in the state at the end an identifier is present in the map
exactly when one of the responses is the redirection that hands it out, and for
any other identifier `getReceiptPoints` answers not found. -/
theorem C13_unknown_identifier (env : Env) (reqs : List Request) :
    receiptMap.keys State.start.storeReceipts.receipts = [] ∧
    ∃ resps st, serve env reqs State.start = some (resps, st) ∧
      (∀ id, id ∈ receiptMap.keys st.storeReceipts.receipts ↔ redirectTo id ∈ resps) ∧
      (∀ id, receiptMap.index st.storeReceipts.receipts id ≠ none ↔ redirectTo id ∈ resps) ∧
      (∀ id, redirectTo id ∉ resps →
        getReceiptPoints env id st =
          some (.JSON 404 [("Error", .str "Receipt not found")], st)) := by
  obtain ⟨resps, st, hs, hidle, -, hkeys, -⟩ := serve_idle env reqs State.start rfl
  have hk : ∀ id, receiptMap.index st.storeReceipts.receipts id ≠ none ↔ redirectTo id ∈ resps := by
    intro id
    rw [hkeys id]
    simp [State.start, receiptMap.index]
  refine ⟨rfl, resps, st, hs, ?_, hk, ?_⟩
  · intro id
    rw [← hk id, Ne, index_none_iff, not_not]
  · intro id hnot
    have hnone : receiptMap.index st.storeReceipts.receipts id = none := by
      by_contra h
      exact hnot ((hk id).1 h)
    rw [getReceiptPoints_idle env id st hidle, hnone]
    rfl

/-- C14: a record in the map is neither changed nor removed by a later insert
under another identifier.  In every idle state where `id` is present with the
record `old`, when `processReceipt` decodes a receipt and `generateID` returns an
identifier other than `id`, the record under `id` is still `old` afterwards; and
over any list of requests served one after the other, an identifier that none of
the responses hands out keeps its record (or stays absent). -/
theorem C14_records_persist (env : Env) (st : State) (jsonInput : String) (r old : receipt)
    (id : String) (hidle : State.idle st) (hdec : env.Unmarshal jsonInput = some r)
    (hold : receiptMap.index st.storeReceipts.receipts id = some old)
    (hfresh : env.New st.drawn ≠ id) :
    (∀ (m : receiptMap) (k : String), k ≠ id →
      receiptMap.index (receiptMap.assign m k r) id = receiptMap.index m id) ∧
    (∃ st', processReceipt env jsonInput st = some (redirectTo (env.New st.drawn), st') ∧
      receiptMap.index st'.storeReceipts.receipts id = some old ∧
      id ∈ receiptMap.keys st'.storeReceipts.receipts) ∧
    (∀ reqs : List Request, ∃ resps st', serve env reqs st = some (resps, st') ∧
      (redirectTo id ∉ resps → receiptMap.index st'.storeReceipts.receipts id = some old) ∧
      id ∈ receiptMap.keys st'.storeReceipts.receipts) := by
  refine ⟨fun m k hk => index_assign_other m k id r (Ne.symm hk), ?_, ?_⟩
  · have hix : receiptMap.index
        (receiptMap.assign st.storeReceipts.receipts (env.New st.drawn) r) id = some old := by
      rw [index_assign_other _ _ _ _ (Ne.symm hfresh), hold]
    refine ⟨_, processReceipt_decoded env jsonInput st r hidle hdec, hix, ?_⟩
    by_contra h
    rw [← index_none_iff] at h
    simp only [hix] at h
    exact absurd h (by simp)
  · intro reqs
    obtain ⟨resps, st', hs, -, -, hkeys, hframe⟩ := serve_idle env reqs st hidle
    refine ⟨resps, st', hs, ?_, ?_⟩
    · intro hnot
      rw [hframe id hnot, hold]
    · by_contra h
      rw [← index_none_iff] at h
      exact (hkeys id).2 (Or.inl (by simp [hold])) h

/-- C14 in the sample environment: with the zero receipt stored under `a`, the
next insert is made under `aa` and leaves the record under `a` in place. -/
theorem C14_witness :
    (State.idle ⟨⟨⟨false, 0⟩, [("a", ⟨"", "", "", [], ""⟩)]⟩, 1⟩ ∧
      sampleEnv.Unmarshal "\x7b\x7d" = some ⟨"", "", "", [], ""⟩ ∧
      receiptMap.index [("a", ⟨"", "", "", [], ""⟩)] "a" = some ⟨"", "", "", [], ""⟩ ∧
      sampleEnv.New 1 ≠ "a") ∧
    ∃ st', processReceipt sampleEnv "\x7b\x7d" ⟨⟨⟨false, 0⟩, [("a", ⟨"", "", "", [], ""⟩)]⟩, 1⟩ =
        some (redirectTo (sampleEnv.New 1), st') ∧
      receiptMap.index st'.storeReceipts.receipts "a" = some ⟨"", "", "", [], ""⟩ ∧
      "a" ∈ receiptMap.keys st'.storeReceipts.receipts :=
  ⟨⟨by decide, by decide, by decide, by decide⟩,
    (C14_records_persist sampleEnv ⟨⟨⟨false, 0⟩, [("a", ⟨"", "", "", [], ""⟩)]⟩, 1⟩ "\x7b\x7d"
      ⟨"", "", "", [], ""⟩ ⟨"", "", "", [], ""⟩ "a"
      (by decide) (by decide) (by decide) (by decide)).2.1⟩

/-- C15: in every idle state and for every identifier, `getReceiptPoints` returns
and leaves a response: status 404 with the payload `Error: Receipt not found`
exactly when the identifier is absent from the map, and otherwise status 200 with
the payload `points: n`, where `n` is `calculatePoints` of the receipt stored under
the identifier. -/
theorem C15_points_lookup (env : Env) (st : State) (id : String) (hidle : State.idle st) :
    (∃ resp, getReceiptPoints env id st = some (resp, st)) ∧
    (getReceiptPoints env id st =
        some (.JSON 404 [("Error", .str "Receipt not found")], st) ↔
      receiptMap.index st.storeReceipts.receipts id = none) ∧
    (receiptMap.index st.storeReceipts.receipts id = none ↔
      id ∉ receiptMap.keys st.storeReceipts.receipts) ∧
    (∀ rec, receiptMap.index st.storeReceipts.receipts id = some rec →
      getReceiptPoints env id st =
        some (.JSON 200 [("points", .int (calculatePoints env.impl rec))], st)) := by
  have hg := getReceiptPoints_idle env id st hidle
  refine ⟨⟨_, hg⟩, ?_, index_none_iff _ _, ?_⟩
  · rw [hg]
    cases receiptMap.index st.storeReceipts.receipts id with
    | none => simp [receiptNotFound]
    | some rec => simp [pointsFound]
  · intro rec hrec
    rw [hg, hrec]
    rfl

/-- C15 from the start state: the identifier `a` is absent, the answer is 404. -/
theorem C15_witness :
    State.idle State.start ∧
    getReceiptPoints sampleEnv "a" State.start =
      some (.JSON 404 [("Error", .str "Receipt not found")], State.start) :=
  ⟨by decide, (C15_points_lookup sampleEnv State.start "a" (by decide)).2.1.2 (by decide)⟩

/-- C16: in every idle state, when `json.Unmarshal` fails, `processReceipt`
answers with status 400 and the payload `error: Failed to decode JSON` and leaves
the state as it was: the map is the same, `uuid.New` was not called, and every
lookup answers as before.  When `json.Unmarshal` succeeds, one identifier is drawn
and the map after the handler is the map before with the decoded receipt assigned
under that identifier: every other identifier keeps what it had, and when the
identifier is new to the map, the map has exactly one more entry, the last. -/
theorem C16_malformed_submission (env : Env) (st : State) (jsonInput : String)
    (hidle : State.idle st) :
    (env.Unmarshal jsonInput = none →
      processReceipt env jsonInput st =
        some (.JSON 400 [("error", .str "Failed to decode JSON")], st) ∧
      (∀ st', (∃ resp, processReceipt env jsonInput st = some (resp, st')) →
        st'.drawn = st.drawn ∧ st'.storeReceipts = st.storeReceipts ∧
        ∀ id, getReceiptPoints env id st' = getReceiptPoints env id st)) ∧
    (∀ r, env.Unmarshal jsonInput = some r →
      ∃ st', processReceipt env jsonInput st = some (redirectTo (env.New st.drawn), st') ∧
        State.idle st' ∧ st'.drawn = st.drawn + 1 ∧
        st'.storeReceipts.receipts =
          receiptMap.assign st.storeReceipts.receipts (env.New st.drawn) r ∧
        (∀ k, receiptMap.index st'.storeReceipts.receipts k =
          if k = env.New st.drawn then some r else receiptMap.index st.storeReceipts.receipts k) ∧
        (receiptMap.index st.storeReceipts.receipts (env.New st.drawn) = none →
          st'.storeReceipts.receipts = st.storeReceipts.receipts ++ [(env.New st.drawn, r)] ∧
          st'.storeReceipts.receipts.length = st.storeReceipts.receipts.length + 1)) := by
  constructor
  · intro hdec
    have hp := processReceipt_failed env jsonInput st hdec
    refine ⟨hp, ?_⟩
    rintro st' ⟨resp, h⟩
    rw [hp] at h
    injection h with h
    injection h with _ h2
    subst h2
    exact ⟨rfl, rfl, fun _ => rfl⟩
  · intro r hdec
    refine ⟨_, processReceipt_decoded env jsonInput st r hidle hdec, rfl, rfl, rfl, ?_, ?_⟩
    · intro k
      exact index_assign _ _ _ _
    · intro habs
      simp only [assign_absent _ _ r habs]
      simp

/-- C16 in the sample environment, from the start state: the text `nonsense` is
not decoded, the answer is 400 and the state stays the start state. -/
theorem C16_witness :
    (State.idle State.start ∧ sampleEnv.Unmarshal "nonsense" = none) ∧
    processReceipt sampleEnv "nonsense" State.start =
      some (.JSON 400 [("error", .str "Failed to decode JSON")], State.start) :=
  ⟨⟨by decide, by decide⟩,
    ((C16_malformed_submission sampleEnv State.start "nonsense" (by decide)).1 (by decide)).1⟩

/-- C17: in every idle state and for every identifier, `getReceiptPoints` returns
in the state it started from (the map, the mutex and the number of identifiers
drawn are as before); a second lookup of the same identifier finds the same
record, or finds none again, and gives the same response. -/
theorem C17_read_no_side_effect (env : Env) (st : State) (id : String)
    (hidle : State.idle st) :
    ∃ resp, getReceiptPoints env id st = some (resp, st) ∧
      (∀ st', (∃ resp', getReceiptPoints env id st = some (resp', st')) →
        st' = st ∧
        receiptMap.index st'.storeReceipts.receipts id =
          receiptMap.index st.storeReceipts.receipts id ∧
        getReceiptPoints env id st' = some (resp, st)) ∧
      serve env [.points id, .points id] st = some ([resp, resp], st) := by
  have hg := getReceiptPoints_idle env id st hidle
  refine ⟨_, hg, ?_, ?_⟩
  · rintro st' ⟨resp', h⟩
    rw [hg] at h
    injection h with h
    injection h with _ h2
    subst h2
    exact ⟨rfl, rfl, hg⟩
  · simp only [serve, route, hg]

/-- C17 in the sample environment: two lookups of `a` in the state that has the
zero receipt under `a` both answer 200 with 0 points and leave the state as it is. -/
theorem C17_witness :
    State.idle ⟨⟨⟨false, 0⟩, [("a", ⟨"", "", "", [], ""⟩)]⟩, 1⟩ ∧
    ∃ resp, getReceiptPoints sampleEnv "a" ⟨⟨⟨false, 0⟩, [("a", ⟨"", "", "", [], ""⟩)]⟩, 1⟩ =
        some (resp, ⟨⟨⟨false, 0⟩, [("a", ⟨"", "", "", [], ""⟩)]⟩, 1⟩) ∧
      serve sampleEnv [.points "a", .points "a"]
          ⟨⟨⟨false, 0⟩, [("a", ⟨"", "", "", [], ""⟩)]⟩, 1⟩ =
        some ([resp, resp], ⟨⟨⟨false, 0⟩, [("a", ⟨"", "", "", [], ""⟩)]⟩, 1⟩) := by
  refine ⟨by decide, ?_⟩
  obtain ⟨resp, h1, -, h3⟩ :=
    C17_read_no_side_effect sampleEnv ⟨⟨⟨false, 0⟩, [("a", ⟨"", "", "", [], ""⟩)]⟩, 1⟩ "a"
      (by decide)
  exact ⟨resp, h1, h3⟩

/-- C18: `calculatePoints` is a function of the fields of the receipt: two
receipts with the same retailer, purchase date, purchase time, items and total
get the same points (on a given platform).  The points that `getReceiptPoints`
reports for them are the same whatever the states, the identifiers they are stored
under and the number of identifiers drawn so far. -/
theorem C18_deterministic (impl : F64 → Int) (R1 R2 : receipt)
    (hRetailer : R1.Retailer = R2.Retailer) (hDate : R1.PurchaseDate = R2.PurchaseDate)
    (hTime : R1.PurchaseTime = R2.PurchaseTime) (hItems : R1.Items = R2.Items)
    (hTotal : R1.Total = R2.Total) :
    calculatePoints impl R1 = calculatePoints impl R2 ∧
    contributions impl R1 = contributions impl R2 ∧
    (∀ (env1 env2 : Env) (st1 st2 : State) (id1 id2 : String),
      env1.impl = impl → env2.impl = impl → State.idle st1 → State.idle st2 →
      receiptMap.index st1.storeReceipts.receipts id1 = some R1 →
      receiptMap.index st2.storeReceipts.receipts id2 = some R2 →
      ∃ resp, getReceiptPoints env1 id1 st1 = some (resp, st1) ∧
        getReceiptPoints env2 id2 st2 = some (resp, st2) ∧
        resp = .JSON 200 [("points", .int (calculatePoints impl R1))]) := by
  have hR : R1 = R2 := by
    cases R1
    cases R2
    simp only at hRetailer hDate hTime hItems hTotal
    subst hRetailer hDate hTime hItems hTotal
    rfl
  subst hR
  refine ⟨rfl, rfl, ?_⟩
  intro env1 env2 st1 st2 id1 id2 he1 he2 hi1 hi2 h1 h2
  refine ⟨_, ?_, ?_, rfl⟩
  · rw [getReceiptPoints_idle env1 id1 st1 hi1, h1, he1]
    rfl
  · rw [getReceiptPoints_idle env2 id2 st2 hi2, h2, he2]
    rfl

/-- C18 at two receipts written field by field: the receipt of scenario A and
the receipt built from its fields get the same points. -/
theorem C18_witness :
    ((withTotal scenarioA "35.35").Retailer = scenarioA.Retailer ∧
      (withTotal scenarioA "35.35").PurchaseDate = scenarioA.PurchaseDate ∧
      (withTotal scenarioA "35.35").PurchaseTime = scenarioA.PurchaseTime ∧
      (withTotal scenarioA "35.35").Items = scenarioA.Items ∧
      (withTotal scenarioA "35.35").Total = scenarioA.Total) ∧
    calculatePoints F64.amd64 (withTotal scenarioA "35.35") =
      calculatePoints F64.amd64 scenarioA :=
  ⟨⟨rfl, rfl, rfl, rfl, rfl⟩,
    (C18_deterministic F64.amd64 (withTotal scenarioA "35.35") scenarioA rfl rfl rfl rfl rfl).1⟩

/-! ## The class of the retailer rule and the length of the description rule -/

theorem alphaNumRegex_eq (c : Char) : regexp.alphaNumRegex c = inRetailerClass c := by
  unfold regexp.alphaNumRegex inRetailerClass
  have h1 : 'a'.toNat = 0x61 := rfl
  have h2 : 'z'.toNat = 0x7A := rfl
  have h3 : 'A'.toNat = 0x41 := rfl
  have h4 : '0'.toNat = 0x30 := rfl
  have h5 : '9'.toNat = 0x39 := rfl
  rw [h1, h2, h3, h4, h5]
  generalize c.toNat = n
  by_cases a1 : 0x61 ≤ n <;> by_cases a2 : n ≤ 0x7A <;> by_cases a3 : 0x41 ≤ n <;>
    by_cases a4 : 0x30 ≤ n <;> by_cases a5 : n ≤ 0x39 <;> simp [a1, a2, a3, a4, a5]

theorem char_of_toNat (c : Char) (n : Nat) (h : c.toNat = n) (hn : n < 0xd800) :
    c = Char.ofNat n := by
  apply Char.ext
  apply UInt32.ext
  subst h
  rw [Char.ofNat, dif_pos (Or.inl hn)]
  rfl

theorem inRetailerClass_iff (c : Char) :
    inRetailerClass c = true ↔ (isAsciiAlnum c = true ∨ c ∈ betweenCases) := by
  unfold inRetailerClass isAsciiAlnum betweenCases
  have h1 : 'a'.toNat = 0x61 := rfl
  have h2 : 'z'.toNat = 0x7A := rfl
  have h3 : 'A'.toNat = 0x41 := rfl
  have h4 : '0'.toNat = 0x30 := rfl
  have h5 : '9'.toNat = 0x39 := rfl
  have h6 : 'Z'.toNat = 0x5A := rfl
  rw [h1, h2, h3, h4, h5, h6]
  simp only [Bool.or_eq_true, Bool.and_eq_true, decide_eq_true_eq, List.map_cons, List.map_nil,
    List.mem_cons, List.mem_singleton, List.not_mem_nil, or_false]
  constructor
  · intro h
    by_cases hz : c.toNat ≤ 0x5A ∨ 0x61 ≤ c.toNat
    · left
      omega
    · right
      have hr : c.toNat = 91 ∨ c.toNat = 92 ∨ c.toNat = 93 ∨ c.toNat = 94 ∨ c.toNat = 95 ∨
          c.toNat = 96 := by omega
      rcases hr with e | e | e | e | e | e
      · exact Or.inl (char_of_toNat c _ e (by norm_num))
      · exact Or.inr (Or.inl (char_of_toNat c _ e (by norm_num)))
      · exact Or.inr (Or.inr (Or.inl (char_of_toNat c _ e (by norm_num))))
      · exact Or.inr (Or.inr (Or.inr (Or.inl (char_of_toNat c _ e (by norm_num)))))
      · exact Or.inr (Or.inr (Or.inr (Or.inr (Or.inl (char_of_toNat c _ e (by norm_num))))))
      · exact Or.inr (Or.inr (Or.inr (Or.inr (Or.inr (char_of_toNat c _ e (by norm_num))))))
  · rintro (h | h)
    · omega
    · have hr : c.toNat = 91 ∨ c.toNat = 92 ∨ c.toNat = 93 ∨ c.toNat = 94 ∨ c.toNat = 95 ∨
          c.toNat = 96 := by
        rcases h with e | e | e | e | e | e <;> subst e <;> decide
      omega

theorem retailerOnly_points (impl : F64 → Int) (retailer : String) :
    calculatePoints impl (retailerOnly retailer) = wrapInt (retailerPoints (retailerOnly retailer)) := by
  rw [calculatePoints_eq_sum]
  have h2 : roundDollarPoints (retailerOnly retailer) = 0 := rfl
  have h3 : quarterPoints (retailerOnly retailer) = 0 := rfl
  have h4 : pairPoints (retailerOnly retailer) = 0 := by simp [pairPoints, retailerOnly]
  have h5 : descriptionPoints impl (retailerOnly retailer) = 0 := by
    simp [descriptionPoints, retailerOnly]
  have h6 : datePoints (retailerOnly retailer) = 0 := rfl
  have h7 : timePoints (retailerOnly retailer) = 0 := rfl
  rw [h2, h3, h4, h5, h6, h7]
  simp

theorem betweenCases_counted :
    ∀ c ∈ betweenCases, regexp.alphaNumRegex c = true ∧ isAsciiAlnum c = false := by decide

theorem betweenCases_eq : betweenCases = "[\\]^_\x60".data := by decide

theorem corner_points (impl : F64 → Int) :
    calculatePoints impl (retailerOnly "M&M_Corner") = 9 := rfl

theorem corner_alnum : ("M&M_Corner".data.filter isAsciiAlnum).length = 8 := by decide

theorem corner_matches :
    "M&M_Corner".data.filter regexp.alphaNumRegex = "MM_Corner".data := by decide

/-- C19: the amount that `calculatePoints` adds for the retailer is the number of
runes of the retailer whose code lies in `0`..`9`, in `a`..`z` or in the range from
`A` to `z` (0x41..0x7A).  These are the ASCII letters and digits and the six runes
between `Z` and `a`; a rune outside ASCII is never counted.  A receipt with nothing
but the retailer scores that number (reduced to the range of `int`), and the
retailer `M&M_Corner` scores 9: its 8 letters and the underscore. -/
theorem C19_retailer_class (impl : F64 → Int) (rec : receipt) :
    retailerPoints rec = ((rec.Retailer.data.filter inRetailerClass).length : Nat) ∧
    (contributions impl rec).head? =
      some (((rec.Retailer.data.filter inRetailerClass).length : Nat) : Int) ∧
    (∀ c : Char, regexp.alphaNumRegex c = true ↔
      (0x30 ≤ c.toNat ∧ c.toNat ≤ 0x39) ∨ (0x61 ≤ c.toNat ∧ c.toNat ≤ 0x7A) ∨
        (0x41 ≤ c.toNat ∧ c.toNat ≤ 0x7A)) ∧
    (∀ c : Char, regexp.alphaNumRegex c = true ↔ (isAsciiAlnum c = true ∨ c ∈ betweenCases)) ∧
    (∀ c ∈ betweenCases, regexp.alphaNumRegex c = true ∧ isAsciiAlnum c = false) ∧
    betweenCases = "[\\]^_\x60".data ∧
    (∀ c : Char, 0x80 ≤ c.toNat → regexp.alphaNumRegex c = false) ∧
    calculatePoints impl (retailerOnly rec.Retailer) =
      wrapInt ((rec.Retailer.data.filter inRetailerClass).length : Nat) ∧
    ((rec.Retailer.data.filter inRetailerClass).length < 2 ^ 63 →
      calculatePoints impl (retailerOnly rec.Retailer) =
        ((rec.Retailer.data.filter inRetailerClass).length : Nat)) ∧
    calculatePoints impl (retailerOnly "M&M_Corner") = 9 ∧
    ("M&M_Corner".data.filter isAsciiAlnum).length = 8 ∧
    "M&M_Corner".data.filter regexp.alphaNumRegex = "MM_Corner".data := by
  have hf : regexp.alphaNumRegex = inRetailerClass := funext alphaNumRegex_eq
  have hr : retailerPoints rec = ((rec.Retailer.data.filter inRetailerClass).length : Nat) := by
    simp [retailerPoints, regexp.FindAllString, hf]
  have hc : calculatePoints impl (retailerOnly rec.Retailer) =
      wrapInt ((rec.Retailer.data.filter inRetailerClass).length : Nat) := by
    rw [retailerOnly_points, retailerPoints_congr (retailerOnly rec.Retailer) rec rfl, hr]
  refine ⟨hr, ?_, ?_, ?_, betweenCases_counted, betweenCases_eq, ?_, hc, ?_, corner_points impl,
    corner_alnum, corner_matches⟩
  · simp only [contributions, List.head?_cons, hr]
  · intro c
    rw [alphaNumRegex_eq]
    simp [inRetailerClass, or_assoc]
  · intro c
    rw [alphaNumRegex_eq]
    exact inRetailerClass_iff c
  · intro c h
    rw [alphaNumRegex_eq]
    simp only [inRetailerClass, Bool.or_eq_false_iff, Bool.and_eq_false_iff, decide_eq_false_iff_not]
    refine ⟨⟨?_, ?_⟩, ?_⟩ <;> right <;> omega
  · intro h
    refine hc.trans ?_
    generalize (rec.Retailer.data.filter inRetailerClass).length = n at h ⊢
    apply wrapInt_of_range
    · exact le_trans (by norm_num) (Int.ofNat_nonneg n)
    · exact_mod_cast h

theorem runeLen_eq_utf8Size (c : Char) : runeLen c = c.utf8Size := by
  unfold runeLen Char.utf8Size Char.toNat
  simp only [UInt32.le_def, BitVec.le_def]
  have h1 : (UInt32.ofNatCore 127 (by decide)).toBitVec.toNat = 127 := rfl
  have h2 : (UInt32.ofNatCore 2047 (by decide)).toBitVec.toNat = 2047 := rfl
  have h3 : (UInt32.ofNatCore 65535 (by decide)).toBitVec.toNat = 65535 := rfl
  have h0 : c.val.toBitVec.toNat = c.val.toNat := rfl
  rw [h1, h2, h3, h0]
  generalize c.val.toNat = n
  split_ifs <;> omega

theorem utf8ByteSize_go (s : List Char) : String.utf8ByteSize.go s = len s := by
  induction s with
  | nil => rfl
  | cons c cs ih =>
    simp only [String.utf8ByteSize.go, len, List.map_cons, List.sum_cons, ih, runeLen_eq_utf8Size]
    omega

theorem len_eq_utf8ByteSize (s : List Char) : len s = (String.mk s).utf8ByteSize := by
  rw [← utf8ByteSize_go]
  rfl

theorem accent_items :
    "éa".data.length = 2 ∧ len "éa".data = 3 ∧ "éa".utf8ByteSize = 3 ∧
    "éab".data.length = 3 ∧ len "éab".data = 4 ∧ "éab".utf8ByteSize = 4 ∧
    strings.TrimSpace " éa ".data = "éa".data ∧
    itemPoints F64.amd64 ⟨"éa", "5.00"⟩ = 1 ∧
    itemPoints F64.amd64 ⟨"éab", "5.00"⟩ = 0 ∧
    itemPoints F64.amd64 ⟨"abc", "5.00"⟩ = 1 := by
  refine ⟨by decide, by decide, by decide, by decide, by decide, by decide, by decide,
    by decide!, by decide!, by decide!⟩

/-- C20: the length that rule 5 tests is Go's `len` of the trimmed description,
the number of bytes of its UTF-8 encoding, not its number of runes.  For every
item, the loop body parses the price (and adds the bonus when the price is
accepted) exactly when that number of bytes is a multiple of 3, and otherwise
leaves the points as they are.  The description `éa`, of 2 runes and 3 bytes,
qualifies (with the price `5.00` it adds 1); `éab`, of 3 runes and 4 bytes, does
not. -/
theorem C20_byte_length (impl : F64 → Int) (item : Item) (points : Int) :
    (∀ s : List Char, len s = (String.mk s).utf8ByteSize) ∧
    itemStep impl points item =
      (if (String.mk (strings.TrimSpace item.ShortDescription.data)).utf8ByteSize % 3 = 0 then
        match strconv.ParseFloat item.Price.data with
        | .ok price => wrapInt (points + F64.toInt impl (math.Ceil (F64.mul price F64.fifth)))
        | .error _ => points
      else points) ∧
    itemPoints impl item =
      (if (String.mk (strings.TrimSpace item.ShortDescription.data)).utf8ByteSize % 3 = 0 then
        match strconv.ParseFloat item.Price.data with
        | .ok price => F64.toInt impl (math.Ceil (F64.mul price F64.fifth))
        | .error _ => 0
      else 0) ∧
    ((String.mk (strings.TrimSpace item.ShortDescription.data)).utf8ByteSize % 3 ≠ 0 →
      itemStep impl points item = points ∧ itemPoints impl item = 0) ∧
    (∀ p, (String.mk (strings.TrimSpace item.ShortDescription.data)).utf8ByteSize % 3 = 0 →
      strconv.ParseFloat item.Price.data = .ok p →
      itemStep impl points item =
        wrapInt (points + F64.toInt impl (math.Ceil (F64.mul p F64.fifth))) ∧
      itemPoints impl item = F64.toInt impl (math.Ceil (F64.mul p F64.fifth))) ∧
    "éa".data.length = 2 ∧ len "éa".data = 3 ∧ "éa".utf8ByteSize = 3 ∧
    "éab".data.length = 3 ∧ len "éab".data = 4 ∧ "éab".utf8ByteSize = 4 ∧
    strings.TrimSpace " éa ".data = "éa".data ∧
    itemPoints F64.amd64 ⟨"éa", "5.00"⟩ = 1 ∧
    itemPoints F64.amd64 ⟨"éab", "5.00"⟩ = 0 ∧
    itemPoints F64.amd64 ⟨"abc", "5.00"⟩ = 1 := by
  have hl := len_eq_utf8ByteSize (strings.TrimSpace item.ShortDescription.data)
  have hs : itemStep impl points item =
      (if (String.mk (strings.TrimSpace item.ShortDescription.data)).utf8ByteSize % 3 = 0 then
        match strconv.ParseFloat item.Price.data with
        | .ok price => wrapInt (points + F64.toInt impl (math.Ceil (F64.mul price F64.fifth)))
        | .error _ => points
      else points) := by
    rw [← hl]
    rfl
  have hi : itemPoints impl item =
      (if (String.mk (strings.TrimSpace item.ShortDescription.data)).utf8ByteSize % 3 = 0 then
        match strconv.ParseFloat item.Price.data with
        | .ok price => F64.toInt impl (math.Ceil (F64.mul price F64.fifth))
        | .error _ => 0
      else 0) := by
    rw [← hl]
    rfl
  refine ⟨len_eq_utf8ByteSize, hs, hi, ?_, ?_, accent_items⟩
  · intro h
    rw [hs, hi, if_neg h, if_neg h]
    exact ⟨rfl, rfl⟩
  · intro p h hp
    rw [hs, hi, if_pos h, if_pos h, hp]
    exact ⟨rfl, rfl⟩

end Receipts
